import Mathlib

/-!
Verification of the openformats format-preserving extraction/recompilation
engine.  The Python sources under `openformats/` are shallowly embedded as
Lean functions over `List Char` (strings), explicit state records
(the `Transcriber`), and `Except`-valued functions for fallible code.
-/

namespace OpenFormats

/-! ## Transcriber (openformats/transcribers.py) -/

/-- A chunk of the transcriber's destination sequence: a verbatim or literal
text chunk, the `SectionStart` / `SectionEnd` sentinel classes, or `None`
(a tombstone written by `remove_section`). -/
inductive Chunk
  | text (s : List Char)
  | sectionStart
  | sectionEnd
  | tomb
  deriving DecidableEq

/-- `'\r\n' in source` (`Transcriber.__init__`). -/
def hasCRLF : List Char → Bool
  | '\r' :: '\n' :: _ => true
  | _ :: rest => hasCRLF rest
  | [] => false

/-- `source.replace('\r\n', '\n')` (`Transcriber.__init__`). -/
def replaceCRLF : List Char → List Char
  | '\r' :: '\n' :: rest => '\n' :: replaceCRLF rest
  | c :: rest => c :: replaceCRLF rest
  | [] => []

/-- `chunk.replace('\n', '\r\n')` (`Transcriber.edit_newlines`). -/
def expandLF : List Char → List Char
  | '\n' :: rest => '\r' :: '\n' :: expandLF rest
  | c :: rest => c :: expandLF rest
  | [] => []

/-- The `Transcriber` state: source text (already newline-normalized),
destination chunk sequence, cursor `ptr`, newline counter, and the detected
newline type (`newlineTypeDOS = true` for `"DOS"`). -/
structure Transcriber where
  source : List Char
  destination : List Chunk
  ptr : Nat
  newlineCount : Nat
  newlineTypeDOS : Bool
  deriving DecidableEq

namespace Transcriber

/-- `Transcriber.__init__`: detect the newline type and normalize the
source to UNIX newlines. -/
def init (source : List Char) : Transcriber :=
  let dos := hasCRLF source
  { source := if dos then replaceCRLF source else source
    destination := []
    ptr := 0
    newlineCount := 0
    newlineTypeDOS := dos }

/-- `self.source[self.ptr:self.ptr + offset]` -/
def sliceLen (t : Transcriber) (offset : Nat) : List Char :=
  (t.source.drop t.ptr).take offset

/-- `self.source[self.ptr:end]` (Python slice: empty if `e ≤ ptr`). -/
def sliceUntil (t : Transcriber) (e : Nat) : List Char :=
  (t.source.take e).drop t.ptr

/-- `Transcriber.copy` -/
def copy (t : Transcriber) (offset : Nat) : Transcriber :=
  let chunk := t.sliceLen offset
  { t with destination := t.destination ++ [Chunk.text chunk]
           ptr := t.ptr + offset
           newlineCount := t.newlineCount + chunk.count '\n' }

/-- `Transcriber.copy_until` -/
def copyUntil (t : Transcriber) (e : Nat) : Transcriber :=
  let chunk := t.sliceUntil e
  { t with destination := t.destination ++ [Chunk.text chunk]
           ptr := e
           newlineCount := t.newlineCount + chunk.count '\n' }

/-- `Transcriber.add` -/
def add (t : Transcriber) (s : List Char) : Transcriber :=
  { t with destination := t.destination ++ [Chunk.text s] }

/-- `Transcriber.skip` -/
def skip (t : Transcriber) (offset : Nat) : Transcriber :=
  { t with ptr := t.ptr + offset
           newlineCount := t.newlineCount + (t.sliceLen offset).count '\n' }

/-- `Transcriber.skip_until` -/
def skipUntil (t : Transcriber) (e : Nat) : Transcriber :=
  { t with ptr := e
           newlineCount := t.newlineCount + (t.sliceUntil e).count '\n' }

/-- `Transcriber.mark_section_start` -/
def markSectionStart (t : Transcriber) : Transcriber :=
  { t with destination := t.destination ++ [Chunk.sectionStart] }

/-- `Transcriber.mark_section_end` -/
def markSectionEnd (t : Transcriber) : Transcriber :=
  { t with destination := t.destination ++ [Chunk.sectionEnd] }

end Transcriber

/-- Loop body of `Transcriber._find_last_section_start`: scan the reversed
destination (`destination[::-1]`, 1-based index `i`), counting down from
`place` at each `SectionStart`. -/
def findLastSectionStartGo : List Chunk → Nat → Nat → Nat → Option Nat
  | [], _, _, _ => none
  | c :: rest, cnt, len, i =>
    if c = Chunk.sectionStart then
      if cnt = 0 then some (len - i)
      else findLastSectionStartGo rest (cnt - 1) len (i + 1)
    else findLastSectionStartGo rest cnt len (i + 1)

/-- `Transcriber._find_last_section_start`: index of the `place`-th
`SectionStart` counting from the end of the destination (`None` when the
loop falls through). -/
def findLastSectionStart (dest : List Chunk) (place : Nat) : Option Nat :=
  findLastSectionStartGo dest.reverse place dest.length 1

/-- `self.destination.index(self.SectionEnd, start)`: the first index
`≥ start` holding `SectionEnd` (`None` models the `ValueError`). -/
def indexOfSectionEndFrom (dest : List Chunk) (start : Nat) : Option Nat :=
  match (dest.drop start).findIdx? (· = Chunk.sectionEnd) with
  | some k => some (start + k)
  | none => none

/-- The `for i in range(s, e + 1): destination[i] = None` loop of
`Transcriber.remove_section`. -/
def tombRange (dest : List Chunk) (s e : Nat) : List Chunk :=
  dest.mapIdx fun i c => if s ≤ i ∧ i ≤ e then Chunk.tomb else c

namespace Transcriber

/-- `Transcriber.remove_section`.  When no `SectionStart` is found the
Python code raises a `TypeError` (programming-contract violation); that
case is modelled as a no-op and is never exercised by the callers. -/
def removeSection (t : Transcriber) (place : Nat) : Transcriber :=
  match findLastSectionStart t.destination place with
  | none => t
  | some s =>
    let e := match indexOfSectionEndFrom t.destination s with
      | some e => e
      | none => t.destination.length - 1
    { t with destination := tombRange t.destination s e }

/-- `Transcriber.line_number` -/
def lineNumber (t : Transcriber) : Nat :=
  t.newlineCount + 1

/-- One chunk's contribution to `Transcriber.get_destination`:
sentinels and tombstones are omitted, text chunks go through
`edit_newlines`. -/
def renderChunk (dos : Bool) : Chunk → List Char
  | Chunk.text s => if dos then expandLF s else s
  | _ => []

/-- `Transcriber.get_destination` (with the default
`enforce_newline_type=None`). -/
def getDestination (t : Transcriber) : List Char :=
  (t.destination.map (renderChunk t.newlineTypeDOS)).flatten

end Transcriber

/-- A concrete destination in which the outer section
(`sectionStart` at index 0, `sectionEnd` at index 6) completely contains a
nested section (indices 2–4), used to test `remove_section`. -/
def nestedDest : List Chunk :=
  [Chunk.sectionStart, Chunk.text ['a'], Chunk.sectionStart,
   Chunk.text ['b'], Chunk.sectionEnd, Chunk.text ['c'], Chunk.sectionEnd]

/-- A transcriber whose destination is `nestedDest`. -/
def nestedDestTranscriber : Transcriber :=
  { source := [], destination := nestedDest, ptr := 0, newlineCount := 0,
    newlineTypeDOS := false }

/-! ## JsonHandler._escape_key (openformats/formats/json.py) -/

/-- Python `str.replace(needle, repl)` specialized to a single-character
needle (both needles in `_escape_key` are single characters). -/
def replaceChar (needle : Char) (repl : List Char) : List Char → List Char
  | [] => []
  | c :: rest => (if c = needle then repl else [c]) ++ replaceChar needle repl rest

/-- `JsonHandler._escape_key`: double every backslash, then prefix every
`'.'` with a backslash (`DumbJson.BACKSLASH = '\\'`). -/
def escapeKey (key : List Char) : List Char :=
  replaceChar '.' ['\\', '.'] (replaceChar '\\' ['\\', '\\'] key)

/-- The per-character effect of `_escape_key`. -/
def escChar (c : Char) : List Char :=
  if c = '\\' then ['\\', '\\'] else if c = '.' then ['\\', '.'] else [c]

/-! ## JsonHandler._clean_empties (openformats/formats/json.py) -/

/-- Python regex `\s` on the whitespace characters that can occur here. -/
def isPyWs (c : Char) : Bool :=
  c = ' ' || c = '\t' || c = '\n' || c = '\r' || c = '\x0b' || c = '\x0c'

/-- After the pattern's first literal, consume `\s*` and then the second
literal `b`; returns how many characters were consumed if the pattern
completes.  (Since `b` is never a whitespace character, the greedy `\s*`
either reaches `b` right after the maximal whitespace run or the pattern
fails at this start position.) -/
def scanWsThen (b : Char) : List Char → Option Nat
  | [] => none
  | c :: rest =>
    if isPyWs c then (scanWsThen b rest).map (· + 1)
    else if c = b then some 1
    else none

/-- `re.search(a + r'\s*' + b, l)`: the leftmost match, as its
`(start, end)` positions. -/
def searchPair (a b : Char) : List Char → Option (Nat × Nat)
  | [] => none
  | c :: rest =>
    if c = a then
      match scanWsThen b rest with
      | some n => some (0, n + 1)
      | none => (searchPair a b rest).map fun p => (p.1 + 1, p.2 + 1)
    else (searchPair a b rest).map fun p => (p.1 + 1, p.2 + 1)

/-- One `_clean_empties` substitution:
`compiled[:match.start()] + repl + compiled[match.end():]`. -/
def rewritePair (a b repl : Char) (l : List Char) : Option (List Char) :=
  (searchPair a b l).map fun p => l.take p.1 ++ [repl] ++ l.drop p.2

/-- One iteration of the `_clean_empties` loop: try the five patterns
`{\s*,`, `,\s*}`, `[\s*,`, `,\s*]`, `,\s*,` in order and perform the
first substitution that applies (`none` = the loop breaks). -/
def cleanStep (l : List Char) : Option (List Char) :=
  ((((rewritePair '{' ',' '{' l).or
    (rewritePair ',' '}' '}' l)).or
    (rewritePair '[' ',' '[' l)).or
    (rewritePair ',' ']' ']' l)).or
    (rewritePair ',' ',' ',' l)

/-- The `while True` loop of `_clean_empties`, with explicit fuel.  Every
substitution strictly shrinks the text, so `l.length` fuel is enough. -/
def cleanEmptiesGo : Nat → List Char → List Char
  | 0, l => l
  | n + 1, l =>
    match cleanStep l with
    | none => l
    | some r => cleanEmptiesGo n r

/-- `JsonHandler._clean_empties`. -/
def cleanEmpties (l : List Char) : List Char :=
  cleanEmptiesGo l.length l

/-! ## String model and plural rules -/

/-- Modelled from the spec: the plural payload of an `OpenString`
(`openformats/strings.py` is not under `src/`): either a literal text or a
mapping from plural-rule number to brace-stripped content. -/
inductive Payload
  | plain (s : List Char)
  | plural (m : List (Nat × List Char))
  deriving DecidableEq

/-- Modelled from the spec: `OpenString` — `key`, `string` payload,
extraction `order`, `pluralized` flag (`openformats/strings.py` is not
under `src/`). -/
structure OpenString where
  key : List Char
  payload : Payload
  order : Nat
  pluralized : Bool
  deriving DecidableEq

/-- Modelled from the spec: `Handler.get_rule_string` / `_RULES_ITOA`
(`openformats/handlers.py` is not under `src/`): the fixed table
zero/one/two/few/many/other ↔ 0–5.  The Python lookup raises for a number
outside the table; theorems only use rule numbers 0–5. -/
def getRuleString (n : Nat) : List Char :=
  if n = 0 then ['z', 'e', 'r', 'o']
  else if n = 1 then ['o', 'n', 'e']
  else if n = 2 then ['t', 'w', 'o']
  else if n = 3 then ['f', 'e', 'w']
  else if n = 4 then ['m', 'a', 'n', 'y']
  else ['o', 't', 'h', 'e', 'r']

/-- Ordered insertion into an ascending-by-key association list,
overwriting an existing binding.  Together with `dictOfList` this models a
Python `dict` with small-int keys: building `dict(pairs)` left to right
with later pairs overwriting, and iterating it in CPython slot order,
which for keys 0–7 (each hashes to itself into its own slot of the size-8
table) is ascending key order. -/
def dictInsert (k : Nat) (v : List Char) :
    List (Nat × List Char) → List (Nat × List Char)
  | [] => [(k, v)]
  | (k', v') :: rest =>
    if k < k' then (k, v) :: (k', v') :: rest
    else if k = k' then (k, v) :: rest
    else (k', v') :: dictInsert k v rest

/-- `dict(pairs)` for small-int keys, as iterated by CPython: later pairs
overwrite earlier ones, enumeration is in ascending key order. -/
def dictOfList (l : List (Nat × List Char)) : List (Nat × List Char) :=
  l.foldl (fun acc p => dictInsert p.1 p.2 acc) []

/-- The rule dict held by a pluralized `OpenString.string`. -/
def pluralPayload : Payload → List (Nat × List Char)
  | Payload.plural m => m
  | Payload.plain _ => []

/-- One entry of `serialize_pluralized_string`'s list comprehension:
`u'{} {{{}}}'.format(Handler.get_rule_string(rule), translation)`. -/
def pluralGroupFormat (rt : Nat × List Char) : List Char :=
  getRuleString rt.1 ++ ' ' :: '{' :: (rt.2 ++ ['}'])

/-- `JsonHandler.serialize_pluralized_string`: concatenate the
`<rule-name> {<content>}` groups over the payload dict's (ascending-key)
iteration, joined by `delimiter`. -/
def serializePluralizedString (os : OpenString) (delim : List Char) :
    List Char :=
  List.intercalate delim
    ((dictOfList (pluralPayload os.payload)).map pluralGroupFormat)

/-! ## NewDumbXml (openformats/utils/xml.py) -/

/-- `DumbXmlSyntaxError`, with the computed 1-based line number. -/
inductive XmlErr
  | openingTagNotClosed (line : Nat)
  | tagNotClosed (line : Nat)
  | commentNotClosed (line : Nat)
  | somethingWentWrong
  deriving DecidableEq

/-- `NewDumbXml.COMMENT` -/
def commentTag : List Char := ['!', '-', '-']

/-- The `"<!--"` literal. -/
def commentOpen : List Char := ['<', '!', '-', '-']

/-- The `"<![CDATA["` literal. -/
def cdataOpen : List Char := ['<', '!', '[', 'C', 'D', 'A', 'T', 'A', '[']

/-- The `"]]>"` literal. -/
def cdataClose : List Char := [']', ']', '>']

/-- `NewDumbXml.SINGLE_QUOTE` -/
def singleQuoteChar : Char := Char.ofNat 39

/-- `source[:ptr].count('\n') + 1` (`NewDumbXml._find_line_number`). -/
def lineNumberAt (src : List Char) (ptr : Nat) : Nat :=
  (src.take ptr).count '\n' + 1

/-- The scan loop of `NewDumbXml._find_next_lt`: walk the remaining
suffix (absolute index `idx`), tracking the CDATA mode flag; stop at the
first `'<'` outside a CDATA section; at the end of the source return its
length. -/
def findNextLtGo : List Char → Nat → Bool → Nat
  | [], idx, _ => idx
  | c :: rest, idx, inCdata =>
    if inCdata then
      if c = ']' ∧ (c :: rest).take 3 = cdataClose then
        findNextLtGo rest (idx + 1) false
      else findNextLtGo rest (idx + 1) true
    else
      if c = '<' then
        if (c :: rest).take 9 = cdataOpen then findNextLtGo rest (idx + 1) true
        else idx
      else findNextLtGo rest (idx + 1) false

/-- `NewDumbXml._find_next_lt` -/
def findNextLt (src : List Char) (start : Nat) : Nat :=
  findNextLtGo (src.drop start) start false

/-- The scan of `NewDumbXml.tag`: from `position + 1`, the first index
holding `'/'`, `'>'` or whitespace ends the tag name. -/
def tagEndIdx : List Char → Nat → Option Nat
  | [], _ => none
  | c :: rest, idx =>
    if c = '/' ∨ c = '>' ∨ isPyWs c then some idx
    else tagEndIdx rest (idx + 1)

/-- `NewDumbXml.tag` (`position` is `findNextLt src start`). -/
def tagOf (src : List Char) (start : Nat) : Except XmlErr (List Char) :=
  let pos := findNextLt src start
  if (src.drop pos).take 4 = commentOpen then Except.ok commentTag
  else
    match tagEndIdx (src.drop (pos + 1)) (pos + 1) with
    | some e => Except.ok ((src.drop (pos + 1)).take (e - (pos + 1)))
    | none => Except.error (XmlErr.openingTagNotClosed (lineNumberAt src pos))

/-- One attribute: `(key_position, key, value_position, value)`. -/
abbrev XmlAttr : Type := Nat × List Char × Nat × List Char

/-- The `status` of the `NewDumbXml.attributes` state machine
(`None` / `IN_KEY` / `AFTER_KEY` / `IN_VALUE`). -/
inductive AttrState
  | outside
  | inKey (keyPos : Nat) (key : List Char)
  | afterKey (keyPos : Nat) (key : List Char)
  | inValue (keyPos : Nat) (key : List Char) (quote : Char) (valPos : Nat)
      (val : List Char)

/-- The `for ptr in count(start)` loop of `NewDumbXml.attributes`:
running off the end of the source is the Python `IndexError`, reported as
"Opening tag not closed"; the loop breaks at `'/'` or `'>'` in the
`None` status, returning the attributes and the break position. -/
def attrGo (src : List Char) (pos : Nat) :
    List Char → Nat → AttrState → List XmlAttr →
      Except XmlErr (List XmlAttr × Nat)
  | [], _, _, _ =>
    Except.error (XmlErr.openingTagNotClosed (lineNumberAt src pos))
  | c :: rest, ptr, AttrState.outside, acc =>
    if c = '/' ∨ c = '>' then Except.ok (acc, ptr)
    else if isPyWs c then attrGo src pos rest (ptr + 1) AttrState.outside acc
    else attrGo src pos rest (ptr + 1) (AttrState.inKey ptr [c]) acc
  | c :: rest, ptr, AttrState.inKey kp key, acc =>
    if c = '=' then attrGo src pos rest (ptr + 1) (AttrState.afterKey kp key) acc
    else attrGo src pos rest (ptr + 1) (AttrState.inKey kp (key ++ [c])) acc
  | c :: rest, ptr, AttrState.afterKey kp key, acc =>
    if c = singleQuoteChar ∨ c = '"' then
      attrGo src pos rest (ptr + 1) (AttrState.inValue kp key c (ptr + 1) []) acc
    else attrGo src pos rest (ptr + 1) (AttrState.afterKey kp key) acc
  | c :: rest, ptr, AttrState.inValue kp key q vp val, acc =>
    if c = q then
      attrGo src pos rest (ptr + 1) AttrState.outside (acc ++ [(kp, key, vp, val)])
    else attrGo src pos rest (ptr + 1) (AttrState.inValue kp key q vp (val ++ [c])) acc

/-- `NewDumbXml.attributes` (together with the break position, which
determines `_attrib_string` and hence `text_position`).  Comments get
empty attributes (`_process_comment`). -/
def attributesOf (src : List Char) (start : Nat) :
    Except XmlErr (List XmlAttr × Nat) := do
  let tag ← tagOf src start
  let pos := findNextLt src start
  if tag = commentTag then Except.ok ([], pos + 4)
  else
    let st := pos + 1 + tag.length
    attrGo src pos (src.drop st) st AttrState.outside []

/-- The trailing scan of the single-tag case of
`NewDumbXml.text_position`: after the `'/'`, whitespace may precede the
closing `'>'`; anything else (or the end of the source) raises. -/
def singleTagCloseGo (src : List Char) (pos : Nat) :
    List Char → Except XmlErr Unit
  | [] => Except.error (XmlErr.openingTagNotClosed (lineNumberAt src pos))
  | c :: rest =>
    if isPyWs c then singleTagCloseGo src pos rest
    else if c = '>' then Except.ok ()
    else Except.error (XmlErr.openingTagNotClosed (lineNumberAt src pos))

/-- `NewDumbXml.text_position`: `None` for a single tag (`<br />`), the
position right after the `'>'` otherwise.  For a comment,
`_process_comment` sets it to `position + len("<!--")`. -/
def textPositionOf (src : List Char) (start : Nat) :
    Except XmlErr (Option Nat) := do
  let tag ← tagOf src start
  let pos := findNextLt src start
  if tag = commentTag then Except.ok (some (pos + 4))
  else do
    let attrs ← attributesOf src start
    let brk := attrs.2
    match (src.drop brk).head? with
    | some c =>
      if c = '/' then do
        singleTagCloseGo src pos (src.drop (brk + 1))
        Except.ok none
      else if c = '>' then Except.ok (some (brk + 1))
      else Except.error XmlErr.somethingWentWrong
    | none => Except.error XmlErr.somethingWentWrong

/-- The scan for `"-->"` in `NewDumbXml._process_comment`. -/
def commentEndGo : List Char → Nat → Option Nat
  | [], _ => none
  | c :: rest, idx =>
    if c = '-' ∧ (c :: rest).take 3 = ['-', '-', '>'] then some idx
    else commentEndGo rest (idx + 1)

/-- `NewDumbXml.text`: `None` when `text_position` is `None` (single
tag), otherwise the characters from `text_position` up to the next
`'<'`; reaching the end of the source instead raises "Tag not closed".
For a comment, the text runs up to `"-->"`. -/
def textOf (src : List Char) (start : Nat) :
    Except XmlErr (Option (List Char)) := do
  let tag ← tagOf src start
  let pos := findNextLt src start
  if tag = commentTag then
    match commentEndGo (src.drop (pos + 4)) (pos + 4) with
    | some e => Except.ok (some ((src.take e).drop (pos + 4)))
    | none => Except.error (XmlErr.commentNotClosed (lineNumberAt src pos))
  else do
    let tp ← textPositionOf src start
    match tp with
    | none => Except.ok none
    | some p =>
      let ntp := findNextLt src p
      if ntp = src.length then
        Except.error (XmlErr.tagNotClosed (lineNumberAt src pos))
      else Except.ok (some ((src.take ntp).drop p))

/-! ## Flat JSON documents and the DumbJson walker

`openformats/utils/json.py` (`DumbJson`) is not under `src/`; it is
modelled from the spec as the position-aware key/value walker over a flat
JSON object: iterating yields `(key, key_position, value, value_position)`
tuples in document order, every position an absolute offset into the
source.  `validate_content` (stdlib `json.loads`, an out-of-scope
external parser per the spec) is modelled as acceptance by the same
walker.  The modelled document universe is flat objects whose string
literals contain no escape sequences; nested containers are outside the
model. -/

deriving instance DecidableEq for Except

/-- A scalar value: a string literal (the raw content between the double
quotes) or any other scalar's verbatim token (number, boolean, null). -/
inductive JValue
  | str (s : List Char)
  | other (tok : List Char)
  deriving DecidableEq

/-- One `"key": value` entry together with the surrounding whitespace:
`wsBefore` sits between the `{` or `,` and the key's opening quote,
`wsAfter` between the `:` and the value. -/
structure JEntry where
  wsBefore : List Char
  key : List Char
  wsAfter : List Char
  value : JValue
  deriving DecidableEq

/-- A flat JSON object document; `wsEnd` is the whitespace before the
closing `}`. -/
structure JDoc where
  entries : List JEntry
  wsEnd : List Char
  deriving DecidableEq

/-- Join with single `','` separators. -/
def joinComma : List (List Char) → List Char
  | [] => []
  | [x] => x
  | x :: xs => x ++ ',' :: joinComma xs

/-- Text of one value. -/
def renderJValue : JValue → List Char
  | JValue.str s => '"' :: s ++ ['"']
  | JValue.other tok => tok

/-- Text of one entry: `wsBefore"key":wsAfter<value>`. -/
def renderJEntry (e : JEntry) : List Char :=
  e.wsBefore ++ '"' :: e.key ++ '"' :: ':' :: e.wsAfter ++ renderJValue e.value

/-- Text of a document. -/
def renderJDoc (d : JDoc) : List Char :=
  '{' :: joinComma (d.entries.map renderJEntry) ++ d.wsEnd ++ ['}']

/-- One walker tuple: `(key, key_position, value, value_position)`. -/
structure PosEntry where
  key : List Char
  keyPos : Nat
  value : JValue
  valuePos : Nat
  deriving DecidableEq

/-- The value's position for the walker: for a string literal, the first
character of the content (right after the opening quote); for another
scalar, the token start. -/
def entryValuePos (e : JEntry) (o : Nat) : Nat :=
  match e.value with
  | JValue.str _ =>
    o + e.wsBefore.length + e.key.length + e.wsAfter.length + 4
  | JValue.other _ =>
    o + e.wsBefore.length + e.key.length + e.wsAfter.length + 3

/-- The walker tuples of the entries starting at absolute offset `o`
(entries are separated by one `','`). -/
def posEntriesGo : List JEntry → Nat → List PosEntry
  | [], _ => []
  | e :: rest, o =>
    { key := e.key, keyPos := o + e.wsBefore.length + 1, value := e.value,
      valuePos := entryValuePos e o } ::
      posEntriesGo rest (o + (renderJEntry e).length + 1)

/-- All walker tuples of a document (the first entry starts right after
the opening `{`). -/
def posEntries (d : JDoc) : List PosEntry :=
  posEntriesGo d.entries 1

/-- A token character for a non-string scalar: anything up to whitespace,
`','` or `'}'`. -/
def isTokChar (c : Char) : Bool :=
  !isPyWs c && c ≠ ',' && c ≠ '}'

/-- Consume one expected character from the head of the input. -/
def expectChar (c : Char) : List Char → Option (List Char)
  | d :: rest => if d = c then some rest else none
  | [] => none

/-- Read one entry from the head of `l`, returning it and the rest. -/
def reparseEntry (l : List Char) : Option (JEntry × List Char) :=
  let ws := l.takeWhile isPyWs
  match expectChar '"' (l.dropWhile isPyWs) with
  | none => none
  | some r2 =>
    let key := r2.takeWhile (fun x => decide (x ≠ '"'))
    match expectChar '"' (r2.dropWhile (fun x => decide (x ≠ '"'))) with
    | none => none
    | some r3 =>
      match expectChar ':' r3 with
      | none => none
      | some r4 =>
        let wsA := r4.takeWhile isPyWs
        let r5 := r4.dropWhile isPyWs
        if r5.head? = some '"' then
          let r6 := r5.tail
          let sv := r6.takeWhile (fun x => decide (x ≠ '"'))
          match expectChar '"' (r6.dropWhile (fun x => decide (x ≠ '"'))) with
          | none => none
          | some r8 => some (⟨ws, key, wsA, JValue.str sv⟩, r8)
        else
          let tok := r5.takeWhile isTokChar
          if tok = [] then none
          else some (⟨ws, key, wsA, JValue.other tok⟩, r5.dropWhile isTokChar)

/-- Read a `','`-separated sequence of entries (with fuel; each entry
consumes at least one character). -/
def reparseEntriesGo : Nat → List Char → Option (List JEntry × List Char)
  | 0, _ => none
  | fuel + 1, l =>
    match reparseEntry l with
    | none => none
    | some (e, r) =>
      if r.head? = some ',' then
        match reparseEntriesGo fuel r.tail with
        | some (es, r3) => some (e :: es, r3)
        | none => none
      else some ([e], r)

/-- The modelled `DumbJson` reader: accept exactly the flat-object texts
of the modelled universe and recover their structure. -/
def reparse (c : List Char) : Option JDoc :=
  match expectChar '{' c with
  | none => none
  | some r =>
    if r.dropWhile isPyWs = ['}'] then some ⟨[], r.takeWhile isPyWs⟩
    else
      match reparseEntriesGo r.length r with
      | some (es, rem) =>
        if rem.dropWhile isPyWs = ['}'] then some ⟨es, rem.takeWhile isPyWs⟩
        else none
      | none => none

/-! ## Template replacements (openformats/strings.py, not under src/) -/

/-- One lowercase hex digit. -/
def hexDigit (n : Nat) : Char :=
  if n < 10 then Char.ofNat (48 + n) else Char.ofNat (87 + n)

/-- Six lowercase hex digits (big-endian). -/
def hex6 (n : Nat) : List Char :=
  [hexDigit (n / 16 ^ 5 % 16), hexDigit (n / 16 ^ 4 % 16),
   hexDigit (n / 16 ^ 3 % 16), hexDigit (n / 16 ^ 2 % 16),
   hexDigit (n / 16 % 16), hexDigit (n % 16)]

/-- Modelled from the spec: the hash underlying
`OpenString.template_replacement` (`openformats/strings.py` is not under
`src/`): a deterministic, collision-free token derived from the key,
containing only hex digits — no host-format structural delimiters.  (The
real implementation uses an md5 of the key and the plural-rule set; what
the engine relies on is determinism in the key and the absence of
structural characters, which this encoding provides exactly.) -/
def keyHash (key : List Char) : List Char :=
  (key.map fun c => hex6 c.toNat).flatten

/-- Modelled from the spec: `OpenString.template_replacement` — the key
hash plus a `_pl` suffix for pluralized strings and `_tr` otherwise, as
in the real implementation. -/
def templateReplacement (key : List Char) (pluralized : Bool) : List Char :=
  keyHash key ++ (if pluralized then ['_', 'p', 'l'] else ['_', 't', 'r'])

/-- `openstring.template_replacement` -/
def osTemplateReplacement (os : OpenString) : List Char :=
  templateReplacement os.key os.pluralized

/-- `openstring.string` as text.  For a pluralized string the attribute
is the rule dict itself; it is never inserted as text by any reachable
path of the compile flow (the pluralized branch goes through
`serialize_pluralized_string` instead), so that case is the empty text. -/
def osString (os : OpenString) : List Char :=
  match os.payload with
  | Payload.plain s => s
  | Payload.plural _ => []

/-! ## JsonHandler.parse (openformats/formats/json.py) -/

/-- `ParseError`s of the modelled parse: `invalidJson` for
`validate_content` / `DumbJson` rejection, `duplicateKey` with the key
and 1-based line number, and `unmodelledPlural` marking the
pluralized-string branch (`_parse_pluralized_string` is driven by the
external `pyparsing` library, out of scope per the spec; every theorem's
hypotheses keep inputs away from it). -/
inductive PErr
  | invalidJson
  | duplicateKey (key : List Char) (line : Nat)
  | unmodelledPlural (key : List Char)
  deriving DecidableEq

/-- Python `str.strip()` over the whitespace characters occurring here. -/
def pyStrip (l : List Char) : List Char :=
  ((l.dropWhile isPyWs).reverse.dropWhile isPyWs).reverse

/-- Character class `[A-Za-z-_\d]` of the `_parse_special` regex. -/
def isW1 (c : Char) : Bool :=
  c.isAlpha || c.isDigit || c = '-' || c = '_'

/-- Character class `[A-Za-z_]` of the `_parse_special` regex. -/
def isW2 (c : Char) : Bool :=
  c.isAlpha || c = '_'

/-- The literal `plural` (`JsonHandler.PLURAL_ARG`). -/
def pluralWord : List Char := ['p', 'l', 'u', 'r', 'a', 'l']

/-- The envelope regex of `JsonHandler._parse_special`,
`\s*{\s*([A-Za-z-_\d]+)\s*,\s*([A-Za-z_]+)\s*,\s*(.*)}\s*`, as a
character scan returning the keyword, the argument and the serialized
tail (the tail group is cut at the last `'}'`; the regex's
`.`-excludes-newline subtlety is not modelled — no theorem depends on
the tail). -/
def specialEnvelope (v : List Char) :
    Option (List Char × List Char × List Char) :=
  match (v.dropWhile isPyWs) with
  | '{' :: r2 =>
    let r3 := r2.dropWhile isPyWs
    let w1 := r3.takeWhile isW1
    if w1 = [] then none
    else
      match (r3.dropWhile isW1).dropWhile isPyWs with
      | ',' :: r6 =>
        let r7 := r6.dropWhile isPyWs
        let w2 := r7.takeWhile isW2
        if w2 = [] then none
        else
          match (r7.dropWhile isW2).dropWhile isPyWs with
          | ',' :: r10 =>
            match r10.reverse.dropWhile (· ≠ '}') with
            | '}' :: restRev => some (w1, w2, restRev.reverse)
            | _ => none
          | _ => none
      | _ => none
  | _ => none

/-- `True` when `_parse_special` would dispatch to the pluralized-string
branch: the envelope matches and its argument is `plural`. -/
def isPluralShaped (v : List Char) : Bool :=
  match specialEnvelope v with
  | some (_, w2, _) => w2 = pluralWord
  | none => false

/-- The mutable state of `JsonHandler.parse`/`_extract`: the transcriber,
`existing_keys`, the stringset and the `_order` counter. -/
structure ParseState where
  t : Transcriber
  existing : List (List Char)
  stringset : List OpenString
  order : Nat
  deriving DecidableEq

/-- `JsonHandler._get_regular_string`: build the `OpenString`, copy up to
the value, add the placeholder, skip the original value. -/
def getRegularString (st : ParseState) (key v : List Char)
    (valuePos : Nat) : ParseState :=
  let os : OpenString :=
    { key := key, payload := Payload.plain v, order := st.order,
      pluralized := false }
  { t := ((st.t.copyUntil valuePos).add (osTemplateReplacement os)).skip
      v.length
    existing := st.existing
    stringset := st.stringset ++ [os]
    order := st.order + 1 }

/-- The loop body of `JsonHandler._extract` (dict case, flat document):
duplicate-key check (reported with the line number after copying up to
the key), skip empty/whitespace-only strings, try the pluralized
envelope, fall back to the regular string; other scalars are ignored. -/
def extractEntry (st : ParseState) (pe : PosEntry) :
    Except PErr ParseState :=
  let key := escapeKey pe.key
  if key ∈ st.existing then
    Except.error (PErr.duplicateKey key
      ((st.t.copyUntil pe.keyPos).lineNumber))
  else
    let st := { st with existing := st.existing ++ [key] }
    match pe.value with
    | JValue.str v =>
      if pyStrip v = [] then Except.ok st
      else if isPluralShaped v then Except.error (PErr.unmodelledPlural key)
      else Except.ok (getRegularString st key v pe.valuePos)
    | JValue.other _ => Except.ok st

/-- The `_extract` loop over the walker tuples. -/
def extractEntries : List PosEntry → ParseState → Except PErr ParseState
  | [], st => Except.ok st
  | pe :: rest, st =>
    match extractEntry st pe with
    | Except.error e => Except.error e
    | Except.ok st2 => extractEntries rest st2

/-- `JsonHandler.parse` over a flat document: validate, normalize
newlines, walk and extract, copy the remainder, render the template. -/
def parseFlat (c : List Char) :
    Except PErr (List Char × List OpenString) :=
  let t0 := Transcriber.init c
  match reparse t0.source with
  | none => Except.error PErr.invalidJson
  | some d =>
    match extractEntries (posEntries d)
        { t := t0, existing := [], stringset := [], order := 0 } with
    | Except.error e => Except.error e
    | Except.ok st =>
      Except.ok (((st.t.copyUntil t0.source.length)).getDestination,
        st.stringset)

/-! ## JsonHandler.compile (openformats/formats/json.py) -/

/-- First index at which `pat` occurs in `v` (`value.find(pat)`; only
called when the occurrence exists). -/
def firstInfixIdx : List Char → List Char → Nat
  | [], _ => 0
  | c :: rest, pat =>
    if pat.isPrefixOf (c :: rest) then 0 else 1 + firstInfixIdx rest pat

/-- Python `pat in v` for strings: `pat` occurs contiguously in `v`. -/
def containsInfix (pat : List Char) : List Char → Bool
  | [] => pat.isEmpty
  | c :: rest => pat.isPrefixOf (c :: rest) || containsInfix pat rest

/-- `JsonHandler._copy_until_and_remove_section`. -/
def copyUntilAndRemoveSection (t : Transcriber) (pos : Nat) : Transcriber :=
  ((t.copyUntil pos).markSectionEnd).removeSection 0

/-- The state of `_replace_translations`: the transcriber and
`stringset_index`. -/
structure CompState where
  t : Transcriber
  ssIdx : Nat
  deriving DecidableEq

/-- `JsonHandler._insert_plural_string`. -/
def insertPluralString (st : CompState) (v : List Char) (valuePos : Nat)
    (s : OpenString) (isReal : Bool) : CompState :=
  let templ := osTemplateReplacement s
  let replacementPos := firstInfixIdx v templ
  let replacement :=
    if isReal then serializePluralizedString s [' '] else templ
  let t := (((st.t.copyUntil (valuePos + replacementPos)).add
      replacement).skip templ.length).copy
      (v.length - replacementPos - templ.length)
  { t := t, ssIdx := st.ssIdx + 1 }

/-- `JsonHandler._insert_regular_string`. -/
def insertRegularString (st : CompState) (v : List Char) (valuePos : Nat)
    (s : OpenString) : CompState :=
  { t := ((st.t.copyUntil valuePos).add (osString s)).skip v.length
    ssIdx := st.ssIdx + 1 }

/-- `JsonHandler._insert_item` (flat document: values are scalars), also
returning `at_least_one`.  A string unit whose value does not match the
next pending string's placeholder is removed (never an error). -/
def insertItem (ss : List OpenString) (isReal : Bool) (st : CompState)
    (pe : PosEntry) : CompState × Bool :=
  match pe.value with
  | JValue.str v =>
    match ss.get? st.ssIdx with
    | some s =>
      if s.pluralized = true ∧ containsInfix (osTemplateReplacement s) v = true then
        (insertPluralString st v pe.valuePos s isReal, true)
      else if v = osTemplateReplacement s then
        (insertRegularString st v pe.valuePos s, true)
      else
        let t2 := copyUntilAndRemoveSection st.t (pe.valuePos + v.length + 1)
        ({ st with t := t2 }, false)
    | none =>
      let t2 := copyUntilAndRemoveSection st.t (pe.valuePos + v.length + 1)
      ({ st with t := t2 }, false)
  | JValue.other _ => (st, true)

/-- `JsonHandler._insert_from_dict`: per entry, copy up to just before
the key's opening quote, open a section, insert the item. -/
def insertFromDict (ss : List OpenString) (isReal : Bool) :
    List PosEntry → CompState → CompState × Bool
  | [], st => (st, false)
  | pe :: rest, st =>
    let t1 := (st.t.copyUntil (pe.keyPos - 1)).markSectionStart
    let r := insertItem ss isReal { st with t := t1 } pe
    let r2 := insertFromDict ss isReal rest r.1
    (r2.1, r.2 || r2.2)

/-- `JsonHandler._replace_translations` over a flat template (the
`DumbJson(template)` construction raising on malformed input is the
`none` case). -/
def replaceTranslations (template : List Char) (ss : List OpenString)
    (isReal : Bool) : Except PErr (List Char) :=
  let t0 := Transcriber.init template
  match reparse t0.source with
  | none => Except.error PErr.invalidJson
  | some d =>
    let r := insertFromDict ss isReal (posEntries d) { t := t0, ssIdx := 0 }
    Except.ok ((r.1.t.copyUntil t0.source.length).getDestination)

/-- The fake stringset of `JsonHandler.compile`: each string replaced by
its own placeholder (same key, order and pluralized flag). -/
def fakeStringset (ss : List OpenString) : List OpenString :=
  ss.map fun os =>
    { key := os.key, payload := Payload.plain (osTemplateReplacement os),
      order := os.order, pluralized := os.pluralized }

/-- `JsonHandler.compile`: sub-pass A against the fake stringset, the
`_clean_empties` cleanup, then sub-pass B against the real stringset. -/
def compileFlat (template : List Char) (ss : List OpenString) :
    Except PErr (List Char) :=
  match replaceTranslations template (fakeStringset ss) false with
  | Except.error e => Except.error e
  | Except.ok nt => replaceTranslations (cleanEmpties nt) ss true

/-! ## Expected parse/compile results (specification-side definitions,
compared against the embedded code by the theorems) -/

/-- An entry is extracted by `_extract` iff its value is a string whose
`strip()` is non-empty (for the documents in the theorems' hypotheses,
which keep values away from the pluralized branch). -/
def shouldExtract (e : JEntry) : Bool :=
  match e.value with
  | JValue.str v => !(pyStrip v).isEmpty
  | JValue.other _ => false

/-- The template form of one entry: an extracted entry's value is
replaced by its string's placeholder, every other entry is untouched. -/
def templateEntry (e : JEntry) : JEntry :=
  if shouldExtract e then
    { e with value := JValue.str (templateReplacement (escapeKey e.key) false) }
  else e

/-- The template document of a parse. -/
def templateDoc (d : JDoc) : JDoc :=
  { entries := d.entries.map templateEntry, wsEnd := d.wsEnd }

/-- The stringset of a parse: one `OpenString` per extracted entry, in
document order, with consecutive `order` numbers starting at `ord`. -/
def expectedStringset : List JEntry → Nat → List OpenString
  | [], _ => []
  | e :: rest, ord =>
    if shouldExtract e then
      { key := escapeKey e.key,
        payload := Payload.plain (match e.value with
          | JValue.str v => v
          | JValue.other tok => tok),
        order := ord, pluralized := false } :: expectedStringset rest (ord + 1)
    else expectedStringset rest ord

/-- Entries whose string values match, in document order, the
placeholders of the stringset read sequentially (non-string entries do
not consume a stringset element; the stringset may have unread
leftovers). -/
def MatchedEntries : List JEntry → List OpenString → Prop
  | [], _ => True
  | e :: rest, ss =>
    match e.value with
    | JValue.str v => ∃ s ss', ss = s :: ss' ∧ s.pluralized = false ∧
        v = osTemplateReplacement s ∧ MatchedEntries rest ss'
    | JValue.other _ => MatchedEntries rest ss

/-- Substitute each string entry's value by the corresponding stringset
element's text, sequentially. -/
def substMatched : List JEntry → List OpenString → List JEntry
  | [], _ => []
  | e :: rest, ss =>
    match e.value with
    | JValue.str _ =>
      match ss with
      | s :: ss' =>
        { e with value := JValue.str (osString s) } :: substMatched rest ss'
      | [] => e :: substMatched rest []
    | JValue.other _ => e :: substMatched rest ss

/-- Characters that can never take part in a `_clean_empties`
punctuation pattern. -/
def plainChar (c : Char) : Bool :=
  c ≠ '{' && c ≠ '}' && c ≠ '[' && c ≠ ']' && c ≠ ','

def flattenDest (dest : List Chunk) : List Char :=
  (dest.map fun c => match c with | Chunk.text s => s | _ => []).flatten

/-- The transcriber's newline-count invariant. -/
def nlOK (t : Transcriber) : Prop :=
  t.newlineCount = (t.source.take t.ptr).count '\n'

def WFEntry (e : JEntry) : Prop :=
  (∀ c ∈ e.wsBefore, isPyWs c = true) ∧ (∀ c ∈ e.wsAfter, isPyWs c = true) ∧
  '"' ∉ e.key ∧
  (match e.value with
   | JValue.str v => '"' ∉ v
   | JValue.other tok =>
     tok ≠ [] ∧ (∀ c ∈ tok, isTokChar c = true) ∧ tok.head? ≠ some '"')

def WFDoc (d : JDoc) : Prop :=
  (∀ e ∈ d.entries, WFEntry e) ∧ (∀ c ∈ d.wsEnd, isPyWs c = true)

/-- The value constraint inside `WFEntry`, as a standalone predicate. -/
def WFValue : JValue → Prop
  | JValue.str v => '"' ∉ v
  | JValue.other tok =>
    tok ≠ [] ∧ (∀ c ∈ tok, isTokChar c = true) ∧ tok.head? ≠ some '"'

instance : ∀ jv, Decidable (WFValue jv)
  | JValue.str v => by unfold WFValue; exact inferInstance
  | JValue.other tok => by unfold WFValue; exact inferInstance

instance (e : JEntry) : Decidable (WFEntry e) :=
  decidable_of_iff ((∀ c ∈ e.wsBefore, isPyWs c = true) ∧
    (∀ c ∈ e.wsAfter, isPyWs c = true) ∧ '"' ∉ e.key ∧ WFValue e.value)
    Iff.rfl

instance (d : JDoc) : Decidable (WFDoc d) := by
  unfold WFDoc
  exact inferInstance

/-- Values all of whose characters are inert for `_clean_empties`. -/
def plainValue : JValue → Prop
  | JValue.str v => ∀ ch ∈ v, plainChar ch = true
  | JValue.other tok => ∀ ch ∈ tok, plainChar ch = true

instance : ∀ jv, Decidable (plainValue jv)
  | JValue.str v => by unfold plainValue; exact inferInstance
  | JValue.other tok => by unfold plainValue; exact inferInstance

/-- Total length of a run of entries as laid out in the document, each
followed by one separator (the walker advances by `len + 1` per entry). -/
def entriesSpan : List JEntry → Nat
  | [] => 0
  | e :: rest => (renderJEntry e).length + 1 + entriesSpan rest

/-- A whitespace-only-valued entry (not extracted by `_extract`). -/
def sampleEntryWs : JEntry :=
  { wsBefore := [], key := ['a'], wsAfter := [' '], value := JValue.str [' '] }

/-- A regular extractable entry. -/
def sampleEntryB : JEntry :=
  { wsBefore := [' '], key := ['b'], wsAfter := [' '], value := JValue.str ['y'] }

/-- A document with a whitespace-only first value. -/
def sampleDoc9 : JDoc := { entries := [sampleEntryWs, sampleEntryB], wsEnd := [] }

/-- First entry of the duplicate-key document. -/
def sampleEntry6a : JEntry :=
  { wsBefore := [], key := ['a'], wsAfter := [], value := JValue.str ['x'] }

/-- Second entry of the duplicate-key document: same key, line 2. -/
def sampleEntry6b : JEntry :=
  { wsBefore := ['\n'], key := ['a'], wsAfter := [], value := JValue.str ['y'] }

/-- A document with a duplicated key, the second occurrence on line 2. -/
def sampleDoc6 : JDoc := { entries := [sampleEntry6a, sampleEntry6b], wsEnd := [] }

/-- A one-entry document with a plain extractable value. -/
def sampleDoc1 : JDoc :=
  { entries := [{ wsBefore := [], key := ['a'], wsAfter := [' '], value := JValue.str ['x'] }], wsEnd := [] }

/-- A two-entry document with distinct keys and extractable values. -/
def sampleDoc4 : JDoc := { entries := [sampleEntry6a, sampleEntryB], wsEnd := [] }

/-! ## Theorems -/

theorem takeWhile_all (p : Char → Bool) (l : List Char) :
    ∀ c ∈ l.takeWhile p, p c = true := fun _ hc => List.mem_takeWhile_imp hc

theorem not_quote_mem_takeWhile (l : List Char) :
    '"' ∉ l.takeWhile (fun x => decide (x ≠ '"')) := by
  intro hmem
  have := List.mem_takeWhile_imp hmem
  simp at this

theorem expectChar_some (c : Char) (l r : List Char)
    (h : expectChar c l = some r) : l = c :: r := by
  cases l with
  | nil => simp [expectChar] at h
  | cons d rest =>
    rw [expectChar] at h
    by_cases hd : d = c
    · rw [if_pos hd] at h
      simp only [Option.some_inj] at h
      rw [hd, h]
    · rw [if_neg hd] at h
      simp at h

theorem expectChar_cons (c : Char) (r : List Char) :
    expectChar c (c :: r) = some r := by
  rw [expectChar, if_pos rfl]

theorem head?_some_eq_cons (l : List Char) (c : Char)
    (h : l.head? = some c) : l = c :: l.tail := by
  cases l with
  | nil => simp at h
  | cons d rest =>
    simp only [List.head?_cons, Option.some_inj] at h
    rw [h]
    rfl

theorem reparseEntry_sound (l : List Char) (e : JEntry) (r : List Char)
    (h : reparseEntry l = some (e, r)) :
    renderJEntry e ++ r = l ∧ WFEntry e := by
  unfold reparseEntry at h
  cases h1 : expectChar '"' (l.dropWhile isPyWs) with
  | none => rw [h1] at h; simp at h
  | some r2 =>
    rw [h1] at h
    dsimp only at h
    cases h2 : expectChar '"' (r2.dropWhile (fun x => decide (x ≠ '"'))) with
    | none => rw [h2] at h; simp at h
    | some r3 =>
      rw [h2] at h
      dsimp only at h
      cases h3 : expectChar ':' r3 with
      | none => rw [h3] at h; simp at h
      | some r4 =>
        rw [h3] at h
        dsimp only at h
        have hl : l = l.takeWhile isPyWs ++ '"' :: r2 := by
          conv_lhs => rw [← List.takeWhile_append_dropWhile isPyWs l]
          rw [expectChar_some _ _ _ h1]
        have hr2 : r2 = r2.takeWhile (fun x => decide (x ≠ '"')) ++
            '"' :: ':' :: r4 := by
          conv_lhs => rw [← List.takeWhile_append_dropWhile
            (fun x => decide (x ≠ '"')) r2]
          rw [expectChar_some _ _ _ h2, expectChar_some _ _ _ h3]
        by_cases hq : (r4.dropWhile isPyWs).head? = some '"'
        · rw [if_pos hq] at h
          cases h4 : expectChar '"'
              (((r4.dropWhile isPyWs).tail).dropWhile
                (fun x => decide (x ≠ '"'))) with
          | none => rw [h4] at h; simp at h
          | some r8 =>
            rw [h4] at h
            simp only [Option.some_inj, Prod.mk.injEq] at h
            obtain ⟨rfl, rfl⟩ := h
            have hr4 : r4 = r4.takeWhile isPyWs ++
                '"' :: (r4.dropWhile isPyWs).tail := by
              conv_lhs => rw [← List.takeWhile_append_dropWhile isPyWs r4,
                head?_some_eq_cons _ _ hq]
            have hr6 : (r4.dropWhile isPyWs).tail =
                ((r4.dropWhile isPyWs).tail).takeWhile
                  (fun x => decide (x ≠ '"')) ++ '"' :: r8 := by
              conv_lhs => rw [← List.takeWhile_append_dropWhile
                (fun x => decide (x ≠ '"')) ((r4.dropWhile isPyWs).tail)]
              rw [expectChar_some _ _ _ h4]
            constructor
            · rw [renderJEntry]
              conv_rhs => rw [hl, hr2, hr4, hr6]
              simp [renderJValue]
            · exact ⟨takeWhile_all _ _, takeWhile_all _ _,
                not_quote_mem_takeWhile _, not_quote_mem_takeWhile _⟩
        · rw [if_neg hq] at h
          split at h
          next htok => simp at h
          next htok =>
            simp only [Option.some_inj, Prod.mk.injEq] at h
            obtain ⟨rfl, rfl⟩ := h
            have hr4 : r4 = r4.takeWhile isPyWs ++ r4.dropWhile isPyWs :=
              (List.takeWhile_append_dropWhile _ _).symm
            have hdw : r4.dropWhile isPyWs =
                (r4.dropWhile isPyWs).takeWhile isTokChar ++
                (r4.dropWhile isPyWs).dropWhile isTokChar :=
              (List.takeWhile_append_dropWhile _ _).symm
            constructor
            · rw [renderJEntry]
              conv_rhs => rw [hl, hr2, hr4, hdw]
              simp [renderJValue]
            · refine ⟨takeWhile_all _ _, takeWhile_all _ _,
                not_quote_mem_takeWhile _, htok, takeWhile_all _ _, ?_⟩
              intro hhead
              cases hdwc : r4.dropWhile isPyWs with
              | nil =>
                rw [hdwc] at htok
                simp at htok
              | cons d dtl =>
                have hd : d = '"' := by
                  rw [hdwc] at hhead
                  rw [List.takeWhile] at hhead
                  by_cases hpd : isTokChar d = true
                  · rw [hpd] at hhead
                    simpa using hhead
                  · simp only [Bool.not_eq_true] at hpd
                    rw [hpd] at hhead
                    simp at hhead
                rw [hdwc, hd] at hq
                simp at hq

end OpenFormats

namespace OpenFormats


theorem joinComma_cons (x : List Char) (xs : List (List Char))
    (h : xs ≠ []) : joinComma (x :: xs) = x ++ ',' :: joinComma xs := by
  cases xs with
  | nil => exact absurd rfl h
  | cons y ys => rfl

theorem reparseEntriesGo_sound (fuel : Nat) (l : List Char)
    (es : List JEntry) (rem : List Char)
    (h : reparseEntriesGo fuel l = some (es, rem)) :
    joinComma (es.map renderJEntry) ++ rem = l ∧ (∀ e ∈ es, WFEntry e) ∧
      es ≠ [] := by
  induction fuel generalizing l es rem with
  | zero => simp [reparseEntriesGo] at h
  | succ fuel ih =>
    rw [reparseEntriesGo] at h
    cases hent : reparseEntry l with
    | none => rw [hent] at h; simp at h
    | some er =>
      obtain ⟨e, r⟩ := er
      rw [hent] at h
      dsimp only at h
      obtain ⟨hstitch, hwf⟩ := reparseEntry_sound l e r hent
      by_cases hcomma : r.head? = some ','
      · rw [if_pos hcomma] at h
        cases hrec : reparseEntriesGo fuel r.tail with
        | none => rw [hrec] at h; simp at h
        | some esr =>
          obtain ⟨es', r3⟩ := esr
          rw [hrec] at h
          simp only [Option.some_inj, Prod.mk.injEq] at h
          obtain ⟨rfl, rfl⟩ := h
          obtain ⟨hstitch2, hwf2, hne⟩ := ih r.tail es' r3 hrec
          refine ⟨?_, ?_, by simp⟩
          · rw [List.map_cons, joinComma_cons _ _ (by simpa using hne)]
            rw [← hstitch, head?_some_eq_cons r ',' hcomma, ← hstitch2]
            simp
          · intro e' he'
            rcases List.mem_cons.mp he' with rfl | he'
            · exact hwf
            · exact hwf2 e' he'
      · rw [if_neg hcomma] at h
        simp only [Option.some_inj, Prod.mk.injEq] at h
        obtain ⟨rfl, rfl⟩ := h
        refine ⟨?_, ?_, by simp⟩
        · rw [← hstitch]
          rfl
        · intro e' he'
          rcases List.mem_cons.mp he' with rfl | he'
          · exact hwf
          · simp at he'

theorem reparse_sound (c : List Char) (d : JDoc) (h : reparse c = some d) :
    renderJDoc d = c ∧ WFDoc d := by
  unfold reparse at h
  cases h0 : expectChar '{' c with
  | none => rw [h0] at h; simp at h
  | some r =>
    rw [h0] at h
    dsimp only at h
    have hc : c = '{' :: r := expectChar_some _ _ _ h0
    by_cases hempty : r.dropWhile isPyWs = ['}']
    · rw [if_pos hempty] at h
      simp only [Option.some_inj] at h
      subst h
      constructor
      · rw [renderJDoc, hc]
        simp only [List.map_nil, joinComma]
        have hthis : r.takeWhile isPyWs ++ ['}'] = r := by
          conv_rhs => rw [← List.takeWhile_append_dropWhile isPyWs r]
          rw [hempty]
        rw [List.append_assoc, hthis]
        rfl
      · refine ⟨?_, takeWhile_all _ _⟩
        intro e he
        exact absurd he (List.not_mem_nil e)
    · rw [if_neg hempty] at h
      cases hgo : reparseEntriesGo r.length r with
      | none => rw [hgo] at h; simp at h
      | some esrem =>
        obtain ⟨es, rem⟩ := esrem
        rw [hgo] at h
        dsimp only at h
        by_cases hclose : rem.dropWhile isPyWs = ['}']
        · rw [if_pos hclose] at h
          simp only [Option.some_inj] at h
          subst h
          obtain ⟨hstitch, hwf, hne⟩ := reparseEntriesGo_sound _ _ _ _ hgo
          constructor
          · rw [renderJDoc, hc]
            have hrem : rem.takeWhile isPyWs ++ ['}'] = rem := by
              conv_rhs => rw [← List.takeWhile_append_dropWhile isPyWs rem]
              rw [hclose]
            show '{' :: (joinComma (es.map renderJEntry) ++
              rem.takeWhile isPyWs ++ ['}']) = '{' :: r
            rw [List.append_assoc, hrem, hstitch]
          · exact ⟨hwf, takeWhile_all _ _⟩
        · rw [if_neg hclose] at h
          simp at h



theorem takeWhile_append_all (p : Char → Bool) (w l : List Char)
    (hw : ∀ c ∈ w, p c = true) :
    (w ++ l).takeWhile p = w ++ l.takeWhile p := by
  induction w with
  | nil => simp
  | cons c w ih =>
    rw [List.cons_append, List.takeWhile_cons,
      if_pos (hw c (List.mem_cons_self c w)),
      ih fun d hd => hw d (List.mem_cons_of_mem c hd)]
    rfl

theorem dropWhile_append_all (p : Char → Bool) (w l : List Char)
    (hw : ∀ c ∈ w, p c = true) :
    (w ++ l).dropWhile p = l.dropWhile p := by
  induction w with
  | nil => simp
  | cons c w ih =>
    rw [List.cons_append, List.dropWhile_cons,
      if_pos (hw c (List.mem_cons_self c w)),
      ih fun d hd => hw d (List.mem_cons_of_mem c hd)]

theorem takeWhile_cons_neg (p : Char → Bool) (c : Char) (l : List Char)
    (h : p c = false) : (c :: l).takeWhile p = [] := by
  rw [List.takeWhile_cons, h]
  rfl

theorem dropWhile_cons_neg (p : Char → Bool) (c : Char) (l : List Char)
    (h : p c = false) : (c :: l).dropWhile p = c :: l := by
  rw [List.dropWhile_cons, h]
  rfl

theorem takeWhile_head_neg (p : Char → Bool) (l : List Char)
    (h : ∀ c, l.head? = some c → p c = false) : l.takeWhile p = [] := by
  cases l with
  | nil => rfl
  | cons c rest => exact takeWhile_cons_neg p c rest (h c rfl)

theorem dropWhile_head_neg (p : Char → Bool) (l : List Char)
    (h : ∀ c, l.head? = some c → p c = false) : l.dropWhile p = l := by
  cases l with
  | nil => rfl
  | cons c rest => exact dropWhile_cons_neg p c rest (h c rfl)

theorem isTokChar_not_pyWs (c : Char) (h : isTokChar c = true) :
    isPyWs c = false := by
  rw [isTokChar] at h
  cases hw : isPyWs c with
  | true => rw [hw] at h; simp at h
  | false => rfl

theorem reparseEntry_complete (e : JEntry) (rest : List Char)
    (hwf : WFEntry e)
    (hrest : ∀ ch, rest.head? = some ch → isTokChar ch = false) :
    reparseEntry (renderJEntry e ++ rest) = some (e, rest) := by
  obtain ⟨hws1, hws2, hkey, hval⟩ := hwf
  unfold reparseEntry
  rw [renderJEntry]
  have hkeyall : ∀ c ∈ e.key, (fun x => decide (x ≠ '"')) c = true := by
    intro c hc
    simp only [decide_eq_true_eq]
    rintro rfl
    exact hkey hc
  have hshape : (e.wsBefore ++ '"' :: e.key ++ '"' :: ':' :: e.wsAfter ++
      renderJValue e.value) ++ rest =
      e.wsBefore ++ '"' :: (e.key ++ '"' :: ':' ::
        (e.wsAfter ++ (renderJValue e.value ++ rest))) := by
    simp
  rw [hshape]
  rw [dropWhile_append_all isPyWs e.wsBefore _ hws1,
    dropWhile_cons_neg _ _ _ (by decide),
    takeWhile_append_all isPyWs e.wsBefore _ hws1,
    takeWhile_cons_neg isPyWs '"' _ (by decide), List.append_nil,
    expectChar_cons]
  dsimp only
  rw [takeWhile_append_all _ e.key _ hkeyall,
    takeWhile_cons_neg _ '"' _ (by simp), List.append_nil,
    dropWhile_append_all _ e.key _ hkeyall,
    dropWhile_cons_neg _ '"' _ (by simp),
    expectChar_cons]
  dsimp only
  rw [expectChar_cons]
  dsimp only
  cases hv : e.value with
  | str v =>
    rw [hv] at hval
    rw [renderJValue]
    have hsh2 : e.wsAfter ++ (('"' :: v ++ ['"']) ++ rest) =
        e.wsAfter ++ '"' :: (v ++ '"' :: rest) := by simp
    rw [hsh2]
    rw [takeWhile_append_all isPyWs e.wsAfter _ hws2,
      takeWhile_cons_neg isPyWs '"' _ (by decide), List.append_nil,
      dropWhile_append_all isPyWs e.wsAfter _ hws2,
      dropWhile_cons_neg isPyWs '"' _ (by decide)]
    rw [if_pos (show (('"' : Char) :: (v ++ '"' :: rest)).head? =
      some '"' from rfl)]
    rw [List.tail_cons]
    have hvall : ∀ c ∈ v, (fun x => decide (x ≠ '"')) c = true := by
      intro c hc
      simp only [decide_eq_true_eq]
      rintro rfl
      exact hval hc
    rw [takeWhile_append_all _ v _ hvall,
      takeWhile_cons_neg _ '"' _ (by simp), List.append_nil,
      dropWhile_append_all _ v _ hvall,
      dropWhile_cons_neg _ '"' _ (by simp),
      expectChar_cons]
    rw [← hv]
  | other tok =>
    rw [hv] at hval
    obtain ⟨htokne, htokall, htokhead⟩ := hval
    rw [renderJValue]
    obtain ⟨t0, ttl, rfl⟩ : ∃ t0 ttl, tok = t0 :: ttl := by
      cases tok with
      | nil => exact absurd rfl htokne
      | cons a b => exact ⟨a, b, rfl⟩
    have ht0 : isTokChar t0 = true := htokall t0 (List.mem_cons_self t0 ttl)
    have hsh2 : e.wsAfter ++ ((t0 :: ttl) ++ rest) =
        e.wsAfter ++ t0 :: (ttl ++ rest) := by simp
    rw [hsh2]
    rw [takeWhile_append_all isPyWs e.wsAfter _ hws2,
      takeWhile_cons_neg isPyWs t0 _ (isTokChar_not_pyWs t0 ht0),
      List.append_nil,
      dropWhile_append_all isPyWs e.wsAfter _ hws2,
      dropWhile_cons_neg isPyWs t0 _ (isTokChar_not_pyWs t0 ht0)]
    have ht0q : t0 ≠ '"' := by
      intro hq
      exact htokhead (by rw [hq]; rfl)
    rw [if_neg (by simp [ht0q])]
    rw [show t0 :: (ttl ++ rest) = (t0 :: ttl) ++ rest from rfl]
    rw [takeWhile_append_all isTokChar _ _ htokall,
      takeWhile_head_neg isTokChar rest hrest, List.append_nil,
      dropWhile_append_all isTokChar _ _ htokall,
      dropWhile_head_neg isTokChar rest hrest]
    rw [if_neg (by simp), ← hv]



theorem pyWs_not_tokChar (c : Char) (h : isPyWs c = true) :
    isTokChar c = false := by
  rw [isTokChar, h]
  rfl

theorem pyWs_ne_comma (c : Char) (h : isPyWs c = true) : c ≠ ',' := by
  rintro rfl
  simp [isPyWs] at h

theorem pyWs_ne_quote (c : Char) (h : isPyWs c = true) : c ≠ '"' := by
  rintro rfl
  simp [isPyWs] at h

theorem reparseEntriesGo_complete (es : List JEntry) (rem : List Char)
    (fuel : Nat) (hne : es ≠ []) (hwf : ∀ e ∈ es, WFEntry e)
    (hfuel : es.length ≤ fuel)
    (hrem : ∀ ch, rem.head? = some ch →
      isTokChar ch = false ∧ ch ≠ ',') :
    reparseEntriesGo fuel (joinComma (es.map renderJEntry) ++ rem) =
      some (es, rem) := by
  induction es generalizing fuel with
  | nil => exact absurd rfl hne
  | cons e es ih =>
    cases fuel with
    | zero => simp at hfuel
    | succ fuel =>
      rw [reparseEntriesGo]
      cases hes : es with
      | nil =>
        rw [List.map_cons, List.map_nil, joinComma]
        rw [reparseEntry_complete e rem (hwf e (List.mem_cons_self e es))
          (fun ch hch => (hrem ch hch).1)]
        dsimp only
        rw [if_neg (by
          intro hcomma
          exact (hrem ',' hcomma).2 rfl)]
      | cons e2 es2 =>
        subst hes
        rw [List.map_cons, joinComma_cons _ _ (by simp)]
        simp only [List.append_assoc, List.cons_append]
        rw [reparseEntry_complete e
          (',' :: (joinComma ((e2 :: es2).map renderJEntry) ++ rem))
          (hwf e (List.mem_cons_self e _))
          (fun ch hch => by
            simp only [List.head?_cons, Option.some_inj] at hch
            rw [← hch]
            rfl)]
        dsimp only
        rw [if_pos (by rfl)]
        rw [List.tail_cons]
        rw [ih fuel (by simp)
          (fun e' he' => hwf e' (List.mem_cons_of_mem e he'))
          (by simp only [List.length_cons] at hfuel ⊢; omega)]

theorem renderJEntry_length_pos (e : JEntry) :
    1 ≤ (renderJEntry e).length := by
  rw [renderJEntry]
  simp
  omega

theorem length_le_joinComma (es : List JEntry) :
    es.length ≤ (joinComma (es.map renderJEntry)).length := by
  induction es with
  | nil => simp [joinComma]
  | cons e es ih =>
    cases hes : es with
    | nil =>
      rw [List.map_cons, List.map_nil, joinComma]
      have := renderJEntry_length_pos e
      simp
      omega
    | cons e2 es2 =>
      subst hes
      rw [List.map_cons, joinComma_cons _ _ (by simp)]
      have h1 := renderJEntry_length_pos e
      have h2 := ih
      simp only [List.length_append, List.length_cons] at *
      omega

theorem reparse_complete (d : JDoc) (hwf : WFDoc d) :
    reparse (renderJDoc d) = some d := by
  obtain ⟨hwfe, hwfws⟩ := hwf
  rw [renderJDoc]
  unfold reparse
  simp only [List.cons_append, List.append_assoc]
  rw [expectChar_cons '{'
    (joinComma (d.entries.map renderJEntry) ++ (d.wsEnd ++ ['}']))]
  dsimp only
  cases hes : d.entries with
  | nil =>
    rw [List.map_nil, joinComma, List.nil_append]
    rw [dropWhile_append_all isPyWs d.wsEnd _ hwfws,
      dropWhile_cons_neg isPyWs '}' _ (by decide)]
    rw [if_pos rfl]
    rw [takeWhile_append_all isPyWs d.wsEnd _ hwfws,
      takeWhile_cons_neg isPyWs '}' _ (by decide), List.append_nil]
    rw [← hes]
  | cons e es2 =>
    have hje : ∃ jrest, joinComma ((e :: es2).map renderJEntry) =
        renderJEntry e ++ jrest := by
      cases hes2 : es2 with
      | nil =>
        rw [List.map_cons, List.map_nil, joinComma]
        exact ⟨[], by simp⟩
      | cons e3 es3 =>
        rw [List.map_cons, joinComma_cons _ _ (by simp)]
        exact ⟨_, rfl⟩
    obtain ⟨jrest, hj⟩ := hje
    have hmeme : e ∈ d.entries := by
      rw [hes]
      exact List.mem_cons_self e es2
    have hwfE := hwfe e hmeme
    obtain ⟨hws1, -, -, -⟩ := hwfE
    have hdrop1 : ((joinComma ((e :: es2).map renderJEntry) ++
        (d.wsEnd ++ ['}']))).dropWhile isPyWs =
        '"' :: (e.key ++ '"' :: ':' :: e.wsAfter ++ renderJValue e.value ++
          (jrest ++ (d.wsEnd ++ ['}']))) := by
      rw [hj, renderJEntry]
      rw [show ((e.wsBefore ++ '"' :: e.key ++ '"' :: ':' :: e.wsAfter ++
          renderJValue e.value) ++ jrest ++ (d.wsEnd ++ ['}'])) =
        e.wsBefore ++ '"' :: (e.key ++ '"' :: ':' :: e.wsAfter ++
          renderJValue e.value ++ (jrest ++ (d.wsEnd ++ ['}']))) by simp]
      rw [dropWhile_append_all isPyWs e.wsBefore _ hws1,
        dropWhile_cons_neg isPyWs '"' _ (by decide)]
    rw [if_neg (by
      rw [hdrop1]
      intro hcontra
      injection hcontra with h1 h2
      exact absurd h1 (by decide))]
    have hrem : ∀ ch, (d.wsEnd ++ ['}']).head? = some ch →
        isTokChar ch = false ∧ ch ≠ ',' := by
      intro ch hch
      cases hwse : d.wsEnd with
      | nil =>
        rw [hwse] at hch
        simp only [List.nil_append, List.head?_cons, Option.some_inj] at hch
        rw [← hch]
        exact ⟨by decide, by decide⟩
      | cons w ws =>
        rw [hwse] at hch
        simp only [List.cons_append, List.head?_cons, Option.some_inj] at hch
        have hw : isPyWs w = true := hwfws w (by
          rw [hwse]
          exact List.mem_cons_self w ws)
        rw [← hch]
        exact ⟨pyWs_not_tokChar w hw, pyWs_ne_comma w hw⟩
    have hwfes : ∀ e' ∈ e :: es2, WFEntry e' := by
      intro e' he'
      refine hwfe e' ?_
      rw [hes]
      exact he'
    rw [reparseEntriesGo_complete (e :: es2) (d.wsEnd ++ ['}'])
      _ (by simp) hwfes
      (le_trans (length_le_joinComma (e :: es2)) (by simp))
      hrem]
    dsimp only
    rw [if_pos (by
      rw [dropWhile_append_all isPyWs d.wsEnd _ hwfws,
        dropWhile_cons_neg isPyWs '}' _ (by decide)])]
    rw [takeWhile_append_all isPyWs d.wsEnd _ hwfws,
      takeWhile_cons_neg isPyWs '}' _ (by decide), List.append_nil]
    rw [← hes]



theorem slice_split (l : List Char) (a m b : Nat) (h1 : a ≤ m) (h2 : m ≤ b) :
    (l.take b).drop a = (l.take m).drop a ++ (l.take b).drop m := by
  rw [List.drop_take, List.drop_take, List.drop_take]
  have hb : b - a = (m - a) + (b - m) := by omega
  rw [hb, List.take_add]
  congr 2
  rw [List.drop_drop]
  congr 1
  omega

theorem renderChunk_unix : Transcriber.renderChunk false =
    fun c => match c with | Chunk.text s => s | _ => [] := by
  funext c
  cases c <;> rfl

theorem getDestination_unix (t : Transcriber) (h : t.newlineTypeDOS = false) :
    t.getDestination = flattenDest t.destination := by
  rw [Transcriber.getDestination, h, renderChunk_unix, flattenDest]

theorem flattenDest_append (d1 d2 : List Chunk) :
    flattenDest (d1 ++ d2) = flattenDest d1 ++ flattenDest d2 := by
  rw [flattenDest, List.map_append, List.flatten_append]
  rfl

theorem flattenDest_text (s : List Char) :
    flattenDest [Chunk.text s] = s := by
  simp [flattenDest]

theorem flattenDest_mark1 : flattenDest [Chunk.sectionStart] = [] := rfl

theorem flattenDest_mark2 : flattenDest [Chunk.sectionEnd] = [] := rfl

theorem flattenDest_tombs (n : Nat) :
    flattenDest (List.replicate n Chunk.tomb) = [] := by
  induction n with
  | zero => rfl
  | succ n ih =>
    rw [List.replicate_succ]
    rw [show (Chunk.tomb :: List.replicate n Chunk.tomb) =
      [Chunk.tomb] ++ List.replicate n Chunk.tomb from rfl]
    rw [flattenDest_append, ih]
    rfl

theorem hasCRLF_eq_false (l : List Char) (h : '\r' ∉ l) :
    hasCRLF l = false := by
  induction l with
  | nil => rfl
  | cons c rest ih =>
    have hc : c ≠ '\r' := fun hh => h (hh ▸ List.mem_cons_self c rest)
    have hr : '\r' ∉ rest := fun hh => h (List.mem_cons_of_mem c hh)
    rw [hasCRLF.eq_def]
    split
    · rename_i heq
      injection heq with h1 h2
      exact absurd h1 hc
    · rename_i c' rest' heq
      injection heq with h1 h2
      rw [← h2]
      exact ih hr
    · rfl

theorem init_no_cr (c : List Char) (h : '\r' ∉ c) :
    Transcriber.init c =
      { source := c, destination := [], ptr := 0, newlineCount := 0,
        newlineTypeDOS := false } := by
  rw [Transcriber.init]
  simp only [hasCRLF_eq_false c h]
  rfl

theorem nlOK_copyUntil (t : Transcriber) (e : Nat) (h : nlOK t)
    (hle : t.ptr ≤ e) : nlOK (t.copyUntil e) := by
  rw [nlOK, Transcriber.copyUntil] at *
  simp only
  have hsp : t.source.take e = t.source.take t.ptr ++
      (t.source.take e).drop t.ptr := by
    have := slice_split t.source 0 t.ptr e (by omega) hle
    simpa using this
  conv_rhs => rw [hsp]
  rw [List.count_append, h, Transcriber.sliceUntil]

theorem nlOK_skip (t : Transcriber) (off : Nat) (h : nlOK t) :
    nlOK (t.skip off) := by
  rw [nlOK, Transcriber.skip] at *
  simp only
  rw [Transcriber.sliceLen]
  rw [List.take_add, List.count_append, h]

theorem nlOK_add (t : Transcriber) (s : List Char) (h : nlOK t) :
    nlOK (t.add s) := h



theorem scanWsThen_bounds (b : Char) (l : List Char) (n : Nat)
    (h : scanWsThen b l = some n) : 1 ≤ n ∧ n ≤ l.length := by
  induction l generalizing n with
  | nil => simp [scanWsThen] at h
  | cons c rest ih =>
    rw [scanWsThen] at h
    by_cases hws : isPyWs c = true
    · rw [if_pos hws] at h
      cases hrec : scanWsThen b rest with
      | none => rw [hrec] at h; simp at h
      | some m =>
        rw [hrec] at h
        simp only [Option.map_some', Option.some_inj] at h
        obtain ⟨h1, h2⟩ := ih m hrec
        simp only [List.length_cons]
        omega
    · rw [if_neg hws] at h
      by_cases hb : c = b
      · rw [if_pos hb] at h
        simp only [Option.some_inj] at h
        subst h
        simp
      · rw [if_neg hb] at h
        simp at h

theorem searchPair_bounds (a b : Char) (l : List Char) (p : Nat × Nat)
    (h : searchPair a b l = some p) : p.1 + 2 ≤ p.2 ∧ p.2 ≤ l.length := by
  induction l generalizing p with
  | nil => simp [searchPair] at h
  | cons c rest ih =>
    rw [searchPair] at h
    by_cases ha : c = a
    · rw [if_pos ha] at h
      cases hscan : scanWsThen b rest with
      | some n =>
        rw [hscan] at h
        simp only [Option.some_inj] at h
        obtain ⟨h1, h2⟩ := scanWsThen_bounds b rest n hscan
        subst h
        refine ⟨?_, ?_⟩
        · show 0 + 2 ≤ n + 1
          omega
        · show n + 1 ≤ (c :: rest).length
          simp only [List.length_cons]
          omega
      | none =>
        rw [hscan] at h
        cases hrec : searchPair a b rest with
        | none => rw [hrec] at h; simp at h
        | some q =>
          rw [hrec] at h
          simp only [Option.map_some', Option.some_inj] at h
          obtain ⟨h1, h2⟩ := ih q hrec
          subst h
          refine ⟨?_, ?_⟩
          · show q.1 + 1 + 2 ≤ q.2 + 1
            omega
          · show q.2 + 1 ≤ (c :: rest).length
            simp only [List.length_cons]
            omega
    · rw [if_neg ha] at h
      cases hrec : searchPair a b rest with
      | none => rw [hrec] at h; simp at h
      | some q =>
        rw [hrec] at h
        simp only [Option.map_some', Option.some_inj] at h
        obtain ⟨h1, h2⟩ := ih q hrec
        subst h
        refine ⟨?_, ?_⟩
        · show q.1 + 1 + 2 ≤ q.2 + 1
          omega
        · show q.2 + 1 ≤ (c :: rest).length
          simp only [List.length_cons]
          omega

theorem rewritePair_length (a b repl : Char) (l r : List Char)
    (h : rewritePair a b repl l = some r) : r.length < l.length := by
  unfold rewritePair at h
  cases hs : searchPair a b l with
  | none => rw [hs] at h; simp at h
  | some p =>
    rw [hs] at h
    simp only [Option.map_some', Option.some_inj] at h
    obtain ⟨h1, h2⟩ := searchPair_bounds a b l p hs
    subst h
    simp only [List.length_append, List.length_take, List.length_cons,
      List.length_nil, List.length_drop]
    omega

theorem cleanStep_length (l r : List Char) (h : cleanStep l = some r) :
    r.length < l.length := by
  unfold cleanStep at h
  rcases Option.or_eq_some.mp h with h | ⟨-, h⟩
  on_goal 2 => exact rewritePair_length _ _ _ _ _ h
  rcases Option.or_eq_some.mp h with h | ⟨-, h⟩
  on_goal 2 => exact rewritePair_length _ _ _ _ _ h
  rcases Option.or_eq_some.mp h with h | ⟨-, h⟩
  on_goal 2 => exact rewritePair_length _ _ _ _ _ h
  rcases Option.or_eq_some.mp h with h | ⟨-, h⟩
  · exact rewritePair_length _ _ _ _ _ h
  · exact rewritePair_length _ _ _ _ _ h

theorem cleanEmptiesGo_fixpoint (n : Nat) (l : List Char)
    (h : l.length ≤ n) : cleanStep (cleanEmptiesGo n l) = none := by
  induction n generalizing l with
  | zero =>
    have : l = [] := by
      cases l with
      | nil => rfl
      | cons c rest => simp at h
    subst this
    rfl
  | succ n ih =>
    rw [cleanEmptiesGo]
    cases hstep : cleanStep l with
    | none => exact hstep
    | some r =>
      exact ih r (by have := cleanStep_length l r hstep; omega)

theorem cleanEmptiesGo_of_fixpoint (n : Nat) (l : List Char)
    (h : cleanStep l = none) : cleanEmptiesGo n l = l := by
  cases n with
  | zero => rfl
  | succ n => rw [cleanEmptiesGo, h]

/-- **C7** (confirmed).  The `_clean_empties` punctuation-collapse loop is
idempotent: its result contains no further occurrence of any of the five
patterns, so applying it a second time returns the result unchanged. -/
theorem C7_clean_empties_idempotent (l : List Char) :
    cleanEmpties (cleanEmpties l) = cleanEmpties l := by
  have hfix : cleanStep (cleanEmpties l) = none :=
    cleanEmptiesGo_fixpoint l.length l le_rfl
  unfold cleanEmpties
  exact cleanEmptiesGo_of_fixpoint _ _ hfix

theorem replaceChar_append (needle : Char) (repl : List Char)
    (l1 l2 : List Char) :
    replaceChar needle repl (l1 ++ l2) =
      replaceChar needle repl l1 ++ replaceChar needle repl l2 := by
  induction l1 with
  | nil => simp [replaceChar]
  | cons c l1 ih => simp [replaceChar, ih]

theorem escapeKey_charwise (k : List Char) :
    escapeKey k = (k.map escChar).flatten := by
  induction k with
  | nil => simp [escapeKey, replaceChar]
  | cons c k ih =>
    unfold escapeKey at ih ⊢
    simp only [replaceChar, replaceChar_append, List.map_cons,
      List.flatten_cons, escChar]
    rw [ih]
    by_cases hbs : c = '\\'
    · subst hbs
      simp [replaceChar]
    · by_cases hdot : c = '.'
      · subst hdot
        simp [replaceChar]
      · simp [replaceChar, hbs, hdot]

theorem escapeKey_length (k : List Char) :
    (escapeKey k).length = k.length + k.count '\\' + k.count '.' := by
  rw [escapeKey_charwise]
  induction k with
  | nil => simp
  | cons c k ih =>
    simp only [List.map_cons, List.flatten_cons, List.length_append, ih,
      List.length_cons, List.count_cons, escChar]
    by_cases hbs : c = '\\'
    · subst hbs
      simp
      omega
    · by_cases hdot : c = '.'
      · subst hdot
        simp [hbs]
        omega
      · simp [hbs, hdot]
        omega

/-- **C10** (confirmed).  `_escape_key` rewrites a raw key character by
character — every backslash becomes two backslashes and every literal dot
becomes backslash-dot — and consequently the stringset key built from an
object key containing a literal dot (`escapeKey (a ++ "." ++ b)`) is
always distinct from the dotted path built for the equivalent nested
objects (`escapeKey a ++ "." ++ escapeKey b`). -/
theorem C10_escape_key_disambiguates (k a b : List Char) :
    escapeKey k = (k.map escChar).flatten ∧
    escapeKey (a ++ '.' :: b) ≠ escapeKey a ++ '.' :: escapeKey b := by
  refine ⟨escapeKey_charwise k, fun h => ?_⟩
  have hlen := congrArg List.length h
  rw [escapeKey_length] at hlen
  simp only [List.length_append, List.length_cons, escapeKey_length,
    List.count_append, List.count_cons] at hlen
  simp at hlen
  omega

theorem findLastSectionStartGo_cons (c : Chunk) (rest : List Chunk)
    (cnt len i : Nat) :
    findLastSectionStartGo (c :: rest) cnt len i =
      if c = Chunk.sectionStart then
        if cnt = 0 then some (len - i)
        else findLastSectionStartGo rest (cnt - 1) len (i + 1)
      else findLastSectionStartGo rest cnt len (i + 1) := rfl

theorem findLastSectionStartGo_append (l1 l2 : List Chunk) (cnt len i : Nat)
    (h : Chunk.sectionStart ∉ l1) :
    findLastSectionStartGo (l1 ++ l2) cnt len i =
      findLastSectionStartGo l2 cnt len (i + l1.length) := by
  induction l1 generalizing i with
  | nil => simp [findLastSectionStartGo]
  | cons c l1 ih =>
    simp only [List.mem_cons, not_or] at h
    simp only [List.cons_append, findLastSectionStartGo, if_neg (Ne.symm h.1)]
    rw [List.append_eq, ih _ h.2]
    congr 1
    simp
    omega

theorem findIdx?_eq_none_of_not_mem (l : List Chunk) (c : Chunk)
    (h : c ∉ l) : l.findIdx? (· = c) = none := by
  induction l with
  | nil => simp
  | cons d l ih =>
    simp only [List.mem_cons, not_or] at h
    simp [List.findIdx?_cons, Ne.symm h.1, ih h.2]

theorem tombRange_append (pre seg rest : List Chunk) (hseg : seg ≠ []) :
    tombRange (pre ++ (seg ++ rest)) pre.length (pre.length + seg.length - 1) =
      pre ++ (List.replicate seg.length Chunk.tomb ++ rest) := by
  have hlen : 1 ≤ seg.length := by
    cases seg with
    | nil => exact absurd rfl hseg
    | cons a l => simp
  unfold tombRange
  rw [List.mapIdx_append, List.mapIdx_append]
  congr 1
  · apply List.ext_getElem
    · simp
    · intro i h1 h2
      rw [List.getElem_mapIdx, if_neg]
      simp only [List.length_mapIdx] at h1
      omega
  congr 1
  · apply List.ext_getElem
    · simp
    · intro i h1 h2
      rw [List.getElem_mapIdx, if_pos, List.getElem_replicate]
      simp only [List.length_mapIdx] at h1
      omega
  · apply List.ext_getElem
    · simp
    · intro i h1 h2
      rw [List.getElem_mapIdx, if_neg]
      simp only [List.length_mapIdx] at h1
      omega

/-- **C2** (counterexample).  The claim states that `remove_section`
addressed at the outer section tombstones the outer section's *entire*
range.  On the destination `[SectionStart, 'a', SectionStart, 'b',
SectionEnd, 'c', SectionEnd]` (outer section = indices 0–6, nested section
= indices 2–4), `remove_section(place=1)` — which addresses the outer
`SectionStart` — tombstones only indices 0–4: the chunk `'c'` and the
outer `SectionEnd`, both inside the outer section's range, survive. -/
theorem C2_counterexample :
    (nestedDestTranscriber.removeSection 1).destination =
      [Chunk.tomb, Chunk.tomb, Chunk.tomb, Chunk.tomb, Chunk.tomb,
       Chunk.text ['c'], Chunk.sectionEnd] ∧
    (nestedDestTranscriber.removeSection 1).destination ≠
      List.replicate 7 Chunk.tomb := by
  decide

/-- **C2** (amended).  When a section completely contains a nested
section, `remove_section` addressed at the outer section tombstones the
chunks from the outer `SectionStart` only up to the *first* `SectionEnd`
after it — i.e. the nested section's end — leaving every chunk between
the nested section's end and the outer section's end (and the outer
`SectionEnd` itself) untouched. -/
theorem C2_remove_outer_stops_at_nested_end
    (pre mid1 mid2 mid3 post : List Chunk) (t : Transcriber)
    (hdest : t.destination =
      pre ++ [Chunk.sectionStart] ++ mid1 ++ [Chunk.sectionStart] ++ mid2 ++
        [Chunk.sectionEnd] ++ mid3 ++ [Chunk.sectionEnd] ++ post)
    (h1 : Chunk.sectionStart ∉ mid1) (h2 : Chunk.sectionStart ∉ mid2)
    (h3 : Chunk.sectionStart ∉ mid3) (h4 : Chunk.sectionStart ∉ post)
    (h5 : Chunk.sectionEnd ∉ mid1) (h6 : Chunk.sectionEnd ∉ mid2) :
    (t.removeSection 1).destination =
      pre ++ List.replicate (mid1.length + mid2.length + 3) Chunk.tomb ++
        mid3 ++ [Chunk.sectionEnd] ++ post := by
  have hfind : findLastSectionStart t.destination 1 = some pre.length := by
    unfold findLastSectionStart
    rw [hdest]
    have hrev : (pre ++ [Chunk.sectionStart] ++ mid1 ++ [Chunk.sectionStart] ++
        mid2 ++ [Chunk.sectionEnd] ++ mid3 ++ [Chunk.sectionEnd] ++
        post).reverse =
        (post.reverse ++ [Chunk.sectionEnd] ++ mid3.reverse ++
          [Chunk.sectionEnd] ++ mid2.reverse) ++
          (Chunk.sectionStart :: (mid1.reverse ++
            (Chunk.sectionStart :: pre.reverse))) := by
      simp
    rw [hrev]
    rw [findLastSectionStartGo_append]
    · rw [findLastSectionStartGo_cons]
      rw [if_pos rfl, if_neg (by omega)]
      rw [findLastSectionStartGo_append _ _ _ _ _ (by
        intro hc
        exact h1 (by simpa using hc))]
      rw [findLastSectionStartGo_cons]
      rw [if_pos rfl, if_pos rfl]
      congr 1
      simp
      omega
    · intro hc
      simp only [List.mem_append, List.mem_reverse, List.mem_singleton] at hc
      rcases hc with ((((hc | hc) | hc) | hc) | hc)
      · exact h4 hc
      · exact absurd hc (by decide)
      · exact h3 hc
      · exact absurd hc (by decide)
      · exact h2 hc
  have hidx : indexOfSectionEndFrom t.destination pre.length =
      some (pre.length + (mid1.length + mid2.length + 2)) := by
    unfold indexOfSectionEndFrom
    have hdrop : t.destination.drop pre.length =
        [Chunk.sectionStart] ++ mid1 ++ [Chunk.sectionStart] ++ mid2 ++
          [Chunk.sectionEnd] ++ mid3 ++ [Chunk.sectionEnd] ++ post := by
      rw [hdest]
      have : pre ++ [Chunk.sectionStart] ++ mid1 ++ [Chunk.sectionStart] ++
          mid2 ++ [Chunk.sectionEnd] ++ mid3 ++ [Chunk.sectionEnd] ++ post =
          pre ++ ([Chunk.sectionStart] ++ mid1 ++ [Chunk.sectionStart] ++
            mid2 ++ [Chunk.sectionEnd] ++ mid3 ++ [Chunk.sectionEnd] ++
            post) := by simp
      rw [this, List.drop_left]
    rw [hdrop]
    have hassoc : [Chunk.sectionStart] ++ mid1 ++ [Chunk.sectionStart] ++
        mid2 ++ [Chunk.sectionEnd] ++ mid3 ++ [Chunk.sectionEnd] ++ post =
        ([Chunk.sectionStart] ++ mid1 ++ [Chunk.sectionStart] ++ mid2) ++
          (Chunk.sectionEnd ::
            (mid3 ++ [Chunk.sectionEnd] ++ post)) := by simp
    rw [hassoc, List.findIdx?_append]
    have hnone : (([Chunk.sectionStart] ++ mid1 ++ [Chunk.sectionStart] ++
        mid2).findIdx? (· = Chunk.sectionEnd)) = none := by
      apply findIdx?_eq_none_of_not_mem
      intro hc
      simp only [List.mem_append, List.mem_singleton] at hc
      rcases hc with ((hc | hc) | hc) | hc
      · exact absurd hc (by decide)
      · exact h5 hc
      · exact absurd hc (by decide)
      · exact h6 hc
    rw [hnone]
    rw [List.findIdx?_cons]
    simp only [decide_True, if_pos]
    simp
    omega
  unfold Transcriber.removeSection
  rw [hfind]
  dsimp only
  rw [hidx]
  dsimp only
  rw [hdest]
  have hseg : pre ++ [Chunk.sectionStart] ++ mid1 ++ [Chunk.sectionStart] ++
      mid2 ++ [Chunk.sectionEnd] ++ mid3 ++ [Chunk.sectionEnd] ++ post =
      pre ++ (([Chunk.sectionStart] ++ mid1 ++ [Chunk.sectionStart] ++ mid2 ++
        [Chunk.sectionEnd]) ++ (mid3 ++ [Chunk.sectionEnd] ++ post)) := by
    simp
  rw [hseg]
  have hlen : ([Chunk.sectionStart] ++ mid1 ++ [Chunk.sectionStart] ++ mid2 ++
      [Chunk.sectionEnd]).length = mid1.length + mid2.length + 3 := by
    simp
    omega
  have he : pre.length + (mid1.length + mid2.length + 2) =
      pre.length + ([Chunk.sectionStart] ++ mid1 ++ [Chunk.sectionStart] ++
        mid2 ++ [Chunk.sectionEnd]).length - 1 := by
    rw [hlen]
    omega
  rw [he, tombRange_append _ _ _ (by simp)]
  rw [hlen]
  simp

/-- **C2** witness: the amended theorem applied to the concrete nested
destination `[SectionStart, 'a', SectionStart, 'b', SectionEnd, 'c',
SectionEnd]`. -/
theorem C2_remove_outer_stops_at_nested_end_witness :
    (nestedDestTranscriber.removeSection 1).destination =
      [] ++ List.replicate ([Chunk.text ['a']].length +
        [Chunk.text ['b']].length + 3) Chunk.tomb ++
        [Chunk.text ['c']] ++ [Chunk.sectionEnd] ++ [] :=
  C2_remove_outer_stops_at_nested_end [] [Chunk.text ['a']]
    [Chunk.text ['b']] [Chunk.text ['c']] [] nestedDestTranscriber
    (by decide) (by decide) (by decide) (by decide) (by decide)
    (by decide) (by decide)

theorem alphanum_not_pyWs (c : Char) (h : c.isAlphanum = true) :
    isPyWs c = false := by
  unfold isPyWs
  simp only [Bool.or_eq_false_iff, decide_eq_false_iff_not]
  refine ⟨⟨⟨⟨⟨?_, ?_⟩, ?_⟩, ?_⟩, ?_⟩, ?_⟩ <;>
    (rintro rfl; exact absurd h (by decide))

theorem alphanum_not_break (c : Char) (h : c.isAlphanum = true) :
    ¬(c = '/' ∨ c = '>' ∨ isPyWs c = true) := by
  rintro (rfl | rfl | hws)
  · exact absurd h (by decide)
  · exact absurd h (by decide)
  · rw [alphanum_not_pyWs c h] at hws
    exact absurd hws (by decide)

theorem take9_ne_cdataOpen (c : Char) (rest : List Char) (h : c ≠ '!') :
    ('<' :: c :: rest).take 9 ≠ cdataOpen := by
  intro heq
  rw [cdataOpen] at heq
  simp only [List.take_succ_cons, List.cons.injEq] at heq
  exact h heq.2.1

theorem take4_ne_commentOpen (c : Char) (rest : List Char) (h : c ≠ '!') :
    ('<' :: c :: rest).take 4 ≠ commentOpen := by
  intro heq
  rw [commentOpen] at heq
  simp only [List.take_succ_cons, List.cons.injEq] at heq
  exact h heq.2.1

theorem findNextLtGo_head_lt (rest : List Char) (idx : Nat)
    (h : ('<' :: rest).take 9 ≠ cdataOpen) :
    findNextLtGo ('<' :: rest) idx false = idx := by
  rw [findNextLtGo]
  rw [if_neg (by simp)]
  rw [if_pos rfl, if_neg h]

theorem tagEndIdx_append (l1 l2 : List Char) (idx : Nat)
    (h : ∀ c ∈ l1, ¬(c = '/' ∨ c = '>' ∨ isPyWs c = true)) :
    tagEndIdx (l1 ++ l2) idx = tagEndIdx l2 (idx + l1.length) := by
  induction l1 generalizing idx with
  | nil => simp
  | cons c l1 ih =>
    rw [List.cons_append, tagEndIdx, if_neg (h c (List.mem_cons_self c l1))]
    rw [ih _ fun d hd => h d (List.mem_cons_of_mem c hd)]
    congr 1
    simp
    omega

theorem tagEndIdx_head_break (c : Char) (l : List Char) (idx : Nat)
    (h : c = '/' ∨ c = '>' ∨ isPyWs c = true) :
    tagEndIdx (c :: l) idx = some idx := by
  rw [tagEndIdx, if_pos h]

theorem attrGo_ws_skip (src : List Char) (pos : Nat) (l1 l2 : List Char)
    (ptr : Nat) (acc : List XmlAttr)
    (h : ∀ c ∈ l1, isPyWs c = true ∧ c ≠ '/' ∧ c ≠ '>') :
    attrGo src pos (l1 ++ l2) ptr AttrState.outside acc =
      attrGo src pos l2 (ptr + l1.length) AttrState.outside acc := by
  induction l1 generalizing ptr with
  | nil => simp
  | cons c l1 ih =>
    obtain ⟨hws, h1, h2⟩ := h c (List.mem_cons_self c l1)
    rw [List.cons_append, attrGo, if_neg (by tauto), if_pos hws]
    rw [ih _ fun d hd => h d (List.mem_cons_of_mem c hd)]
    congr 1
    simp
    omega

theorem attrGo_head_break (src : List Char) (pos : Nat) (c : Char)
    (l : List Char) (ptr : Nat) (acc : List XmlAttr)
    (h : c = '/' ∨ c = '>') :
    attrGo src pos (c :: l) ptr AttrState.outside acc =
      Except.ok (acc, ptr) := by
  rw [attrGo, if_pos h]

theorem findNextLt_zero (name tail : List Char) (n0 : Char) (ntl : List Char)
    (hname : name = n0 :: ntl) (h0 : n0 ≠ '!') :
    findNextLt ('<' :: name ++ tail) 0 = 0 := by
  subst hname
  rw [findNextLt, List.drop_zero]
  have : ('<' :: (n0 :: ntl) ++ tail) = '<' :: n0 :: (ntl ++ tail) := by simp
  rw [this]
  exact findNextLtGo_head_lt _ _ (take9_ne_cdataOpen n0 _ h0)

theorem tagOf_name (name tail : List Char)
    (hname : name ≠ []) (hchars : ∀ c ∈ name, c.isAlphanum = true)
    (hhead : ∃ c tl, tail = c :: tl ∧ (c = '/' ∨ c = '>' ∨ isPyWs c = true)) :
    tagOf ('<' :: name ++ tail) 0 = Except.ok name := by
  obtain ⟨n0, ntl, rfl⟩ : ∃ n0 ntl, name = n0 :: ntl := by
    cases name with
    | nil => exact absurd rfl hname
    | cons a l => exact ⟨a, l, rfl⟩
  have h0 := hchars n0 (List.mem_cons_self n0 ntl)
  have h0ne : n0 ≠ '!' := by rintro rfl; exact absurd h0 (by decide)
  have hpos := findNextLt_zero (n0 :: ntl) tail n0 ntl rfl h0ne
  rw [tagOf, hpos]
  rw [List.drop_zero]
  have hsh : ('<' :: (n0 :: ntl) ++ tail) = '<' :: n0 :: (ntl ++ tail) := by simp
  rw [hsh, if_neg (take4_ne_commentOpen n0 _ h0ne)]
  have hd1 : ('<' :: n0 :: (ntl ++ tail)).drop (0 + 1) = (n0 :: ntl) ++ tail := by simp
  rw [hd1]
  rw [tagEndIdx_append (n0 :: ntl) tail (0 + 1)
    (fun c hc => alphanum_not_break c (hchars c hc))]
  obtain ⟨c, tl, rfl, hbrk⟩ := hhead
  rw [tagEndIdx_head_break c tl _ hbrk]
  dsimp only
  have harith : 0 + 1 + (n0 :: ntl).length - (0 + 1) = (n0 :: ntl).length := by omega
  rw [harith, List.take_left]



theorem attributesOf_name (name ws : List Char) (c : Char) (tl : List Char)
    (hname : name ≠ []) (hchars : ∀ c' ∈ name, c'.isAlphanum = true)
    (hws : ∀ c' ∈ ws, c' = ' ') (hc : c = '/' ∨ c = '>') :
    attributesOf ('<' :: name ++ ws ++ c :: tl) 0 =
      Except.ok ([], 1 + name.length + ws.length) := by
  obtain ⟨n0, ntl, hn⟩ : ∃ n0 ntl, name = n0 :: ntl := by
    cases name with
    | nil => exact absurd rfl hname
    | cons a l => exact ⟨a, l, rfl⟩
  have h0 := hchars n0 (by rw [hn]; exact List.mem_cons_self n0 ntl)
  have h0ne : n0 ≠ '!' := by rintro rfl; exact absurd h0 (by decide)
  have hhead : ∃ d dtl, ws ++ c :: tl = d :: dtl ∧
      (d = '/' ∨ d = '>' ∨ isPyWs d = true) := by
    cases ws with
    | nil => exact ⟨c, tl, rfl, by tauto⟩
    | cons w wtl =>
      refine ⟨w, wtl ++ c :: tl, by simp, Or.inr (Or.inr ?_)⟩
      rw [hws w (List.mem_cons_self w wtl)]
      decide
  have htag := tagOf_name name (ws ++ c :: tl) hname hchars hhead
  have hpos := findNextLt_zero name (ws ++ c :: tl) n0 ntl hn h0ne
  have hnc : name ≠ commentTag := by
    intro h
    exact absurd (hchars '!' (by rw [h, commentTag]; decide)) (by decide)
  have hassoc : ('<' :: name ++ ws ++ c :: tl) =
      '<' :: name ++ (ws ++ c :: tl) := by simp
  rw [hassoc, attributesOf, htag]
  show (if name = commentTag then _ else _) = _
  rw [if_neg hnc, hpos]
  have hdrop : ('<' :: name ++ (ws ++ c :: tl)).drop (0 + 1 + name.length) =
      ws ++ c :: tl := by
    have h1 : ('<' :: name ++ (ws ++ c :: tl)) =
        ('<' :: name) ++ (ws ++ c :: tl) := by simp
    have h2 : 0 + 1 + name.length = ('<' :: name).length := by simp; omega
    rw [h1, h2, List.drop_left]
  rw [hdrop]
  rw [attrGo_ws_skip _ _ ws (c :: tl) _ _ (fun d hd => by
    rw [hws d hd]
    exact ⟨by decide, by decide, by decide⟩)]
  rw [attrGo_head_break _ _ _ _ _ _ hc]



theorem textPositionOf_selfClosing (name ws rest : List Char)
    (hname : name ≠ []) (hchars : ∀ c ∈ name, c.isAlphanum = true)
    (hws : ∀ c ∈ ws, c = ' ') :
    textPositionOf ('<' :: name ++ ws ++ '/' :: '>' :: rest) 0 =
      Except.ok none := by
  have hhead : ∃ d dtl, ws ++ '/' :: '>' :: rest = d :: dtl ∧
      (d = '/' ∨ d = '>' ∨ isPyWs d = true) := by
    cases ws with
    | nil => exact ⟨'/', '>' :: rest, rfl, by tauto⟩
    | cons w wtl =>
      refine ⟨w, wtl ++ '/' :: '>' :: rest, by simp, Or.inr (Or.inr ?_)⟩
      rw [hws w (List.mem_cons_self w wtl)]
      decide
  have htag' := tagOf_name name (ws ++ '/' :: '>' :: rest) hname hchars hhead
  have hattrs := attributesOf_name name ws '/' ('>' :: rest) hname hchars hws
    (Or.inl rfl)
  have hnc : name ≠ commentTag := by
    intro h
    exact absurd (hchars '!' (by rw [h, commentTag]; decide)) (by decide)
  have hassoc : ('<' :: name ++ ws ++ '/' :: '>' :: rest) =
      '<' :: name ++ (ws ++ '/' :: '>' :: rest) := by simp
  rw [textPositionOf]
  rw [hassoc] at hattrs ⊢
  rw [htag']
  show (if name = commentTag then _ else _) = _
  rw [if_neg hnc, hattrs]
  show (match ('<' :: name ++ (ws ++ '/' :: '>' :: rest)).drop
      (1 + name.length + ws.length) |>.head? with
    | some c => _
    | none => _) = _
  have hdrop : ('<' :: name ++ (ws ++ '/' :: '>' :: rest)).drop
      (1 + name.length + ws.length) = '/' :: '>' :: rest := by
    have h1 : ('<' :: name ++ (ws ++ '/' :: '>' :: rest)) =
        ('<' :: name ++ ws) ++ ('/' :: '>' :: rest) := by simp
    have h2 : 1 + name.length + ws.length = ('<' :: name ++ ws).length := by
      simp
      omega
    rw [h1, h2, List.drop_left]
  rw [hdrop]
  show (if '/' = '/' then _ else _) = _
  rw [if_pos rfl]
  have hdrop2 : ('<' :: name ++ (ws ++ '/' :: '>' :: rest)).drop
      (1 + name.length + ws.length + 1) = '>' :: rest := by
    have h1 : ('<' :: name ++ (ws ++ '/' :: '>' :: rest)) =
        ('<' :: name ++ ws ++ ['/']) ++ ('>' :: rest) := by simp
    have h2 : 1 + name.length + ws.length + 1 =
        ('<' :: name ++ ws ++ ['/']).length := by
      simp
      omega
    rw [h1, h2, List.drop_left]
  rw [hdrop2]
  rw [singleTagCloseGo]
  rw [if_neg (by decide), if_pos rfl]
  rfl



theorem textPositionOf_emptyTag (name rest2 : List Char)
    (hname : name ≠ []) (hchars : ∀ c ∈ name, c.isAlphanum = true) :
    textPositionOf ('<' :: name ++ '>' :: '<' :: '/' :: name ++ '>' :: rest2) 0 =
      Except.ok (some (name.length + 2)) := by
  have hassoc : ('<' :: name ++ '>' :: '<' :: '/' :: name ++ '>' :: rest2) =
      '<' :: name ++ [] ++ '>' :: ('<' :: '/' :: name ++ '>' :: rest2) := by
    simp
  have hhead : ∃ d dtl, ([] : List Char) ++
      '>' :: ('<' :: '/' :: name ++ '>' :: rest2) = d :: dtl ∧
      (d = '/' ∨ d = '>' ∨ isPyWs d = true) := by
    exact ⟨'>', _, rfl, by tauto⟩
  have htag' := tagOf_name name ([] ++ '>' :: ('<' :: '/' :: name ++ '>' :: rest2))
    hname hchars hhead
  have hattrs := attributesOf_name name [] '>' ('<' :: '/' :: name ++ '>' :: rest2)
    hname hchars (by intro c' hc'; simp at hc') (Or.inr rfl)
  have hnc : name ≠ commentTag := by
    intro h
    exact absurd (hchars '!' (by rw [h, commentTag]; decide)) (by decide)
  rw [hassoc, textPositionOf]
  rw [show ('<' :: name ++ [] ++ '>' :: ('<' :: '/' :: name ++ '>' :: rest2)) =
    ('<' :: name ++ ([] ++ '>' :: ('<' :: '/' :: name ++ '>' :: rest2))) by simp]
  rw [htag']
  show (if name = commentTag then _ else _) = _
  rw [if_neg hnc]
  rw [show ('<' :: name ++ ([] ++ '>' :: ('<' :: '/' :: name ++ '>' :: rest2))) =
    ('<' :: name ++ [] ++ '>' :: ('<' :: '/' :: name ++ '>' :: rest2)) by simp]
  rw [hattrs]
  show (match (('<' :: name ++ [] ++ '>' :: ('<' :: '/' :: name ++ '>' :: rest2)).drop
      (1 + name.length + ([] : List Char).length) |>.head?) with
    | some c => _
    | none => _) = _
  have hdrop : ('<' :: name ++ [] ++ '>' :: ('<' :: '/' :: name ++ '>' :: rest2)).drop
      (1 + name.length + ([] : List Char).length) =
      '>' :: ('<' :: '/' :: name ++ '>' :: rest2) := by
    have h1 : ('<' :: name ++ [] ++ '>' :: ('<' :: '/' :: name ++ '>' :: rest2)) =
        ('<' :: name) ++ ('>' :: ('<' :: '/' :: name ++ '>' :: rest2)) := by simp
    have h2 : 1 + name.length + ([] : List Char).length =
        ('<' :: name).length := by simp; omega
    rw [h1, h2, List.drop_left]
  rw [hdrop]
  show (if '>' = '/' then _ else _) = _
  rw [if_neg (by decide)]
  show (if '>' = '>' then _ else _) = _
  rw [if_pos rfl]
  show Except.ok (some (1 + name.length + ([] : List Char).length + 1)) = _
  congr 2
  simp
  omega



theorem ok_bind {e a b : Type} (x : a) (f : a → Except e b) :
    (Except.ok (ε := e) x >>= f) = f x := rfl

theorem textOf_selfClosing (name ws rest : List Char)
    (hname : name ≠ []) (hchars : ∀ c ∈ name, c.isAlphanum = true)
    (hws : ∀ c ∈ ws, c = ' ') :
    textOf ('<' :: name ++ ws ++ '/' :: '>' :: rest) 0 = Except.ok none := by
  have hhead : ∃ d dtl, ws ++ '/' :: '>' :: rest = d :: dtl ∧
      (d = '/' ∨ d = '>' ∨ isPyWs d = true) := by
    cases ws with
    | nil => exact ⟨'/', '>' :: rest, rfl, by tauto⟩
    | cons w wtl =>
      refine ⟨w, wtl ++ '/' :: '>' :: rest, by simp, Or.inr (Or.inr ?_)⟩
      rw [hws w (List.mem_cons_self w wtl)]
      decide
  have htag' := tagOf_name name (ws ++ '/' :: '>' :: rest) hname hchars hhead
  have htp := textPositionOf_selfClosing name ws rest hname hchars hws
  have hnc : name ≠ commentTag := by
    intro h
    exact absurd (hchars '!' (by rw [h, commentTag]; decide)) (by decide)
  have hassoc : ('<' :: name ++ ws ++ '/' :: '>' :: rest) =
      '<' :: name ++ (ws ++ '/' :: '>' :: rest) := by simp
  rw [textOf]
  rw [hassoc] at htp ⊢
  rw [htag']
  show (if name = commentTag then _ else _) = _
  rw [if_neg hnc, htp]
  rfl

theorem textOf_emptyTag (name rest2 : List Char)
    (hname : name ≠ []) (hchars : ∀ c ∈ name, c.isAlphanum = true) :
    textOf ('<' :: name ++ '>' :: '<' :: '/' :: name ++ '>' :: rest2) 0 =
      Except.ok (some []) := by
  have hassoc : ('<' :: name ++ '>' :: '<' :: '/' :: name ++ '>' :: rest2) =
      '<' :: name ++ [] ++ '>' :: ('<' :: '/' :: name ++ '>' :: rest2) := by
    simp
  have hhead : ∃ d dtl, ([] : List Char) ++
      '>' :: ('<' :: '/' :: name ++ '>' :: rest2) = d :: dtl ∧
      (d = '/' ∨ d = '>' ∨ isPyWs d = true) :=
    ⟨'>', _, rfl, by tauto⟩
  have htag' := tagOf_name name
    ([] ++ '>' :: ('<' :: '/' :: name ++ '>' :: rest2)) hname hchars hhead
  have htp := textPositionOf_emptyTag name rest2 hname hchars
  have hnc : name ≠ commentTag := by
    intro h
    exact absurd (hchars '!' (by rw [h, commentTag]; decide)) (by decide)
  obtain ⟨n0, ntl, hn⟩ : ∃ n0 ntl, name = n0 :: ntl := by
    cases name with
    | nil => exact absurd rfl hname
    | cons a l => exact ⟨a, l, rfl⟩
  rw [textOf]
  rw [hassoc] at htp ⊢
  rw [show ('<' :: name ++ [] ++ '>' :: ('<' :: '/' :: name ++ '>' :: rest2)) =
    ('<' :: name ++ ([] ++ '>' :: ('<' :: '/' :: name ++ '>' :: rest2))) by simp]
  rw [htag']
  show (if name = commentTag then _ else _) = _
  rw [if_neg hnc]
  rw [show ('<' :: name ++ ([] ++ '>' :: ('<' :: '/' :: name ++ '>' :: rest2))) =
    ('<' :: name ++ [] ++ '>' :: ('<' :: '/' :: name ++ '>' :: rest2)) by simp]
  rw [htp, ok_bind]
  dsimp only
  have hdropP : ('<' :: name ++ [] ++ '>' ::
      ('<' :: '/' :: name ++ '>' :: rest2)).drop (name.length + 2) =
      '<' :: '/' :: name ++ '>' :: rest2 := by
    have h1 : ('<' :: name ++ [] ++ '>' :: ('<' :: '/' :: name ++ '>' :: rest2)) =
        ('<' :: name ++ ['>']) ++ ('<' :: '/' :: name ++ '>' :: rest2) := by simp
    have h2 : name.length + 2 = ('<' :: name ++ ['>']).length := by simp
    rw [h1, h2, List.drop_left]
  have hntp : findNextLt ('<' :: name ++ [] ++ '>' ::
      ('<' :: '/' :: name ++ '>' :: rest2)) (name.length + 2) =
      name.length + 2 := by
    rw [findNextLt, hdropP]
    rw [show ('<' :: '/' :: name ++ '>' :: rest2) =
      '<' :: ('/' :: name ++ '>' :: rest2) by simp]
    exact findNextLtGo_head_lt _ _ (take9_ne_cdataOpen '/' _ (by decide))
  rw [hntp]
  rw [if_neg (by
    intro h
    simp only [List.length_cons, List.length_append, List.length_nil] at h
    omega)]
  congr 2
  apply List.drop_eq_nil_of_le
  have := List.length_take_le (name.length + 2)
    ('<' :: name ++ [] ++ '>' :: ('<' :: '/' :: name ++ '>' :: rest2))
  omega


/-- **C8** (confirmed).  For a self-closing tag `<name ws/>...` the
structural scanner yields `text_position = None` and `text = None`, while
for an empty element with separate opening and closing tags
`<name></name>...` it yields `text = ''` with the non-`None`
`text_position` pointing right after the opening tag's `'>'` — so "no
body" is distinguishable from "empty body". -/
theorem C8_self_closing_vs_empty_tag (name ws rest rest2 : List Char)
    (hname : name ≠ []) (hchars : ∀ c ∈ name, c.isAlphanum = true)
    (hws : ∀ c ∈ ws, c = ' ') :
    (textPositionOf ('<' :: name ++ ws ++ '/' :: '>' :: rest) 0 =
       Except.ok none ∧
     textOf ('<' :: name ++ ws ++ '/' :: '>' :: rest) 0 = Except.ok none) ∧
    (textPositionOf ('<' :: name ++ '>' :: '<' :: '/' :: name ++ '>' :: rest2)
       0 = Except.ok (some (name.length + 2)) ∧
     textOf ('<' :: name ++ '>' :: '<' :: '/' :: name ++ '>' :: rest2) 0 =
       Except.ok (some [])) :=
  ⟨⟨textPositionOf_selfClosing name ws rest hname hchars hws,
    textOf_selfClosing name ws rest hname hchars hws⟩,
   ⟨textPositionOf_emptyTag name rest2 hname hchars,
    textOf_emptyTag name rest2 hname hchars⟩⟩

/-- **C8** witness: `<br />` and `<li></li>`. -/
theorem C8_self_closing_vs_empty_tag_witness :
    (textPositionOf ('<' :: ['b', 'r'] ++ [' '] ++ '/' :: '>' :: []) 0 =
       Except.ok none ∧
     textOf ('<' :: ['b', 'r'] ++ [' '] ++ '/' :: '>' :: []) 0 =
       Except.ok none) ∧
    (textPositionOf
       ('<' :: ['l', 'i'] ++ '>' :: '<' :: '/' :: ['l', 'i'] ++ '>' :: []) 0 =
       Except.ok (some (['l', 'i'].length + 2)) ∧
     textOf ('<' :: ['l', 'i'] ++ '>' :: '<' :: '/' :: ['l', 'i'] ++ '>' :: [])
       0 = Except.ok (some [])) :=
  ⟨(C8_self_closing_vs_empty_tag ['b', 'r'] [' '] [] []
      (by decide) (by decide) (by decide)).1,
   (C8_self_closing_vs_empty_tag ['l', 'i'] [] [] []
      (by decide) (by decide) (by decide)).2⟩

theorem dictInsert_mem (k : Nat) (v : List Char)
    (l : List (Nat × List Char)) (p : Nat × List Char)
    (h : p ∈ dictInsert k v l) : p = (k, v) ∨ p ∈ l := by
  induction l with
  | nil => simpa [dictInsert] using h
  | cons q rest ih =>
    obtain ⟨k', v'⟩ := q
    rw [dictInsert] at h
    by_cases h1 : k < k'
    · rw [if_pos h1] at h
      simp only [List.mem_cons] at h ⊢
      tauto
    · rw [if_neg h1] at h
      by_cases h2 : k = k'
      · rw [if_pos h2] at h
        simp only [List.mem_cons] at h ⊢
        tauto
      · rw [if_neg h2] at h
        simp only [List.mem_cons] at h ⊢
        rcases h with h | h
        · tauto
        · rcases ih h with h | h <;> tauto

theorem dictInsert_sorted (k : Nat) (v : List Char)
    (l : List (Nat × List Char))
    (h : List.Sorted (· < ·) (l.map Prod.fst)) :
    List.Sorted (· < ·) ((dictInsert k v l).map Prod.fst) := by
  induction l with
  | nil => simp [dictInsert]
  | cons q rest ih =>
    obtain ⟨k', v'⟩ := q
    simp only [List.map_cons, List.sorted_cons] at h
    rw [dictInsert]
    by_cases h1 : k < k'
    · rw [if_pos h1]
      simp only [List.map_cons, List.sorted_cons]
      refine ⟨?_, h.1, h.2⟩
      intro b hb
      simp only [List.mem_cons] at hb
      rcases hb with rfl | hb
      · exact h1
      · exact h1.trans (h.1 b hb)
    · rw [if_neg h1]
      by_cases h2 : k = k'
      · rw [if_pos h2]
        simp only [List.map_cons, List.sorted_cons]
        exact ⟨fun b hb => h2 ▸ h.1 b hb, h.2⟩
      · rw [if_neg h2]
        simp only [List.map_cons, List.sorted_cons]
        refine ⟨?_, ih h.2⟩
        intro b hb
        simp only [List.mem_map] at hb
        obtain ⟨p, hp, rfl⟩ := hb
        rcases dictInsert_mem k v rest p hp with rfl | hp'
        · omega
        · exact h.1 _ (List.mem_map_of_mem Prod.fst hp')

theorem dictOfList_foldl_sorted (l acc : List (Nat × List Char))
    (h : List.Sorted (· < ·) (acc.map Prod.fst)) :
    List.Sorted (· < ·)
      ((l.foldl (fun acc p => dictInsert p.1 p.2 acc) acc).map Prod.fst) := by
  induction l generalizing acc with
  | nil => simpa using h
  | cons p rest ih =>
    rw [List.foldl_cons]
    exact ih _ (dictInsert_sorted p.1 p.2 acc h)

theorem dictOfList_sorted (l : List (Nat × List Char)) :
    List.Sorted (· < ·) ((dictOfList l).map Prod.fst) :=
  dictOfList_foldl_sorted l [] (by simp)

theorem dictOfList_foldl_mem (l acc : List (Nat × List Char))
    (p : Nat × List Char)
    (h : p ∈ l.foldl (fun acc p => dictInsert p.1 p.2 acc) acc) :
    p ∈ acc ∨ p ∈ l := by
  induction l generalizing acc with
  | nil =>
    left
    simpa using h
  | cons q rest ih =>
    rw [List.foldl_cons] at h
    rcases ih _ h with h' | h'
    · rcases dictInsert_mem q.1 q.2 acc p h' with rfl | h''
      · right
        simp
      · left
        exact h''
    · right
      exact List.mem_cons_of_mem q h'

/-- **C3** (confirmed).  `serialize_pluralized_string` re-emits the rule
groups of a pluralized string's rule→content payload in ascending
rule-number order, each group formatted `<rule-name> {<content>}`, joined
by the configured delimiter: the emitted sequence is the map of the group
format over the payload dict's enumeration, whose keys are strictly
ascending and whose pairs all come from the payload. -/
theorem C3_serialize_pluralized_ascending (os : OpenString)
    (m : List (Nat × List Char)) (delim : List Char)
    (hos : os.payload = Payload.plural m) :
    serializePluralizedString os delim =
      List.intercalate delim ((dictOfList m).map pluralGroupFormat) ∧
    List.Sorted (· < ·) ((dictOfList m).map Prod.fst) ∧
    ∀ p ∈ dictOfList m, p ∈ m := by
  refine ⟨?_, dictOfList_sorted m, ?_⟩
  · rw [serializePluralizedString, hos]
    rfl
  · intro p hp
    rcases dictOfList_foldl_mem m [] p hp with h | h
    · simp at h
    · exact h

/-- **C3** witness: the payload `{5 ↦ "B", 1 ↦ "A"}` (inserted in
descending order) serializes as `one {A} other {B}`. -/
theorem C3_serialize_pluralized_ascending_witness :
    serializePluralizedString
      { key := ['k'], payload := Payload.plural [(5, ['B']), (1, ['A'])],
        order := 0, pluralized := true } [' '] =
      List.intercalate [' ']
        ((dictOfList [(5, ['B']), (1, ['A'])]).map pluralGroupFormat) ∧
    List.Sorted (· < ·)
      ((dictOfList [(5, ['B']), (1, ['A'])]).map Prod.fst) ∧
    ∀ p ∈ dictOfList [(5, ['B']), (1, ['A'])], p ∈ [(5, ['B']), (1, ['A'])] :=
  C3_serialize_pluralized_ascending
    { key := ['k'], payload := Payload.plural [(5, ['B']), (1, ['A'])],
      order := 0, pluralized := true }
    [(5, ['B']), (1, ['A'])] [' '] rfl

theorem slice_seg (A seg Z : List Char) (n m : Nat) (hA : A.length = n)
    (hseg : seg.length = m) :
    ((A ++ seg ++ Z).take (n + m)).drop n = seg := by
  rw [show A ++ seg ++ Z = (A ++ seg) ++ Z by simp,
    List.take_left' (by simp [hA, hseg]),
    List.drop_left' hA]

theorem slice_one (A Z : List Char) (x : Char) (n : Nat) (hA : A.length = n) :
    ((A ++ x :: Z).take (n + 1)).drop n = [x] := by
  rw [show A ++ x :: Z = (A ++ [x]) ++ Z by simp,
    List.take_left' (by simp [hA]),
    List.drop_left' hA]

theorem slice_two (A Z : List Char) (x y : Char) (n : Nat)
    (hA : A.length = n) :
    ((A ++ x :: y :: Z).take (n + 2)).drop n = [x, y] := by
  rw [show A ++ x :: y :: Z = (A ++ [x, y]) ++ Z by simp,
    List.take_left' (by simp [hA]),
    List.drop_left' hA]

theorem slice_end (c : List Char) (n : Nat) : (c.take n).drop n = [] := by
  rw [List.drop_take, Nat.sub_self, List.take_zero]

/-- The effect of the `copy_until / add / skip` sequence that `_extract`
and `_insert_regular_string` perform on one string value. -/
theorem step_regular (t : Transcriber) (pfx wsB key wsA v tail repl : List Char)
    (hsrc : t.source = pfx ++ wsB ++ '"' :: key ++ '"' :: ':' :: wsA ++
      '"' :: v ++ '"' :: tail)
    (hptr : t.ptr ≤ pfx.length) :
    (((t.copyUntil (pfx.length + wsB.length + key.length + wsA.length + 4)).add
        repl).skip v.length).source = t.source ∧
    (((t.copyUntil (pfx.length + wsB.length + key.length + wsA.length + 4)).add
        repl).skip v.length).newlineTypeDOS = t.newlineTypeDOS ∧
    (((t.copyUntil (pfx.length + wsB.length + key.length + wsA.length + 4)).add
        repl).skip v.length).ptr =
      pfx.length + wsB.length + key.length + wsA.length + v.length + 4 ∧
    flattenDest ((((t.copyUntil (pfx.length + wsB.length + key.length +
        wsA.length + 4)).add repl).skip v.length).destination) =
      flattenDest t.destination ++ (t.source.take pfx.length).drop t.ptr ++
        (wsB ++ '"' :: key ++ '"' :: ':' :: wsA ++ ['"']) ++ repl ∧
    (nlOK t → nlOK (((t.copyUntil (pfx.length + wsB.length + key.length +
        wsA.length + 4)).add repl).skip v.length)) := by
  have hvp : t.ptr ≤ pfx.length + wsB.length + key.length + wsA.length + 4 := by
    omega
  refine ⟨rfl, rfl, ?_, ?_, ?_⟩
  · show pfx.length + wsB.length + key.length + wsA.length + 4 + v.length =
      pfx.length + wsB.length + key.length + wsA.length + v.length + 4
    omega
  · show flattenDest (t.destination ++ [Chunk.text (t.sliceUntil
      (pfx.length + wsB.length + key.length + wsA.length + 4))] ++
      [Chunk.text repl]) = _
    rw [flattenDest_append, flattenDest_append, flattenDest_text,
      flattenDest_text, Transcriber.sliceUntil]
    have hsp := slice_split t.source t.ptr pfx.length
      (pfx.length + wsB.length + key.length + wsA.length + 4) hptr (by omega)
    rw [hsp]
    have hseg : ((t.source.take (pfx.length + wsB.length + key.length +
        wsA.length + 4)).drop pfx.length) =
        wsB ++ '"' :: key ++ '"' :: ':' :: wsA ++ ['"'] := by
      rw [hsrc]
      rw [show pfx ++ wsB ++ '"' :: key ++ '"' :: ':' :: wsA ++
          '"' :: v ++ '"' :: tail =
        pfx ++ (wsB ++ '"' :: key ++ '"' :: ':' :: wsA ++ ['"']) ++
          (v ++ '"' :: tail) by simp]
      rw [show pfx.length + wsB.length + key.length + wsA.length + 4 =
        pfx.length + (wsB ++ '"' :: key ++ '"' :: ':' :: wsA ++ ['"']).length by
          simp; omega]
      exact slice_seg _ _ _ _ _ rfl rfl
    rw [hseg]
    simp [List.append_assoc]
  · intro h
    exact nlOK_skip _ _ (nlOK_add _ _ (nlOK_copyUntil _ _ h hvp))

/-- `extractEntry` on a fresh key with an empty-after-strip string value. -/
theorem extractEntry_str_skip (st : ParseState) (pe : PosEntry) (v : List Char)
    (hv : pe.value = JValue.str v) (hnd : escapeKey pe.key ∉ st.existing)
    (hempty : pyStrip v = []) :
    extractEntry st pe =
      Except.ok { st with existing := st.existing ++ [escapeKey pe.key] } := by
  unfold extractEntry
  rw [if_neg hnd, hv]
  dsimp only
  rw [if_pos hempty]

/-- `extractEntry` on a fresh key with a regular extractable value. -/
theorem extractEntry_str_extract (st : ParseState) (pe : PosEntry)
    (v : List Char) (hv : pe.value = JValue.str v)
    (hnd : escapeKey pe.key ∉ st.existing) (hne : pyStrip v ≠ [])
    (hnp : isPluralShaped v = false) :
    extractEntry st pe = Except.ok (getRegularString
      { st with existing := st.existing ++ [escapeKey pe.key] }
      (escapeKey pe.key) v pe.valuePos) := by
  unfold extractEntry
  rw [if_neg hnd, hv]
  dsimp only
  rw [if_neg hne, if_neg (by rw [hnp]; exact Bool.false_ne_true)]

/-- `extractEntry` on a fresh key with a non-string scalar value. -/
theorem extractEntry_other (st : ParseState) (pe : PosEntry) (tok : List Char)
    (hv : pe.value = JValue.other tok) (hnd : escapeKey pe.key ∉ st.existing) :
    extractEntry st pe =
      Except.ok { st with existing := st.existing ++ [escapeKey pe.key] } := by
  unfold extractEntry
  rw [if_neg hnd, hv]

/-- `extractEntry` on a duplicate key. -/
theorem extractEntry_dup (st : ParseState) (pe : PosEntry)
    (hd : escapeKey pe.key ∈ st.existing) :
    extractEntry st pe = Except.error (PErr.duplicateKey (escapeKey pe.key)
      ((st.t.copyUntil pe.keyPos).lineNumber)) := by
  unfold extractEntry
  rw [if_pos hd]

/-- `expectedStringset` distributes over appended entry lists, shifting
the order counter by the number of strings extracted from the first
part. -/
theorem expectedStringset_append (l1 l2 : List JEntry) (ord : Nat) :
    expectedStringset (l1 ++ l2) ord =
      expectedStringset l1 ord ++
        expectedStringset l2 (ord + (expectedStringset l1 ord).length) := by
  induction l1 generalizing ord with
  | nil => simp [expectedStringset]
  | cons e rest ih =>
    rw [List.cons_append, expectedStringset, expectedStringset]
    by_cases hx : shouldExtract e = true
    · rw [if_pos hx, if_pos hx, ih]
      simp only [List.cons_append, List.length_cons]
      rw [show ord + 1 + (expectedStringset rest (ord + 1)).length =
        ord + ((expectedStringset rest (ord + 1)).length + 1) by omega]
    · rw [if_neg hx, if_neg hx, ih]

/-- One `_extract` loop step on a fresh-keyed entry: the entry is either
skipped verbatim or replaced by its placeholder, matching
`templateEntry`, and the state bookkeeping matches `expectedStringset`. -/
theorem extract_one (st : ParseState) (e : JEntry) (c pfx tail2 : List Char)
    (hsrc : st.t.source = c)
    (hc : c = pfx ++ renderJEntry e ++ tail2)
    (hptr : st.t.ptr ≤ pfx.length)
    (hkey : escapeKey e.key ∉ st.existing)
    (hpl : ∀ v, e.value = JValue.str v → pyStrip v ≠ [] →
      isPluralShaped v = false)
    (hnl : nlOK st.t) :
    ∃ st₂, extractEntry st ⟨e.key, pfx.length + e.wsBefore.length + 1, e.value,
        entryValuePos e pfx.length⟩ = Except.ok st₂ ∧
      st₂.t.source = c ∧
      st₂.t.newlineTypeDOS = st.t.newlineTypeDOS ∧
      st₂.t.ptr ≤ pfx.length + (renderJEntry e).length ∧
      nlOK st₂.t ∧
      flattenDest st₂.t.destination ++
        (c.take (pfx.length + (renderJEntry e).length)).drop st₂.t.ptr =
        flattenDest st.t.destination ++ (c.take pfx.length).drop st.t.ptr ++
          renderJEntry (templateEntry e) ∧
      st₂.stringset = st.stringset ++ expectedStringset [e] st.order ∧
      st₂.order = st.order + (expectedStringset [e] st.order).length ∧
      st₂.existing = st.existing ++ [escapeKey e.key] := by
  cases hv : e.value with
  | str v =>
    by_cases hempty : pyStrip v = []
    · -- skipped entry: only the existing-keys set changes
      have htempl : templateEntry e = e := by
        simp [templateEntry, shouldExtract, hv, hempty]
      have hexp : expectedStringset [e] st.order = [] := by
        simp [expectedStringset, shouldExtract, hv, hempty]
      refine ⟨{ st with existing := st.existing ++ [escapeKey e.key] },
        extractEntry_str_skip _ _ v rfl hkey hempty, hsrc, rfl, ?_, hnl, ?_,
        by rw [hexp]; simp, by rw [hexp]; simp, rfl⟩
      · show st.t.ptr ≤ pfx.length + (renderJEntry e).length
        omega
      · show flattenDest st.t.destination ++
          (c.take (pfx.length + (renderJEntry e).length)).drop st.t.ptr = _
        rw [slice_split c st.t.ptr pfx.length
          (pfx.length + (renderJEntry e).length) hptr (by omega)]
        rw [show (c.take (pfx.length + (renderJEntry e).length)).drop
            pfx.length = renderJEntry e from by
          rw [hc]; exact slice_seg _ _ _ _ _ rfl rfl]
        rw [htempl, List.append_assoc]
    · -- extracted entry
      have hnp : isPluralShaped v = false := hpl v hv hempty
      have hvp : entryValuePos e pfx.length = pfx.length + e.wsBefore.length +
          e.key.length + e.wsAfter.length + 4 := by
        rw [entryValuePos, hv]
      have hrender : renderJEntry e = e.wsBefore ++ '"' :: e.key ++ '"' ::
          ':' :: e.wsAfter ++ '"' :: v ++ ['"'] := by
        rw [renderJEntry, hv, renderJValue]
        simp [List.cons_append, List.append_assoc]
      have hx : shouldExtract e = true := by
        rw [shouldExtract, hv]
        simp only [Bool.not_eq_true']
        cases hps : pyStrip v with
        | nil => exact absurd hps hempty
        | cons a l => rfl
      have hsrc2 : st.t.source = pfx ++ e.wsBefore ++ '"' :: e.key ++ '"' ::
          ':' :: e.wsAfter ++ '"' :: v ++ '"' :: tail2 := by
        rw [hsrc, hc, hrender]
        simp [List.cons_append, List.append_assoc]
      obtain ⟨hs1, hs2, hs3, hs4, hs5⟩ := step_regular st.t pfx e.wsBefore
        e.key e.wsAfter v tail2
        (osTemplateReplacement { key := escapeKey e.key, payload := Payload.plain v, order := st.order, pluralized := false })
        hsrc2 hptr
      have hrL : (renderJEntry e).length = e.wsBefore.length + e.key.length +
          e.wsAfter.length + v.length + 5 := by
        rw [hrender]
        simp
        omega
      have hexp : expectedStringset [e] st.order =
          [{ key := escapeKey e.key, payload := Payload.plain v, order := st.order, pluralized := false }] := by
        rw [expectedStringset, if_pos hx, hv, expectedStringset]
      have htempl2 : renderJEntry (templateEntry e) = e.wsBefore ++ '"' ::
          e.key ++ '"' :: ':' :: e.wsAfter ++
          '"' :: templateReplacement (escapeKey e.key) false ++ ['"'] := by
        rw [templateEntry, if_pos hx, renderJEntry, renderJValue]
        simp [List.cons_append, List.append_assoc]
      refine ⟨getRegularString { st with existing := st.existing ++ [escapeKey e.key] } (escapeKey e.key) v (entryValuePos e pfx.length),
        extractEntry_str_extract _ _ v rfl hkey hempty hnp, ?_, ?_, ?_, ?_, ?_,
        ?_, ?_, rfl⟩
      · show (((st.t.copyUntil (entryValuePos e pfx.length)).add
          (osTemplateReplacement { key := escapeKey e.key, payload := Payload.plain v, order := st.order, pluralized := false })).skip v.length).source = c
        rw [hvp, hs1, hsrc]
      · show (((st.t.copyUntil (entryValuePos e pfx.length)).add
          (osTemplateReplacement { key := escapeKey e.key, payload := Payload.plain v, order := st.order, pluralized := false })).skip v.length).newlineTypeDOS = st.t.newlineTypeDOS
        rw [hvp, hs2]
      · show (((st.t.copyUntil (entryValuePos e pfx.length)).add
          (osTemplateReplacement { key := escapeKey e.key, payload := Payload.plain v, order := st.order, pluralized := false })).skip v.length).ptr ≤
            pfx.length + (renderJEntry e).length
        rw [hvp, hs3, hrL]
        omega
      · show nlOK (((st.t.copyUntil (entryValuePos e pfx.length)).add
          (osTemplateReplacement { key := escapeKey e.key, payload := Payload.plain v, order := st.order, pluralized := false })).skip v.length)
        rw [hvp]
        exact hs5 hnl
      · show flattenDest ((((st.t.copyUntil (entryValuePos e pfx.length)).add
          (osTemplateReplacement { key := escapeKey e.key, payload := Payload.plain v, order := st.order, pluralized := false })).skip v.length).destination) ++
          (c.take (pfx.length + (renderJEntry e).length)).drop
            ((((st.t.copyUntil (entryValuePos e pfx.length)).add
              (osTemplateReplacement { key := escapeKey e.key, payload := Payload.plain v, order := st.order, pluralized := false })).skip v.length).ptr) =
          flattenDest st.t.destination ++ (c.take pfx.length).drop st.t.ptr ++
            renderJEntry (templateEntry e)
        rw [hvp, hs3, hs4, hsrc]
        have hpend : (c.take (pfx.length + (renderJEntry e).length)).drop
            (pfx.length + e.wsBefore.length + e.key.length + e.wsAfter.length +
              v.length + 4) = ['"'] := by
          rw [hc, hrender]
          rw [show pfx ++ (e.wsBefore ++ '"' :: e.key ++ '"' :: ':' ::
              e.wsAfter ++ '"' :: v ++ ['"']) ++ tail2 =
            (pfx ++ e.wsBefore ++ '"' :: e.key ++ '"' :: ':' :: e.wsAfter ++
              '"' :: v) ++ '"' :: tail2 by
              simp [List.cons_append, List.append_assoc]]
          rw [show pfx.length + (e.wsBefore ++ '"' :: e.key ++ '"' :: ':' ::
              e.wsAfter ++ '"' :: v ++ ['"']).length =
            (pfx ++ e.wsBefore ++ '"' :: e.key ++ '"' :: ':' :: e.wsAfter ++
              '"' :: v).length + 1 by simp; omega]
          rw [show pfx.length + e.wsBefore.length + e.key.length +
              e.wsAfter.length + v.length + 4 =
            (pfx ++ e.wsBefore ++ '"' :: e.key ++ '"' :: ':' :: e.wsAfter ++
              '"' :: v).length by simp; omega]
          exact slice_one _ _ _ _ rfl
        rw [hpend, htempl2]
        simp [osTemplateReplacement, List.cons_append, List.append_assoc]
      · show st.stringset ++ [{ key := escapeKey e.key, payload := Payload.plain v, order := st.order, pluralized := false }] =
          st.stringset ++ expectedStringset [e] st.order
        rw [hexp]
      · show st.order + 1 = st.order + (expectedStringset [e] st.order).length
        rw [hexp]
        rfl
  | other tok =>
    have htempl : templateEntry e = e := by
      simp [templateEntry, shouldExtract, hv]
    have hexp : expectedStringset [e] st.order = [] := by
      simp [expectedStringset, shouldExtract, hv]
    refine ⟨{ st with existing := st.existing ++ [escapeKey e.key] },
      extractEntry_other _ _ tok rfl hkey, hsrc, rfl, ?_, hnl, ?_,
      by rw [hexp]; simp, by rw [hexp]; simp, rfl⟩
    · show st.t.ptr ≤ pfx.length + (renderJEntry e).length
      omega
    · show flattenDest st.t.destination ++
        (c.take (pfx.length + (renderJEntry e).length)).drop st.t.ptr = _
      rw [slice_split c st.t.ptr pfx.length
        (pfx.length + (renderJEntry e).length) hptr (by omega)]
      rw [show (c.take (pfx.length + (renderJEntry e).length)).drop
          pfx.length = renderJEntry e from by
        rw [hc]; exact slice_seg _ _ _ _ _ rfl rfl]
      rw [htempl, List.append_assoc]

theorem extractEntries_cons (pe : PosEntry) (rest : List PosEntry)
    (st : ParseState) :
    extractEntries (pe :: rest) st =
      match extractEntry st pe with
      | Except.error er => Except.error er
      | Except.ok st2 => extractEntries rest st2 := rfl

/-- The `_extract` loop invariant over a suffix of the document's
entries: the loop succeeds, the destination-so-far plus the pending copy
window realize the `templateEntry` substitution, and the stringset grows
by `expectedStringset`. -/
theorem extractEntries_ok (es : List JEntry) :
    ∀ (c pfx rest : List Char) (st : ParseState),
    st.t.source = c →
    c = pfx ++ joinComma (es.map renderJEntry) ++ rest →
    st.t.ptr ≤ pfx.length →
    (∀ e ∈ es, escapeKey e.key ∉ st.existing) →
    (es.map fun e => escapeKey e.key).Nodup →
    (∀ e ∈ es, ∀ v, e.value = JValue.str v → pyStrip v ≠ [] →
      isPluralShaped v = false) →
    nlOK st.t →
    ∃ st', extractEntries (posEntriesGo es pfx.length) st = Except.ok st' ∧
      st'.t.source = c ∧
      st'.t.newlineTypeDOS = st.t.newlineTypeDOS ∧
      st'.t.ptr ≤ pfx.length + (joinComma (es.map renderJEntry)).length ∧
      nlOK st'.t ∧
      flattenDest st'.t.destination ++
        (c.take (pfx.length +
          (joinComma (es.map renderJEntry)).length)).drop st'.t.ptr =
        flattenDest st.t.destination ++ (c.take pfx.length).drop st.t.ptr ++
          joinComma ((es.map templateEntry).map renderJEntry) ∧
      st'.stringset = st.stringset ++ expectedStringset es st.order ∧
      st'.existing = st.existing ++ es.map (fun e => escapeKey e.key) := by
  induction es with
  | nil =>
    intro c pfx rest st hsrc hc hptr hnew hnodup hplural hnl
    refine ⟨st, rfl, hsrc, rfl, ?_, hnl, ?_, ?_, by simp⟩
    · simpa [joinComma] using hptr
    · simp [joinComma]
    · simp [expectedStringset]
  | cons e es' ih =>
    intro c pfx rest st hsrc hc hptr hnew hnodup hplural hnl
    have hkey : escapeKey e.key ∉ st.existing := hnew e (List.mem_cons_self e es')
    have hple : ∀ v, e.value = JValue.str v → pyStrip v ≠ [] →
        isPluralShaped v = false :=
      fun v hv hne => hplural e (List.mem_cons_self e es') v hv hne
    cases hes' : es' with
    | nil =>
      subst hes'
      have hc' : c = pfx ++ renderJEntry e ++ rest := by
        simpa [joinComma] using hc
      obtain ⟨st₂, hstep, hq1, hq2, hq3, hq4, hq5, hq6, hq7, hq8⟩ :=
        extract_one st e c pfx rest hsrc hc' hptr hkey hple hnl
      refine ⟨st₂, ?_, hq1, hq2, ?_, hq4, ?_, ?_, ?_⟩
      · rw [posEntriesGo, posEntriesGo, extractEntries_cons, hstep]
        rfl
      · simpa [joinComma] using hq3
      · show flattenDest st₂.t.destination ++
          (c.take (pfx.length +
            (joinComma ([e].map renderJEntry)).length)).drop st₂.t.ptr = _
        simp only [List.map_cons, List.map_nil, joinComma]
        exact hq5
      · rw [hq6]
      · rw [hq8]
        simp
    | cons e2 es2 =>
      subst hes'
      have hjoin : joinComma ((e :: e2 :: es2).map renderJEntry) =
          renderJEntry e ++ ',' :: joinComma ((e2 :: es2).map renderJEntry) := by
        rw [List.map_cons, joinComma_cons _ _ (by simp)]
      have hc' : c = pfx ++ renderJEntry e ++
          (',' :: joinComma ((e2 :: es2).map renderJEntry) ++ rest) := by
        rw [hc, hjoin]
        simp [List.cons_append, List.append_assoc]
      obtain ⟨st₂, hstep, hq1, hq2, hq3, hq4, hq5, hq6, hq7, hq8⟩ :=
        extract_one st e c pfx
          (',' :: joinComma ((e2 :: es2).map renderJEntry) ++ rest)
          hsrc hc' hptr hkey hple hnl
      have hpfx' : c = (pfx ++ renderJEntry e ++ [',']) ++
          joinComma ((e2 :: es2).map renderJEntry) ++ rest := by
        rw [hc']
        simp [List.cons_append, List.append_assoc]
      have hlen' : (pfx ++ renderJEntry e ++ [',']).length =
          pfx.length + (renderJEntry e).length + 1 := by
        simp only [List.length_append, List.length_cons, List.length_nil]
      obtain ⟨st', hrec, hw1, hw2, hw3, hw4, hw5, hw6, hw7⟩ :=
        ih c (pfx ++ renderJEntry e ++ [',']) rest st₂
          hq1 hpfx'
          (by rw [hlen']; omega)
          (by
            intro e' he'
            rw [hq8, List.mem_append]
            push_neg
            refine ⟨hnew e' (List.mem_cons_of_mem e he'), ?_⟩
            intro hmem
            simp only [List.mem_singleton] at hmem
            have hne : escapeKey e'.key ∈ (e2 :: es2).map
                (fun x => escapeKey x.key) :=
              List.mem_map_of_mem _ he'
            rw [List.map_cons, List.nodup_cons] at hnodup
            exact hnodup.1 (hmem ▸ hne))
          (by rw [List.map_cons, List.nodup_cons] at hnodup; exact hnodup.2)
          (fun e' he' => hplural e' (List.mem_cons_of_mem e he'))
          hq4
      refine ⟨st', ?_, hw1, by rw [hw2, hq2], ?_, hw4, ?_, ?_, ?_⟩
      · rw [posEntriesGo, extractEntries_cons, hstep]
        show extractEntries (posEntriesGo (e2 :: es2)
          (pfx.length + (renderJEntry e).length + 1)) st₂ = Except.ok st'
        rw [← hlen']
        exact hrec
      · rw [hjoin]
        simp only [List.length_append, List.length_cons, List.length_nil]
          at hw3 ⊢
        omega
      · -- flatten equality chaining
        rw [hjoin]
        have hidx : pfx.length + (renderJEntry e ++ ',' ::
            joinComma ((e2 :: es2).map renderJEntry)).length =
            (pfx ++ renderJEntry e ++ [',']).length +
              (joinComma ((e2 :: es2).map renderJEntry)).length := by
          simp
          omega
        rw [hidx, hw5]
        have hsplit2 : ((c.take (pfx ++ renderJEntry e ++ [',']).length)).drop
            st₂.t.ptr =
            (c.take (pfx.length + (renderJEntry e).length)).drop st₂.t.ptr ++
              [','] := by
          rw [slice_split c st₂.t.ptr (pfx.length + (renderJEntry e).length)
            (pfx ++ renderJEntry e ++ [',']).length hq3 (by rw [hlen']; omega)]
          congr 1
          rw [hlen']
          rw [hpfx']
          rw [show (pfx ++ renderJEntry e ++ [',']) ++
              joinComma ((e2 :: es2).map renderJEntry) ++ rest =
            (pfx ++ renderJEntry e) ++ ',' ::
              (joinComma ((e2 :: es2).map renderJEntry) ++ rest) by
              simp [List.cons_append, List.append_assoc]]
          exact slice_one _ _ _ _ (by simp)
        rw [hsplit2]
        have hq5' := congrArg (fun l => l ++ ',' ::
          joinComma ((List.map templateEntry (e2 :: es2)).map renderJEntry)) hq5
        dsimp only at hq5'
        conv_rhs => rw [List.map_cons, List.map_cons,
          joinComma_cons (renderJEntry (templateEntry e)) _ (by simp)]
        simp only [List.append_assoc, List.cons_append] at hq5' ⊢
        exact hq5'
      · rw [hw6, hq6, hq7,
          show (e :: e2 :: es2) = [e] ++ (e2 :: es2) from rfl,
          expectedStringset_append]
        simp [List.append_assoc]
      · rw [hw7, hq8]
        simp

/-- `JsonHandler.parse` over a flat well-formed document: it succeeds,
the template substitutes every extracted value by its placeholder
(`templateDoc`), and the stringset is `expectedStringset`. -/
theorem parseFlat_ok (d : JDoc) (hwf : WFDoc d)
    (hcr : '\r' ∉ renderJDoc d)
    (hnodup : (d.entries.map fun e => escapeKey e.key).Nodup)
    (hplural : ∀ e ∈ d.entries, ∀ v, e.value = JValue.str v →
      pyStrip v ≠ [] → isPluralShaped v = false) :
    parseFlat (renderJDoc d) =
      Except.ok (renderJDoc (templateDoc d), expectedStringset d.entries 0) := by
  have ht0 : Transcriber.init (renderJDoc d) =
      { source := renderJDoc d, destination := [], ptr := 0,
        newlineCount := 0, newlineTypeDOS := false } := init_no_cr _ hcr
  have hc : renderJDoc d = ['{'] ++ joinComma (d.entries.map renderJEntry) ++
      (d.wsEnd ++ ['}']) := by
    rw [renderJDoc]
    simp [List.cons_append, List.append_assoc]
  obtain ⟨st', h1, hq1, hq2, hq3, hq4, hq5, hq6, hq7⟩ :=
    extractEntries_ok d.entries (renderJDoc d) ['{'] (d.wsEnd ++ ['}'])
      { t := { source := renderJDoc d, destination := [], ptr := 0, newlineCount := 0, newlineTypeDOS := false }, existing := [], stringset := [], order := 0 }
      rfl hc (by simp) (by intro e he; simp) hnodup hplural
      (by simp [nlOK])
  rw [parseFlat]
  rw [ht0]
  dsimp only
  rw [reparse_complete d hwf]
  dsimp only
  rw [show posEntries d = posEntriesGo d.entries 1 from rfl]
  rw [show (1 : Nat) = (['{'] : List Char).length from rfl]
  rw [h1]
  have hdos : st'.t.newlineTypeDOS = false := hq2
  have hsrc' : st'.t.source = renderJDoc d := hq1
  show Except.ok ((st'.t.copyUntil (renderJDoc d).length).getDestination,
      st'.stringset) =
    Except.ok (renderJDoc (templateDoc d), expectedStringset d.entries 0)
  refine congrArg Except.ok (Prod.ext ?_ ?_)
  · -- the rendered template
    show (st'.t.copyUntil (renderJDoc d).length).getDestination =
      renderJDoc (templateDoc d)
    rw [getDestination_unix _ (by
      show (st'.t.copyUntil (renderJDoc d).length).newlineTypeDOS = false
      exact hdos)]
    show flattenDest (st'.t.destination ++
      [Chunk.text (st'.t.sliceUntil (renderJDoc d).length)]) = _
    rw [flattenDest_append, flattenDest_text, Transcriber.sliceUntil, hsrc']
    have hXle : (['{'] : List Char).length +
        (joinComma (d.entries.map renderJEntry)).length ≤
        (renderJDoc d).length := by
      conv_rhs => rw [hc]
      simp
      omega
    rw [slice_split (renderJDoc d) st'.t.ptr
      ((['{'] : List Char).length +
        (joinComma (d.entries.map renderJEntry)).length)
      (renderJDoc d).length hq3 hXle]
    rw [← List.append_assoc]
    rw [hq5]
    have hdrop : ((renderJDoc d).take (renderJDoc d).length).drop
        ((['{'] : List Char).length +
          (joinComma (d.entries.map renderJEntry)).length) =
        d.wsEnd ++ ['}'] := by
      rw [List.take_length]
      conv_lhs => rw [hc]
      rw [show (['{'] : List Char) ++ joinComma (d.entries.map renderJEntry) ++
          (d.wsEnd ++ ['}']) =
        ((['{'] : List Char) ++ joinComma (d.entries.map renderJEntry)) ++
          (d.wsEnd ++ ['}']) by simp [List.append_assoc]]
      exact List.drop_left' (by simp; omega)
    rw [hdrop]
    have htake1 : ((renderJDoc d).take (['{'] : List Char).length).drop 0 =
        ['{'] := by
      rw [List.drop_zero]
      conv_lhs => rw [hc]
      rw [show (['{'] : List Char) ++ joinComma (d.entries.map renderJEntry) ++
          (d.wsEnd ++ ['}']) =
        (['{'] : List Char) ++ (joinComma (d.entries.map renderJEntry) ++
          (d.wsEnd ++ ['}'])) by simp [List.append_assoc]]
      exact List.take_left' rfl
    show flattenDest [] ++ ((renderJDoc d).take
        (['{'] : List Char).length).drop 0 ++
        joinComma ((d.entries.map templateEntry).map renderJEntry) ++
        (d.wsEnd ++ ['}']) = renderJDoc (templateDoc d)
    rw [htake1, renderJDoc]
    show ['{'] ++ joinComma ((d.entries.map templateEntry).map renderJEntry) ++
      (d.wsEnd ++ ['}']) =
      '{' :: joinComma ((templateDoc d).entries.map renderJEntry) ++
        (templateDoc d).wsEnd ++ ['}']
    rw [show (templateDoc d).entries = d.entries.map templateEntry from rfl,
      show (templateDoc d).wsEnd = d.wsEnd from rfl]
    simp [List.cons_append, List.append_assoc]
  · show st'.stringset = expectedStringset d.entries 0
    rw [hq6]
    simp

/-- Every stringset element's key is the escaped key of an extracted
entry. -/
theorem expectedStringset_key_mem (es : List JEntry) :
    ∀ (ord : Nat) (s : OpenString), s ∈ expectedStringset es ord →
      ∃ e ∈ es, shouldExtract e = true ∧ s.key = escapeKey e.key := by
  induction es with
  | nil => intro ord s hs; simp [expectedStringset] at hs
  | cons e rest ih =>
    intro ord s hs
    rw [expectedStringset] at hs
    by_cases hx : shouldExtract e = true
    · rw [if_pos hx] at hs
      rcases List.mem_cons.mp hs with rfl | hs'
      · exact ⟨e, List.mem_cons_self e rest, hx, rfl⟩
      · obtain ⟨e', he', hx', hk⟩ := ih (ord + 1) s hs'
        exact ⟨e', List.mem_cons_of_mem e he', hx', hk⟩
    · rw [if_neg hx] at hs
      obtain ⟨e', he', hx', hk⟩ := ih ord s hs
      exact ⟨e', List.mem_cons_of_mem e he', hx', hk⟩

/-- C9: a unit whose string value is empty or whitespace-only is not
extracted: parse succeeds, no stringset element carries that unit's
(escaped) key, and the unit is untouched in the template
(`templateEntry e = e`, so its value appears verbatim in the rendered
template). -/
theorem C9_empty_values_not_extracted (d : JDoc) (e : JEntry) (v : List Char)
    (hwf : WFDoc d) (hcr : '\r' ∉ renderJDoc d)
    (hnodup : (d.entries.map fun e => escapeKey e.key).Nodup)
    (hplural : ∀ e' ∈ d.entries, ∀ v', e'.value = JValue.str v' →
      pyStrip v' ≠ [] → isPluralShaped v' = false)
    (hmem : e ∈ d.entries) (hv : e.value = JValue.str v)
    (hempty : pyStrip v = []) :
    parseFlat (renderJDoc d) =
      Except.ok (renderJDoc (templateDoc d), expectedStringset d.entries 0) ∧
    (∀ s ∈ expectedStringset d.entries 0, s.key ≠ escapeKey e.key) ∧
    templateEntry e = e := by
  have hxe : shouldExtract e = false := by
    rw [shouldExtract, hv]
    show (!(pyStrip v).isEmpty) = false
    rw [hempty]
    rfl
  refine ⟨parseFlat_ok d hwf hcr hnodup hplural, ?_, ?_⟩
  · intro s hs hkeyEq
    obtain ⟨e', he', hx', hk⟩ := expectedStringset_key_mem d.entries 0 s hs
    have heq : e' = e := by
      have hinj := List.inj_on_of_nodup_map hnodup
      exact hinj he' hmem (by rw [← hk, hkeyEq])
    rw [heq, hxe] at hx'
    exact Bool.false_ne_true hx'
  · rw [templateEntry, hxe]
    simp

theorem C9_empty_values_not_extracted_witness :
    parseFlat (renderJDoc sampleDoc9) =
      Except.ok (renderJDoc (templateDoc sampleDoc9),
        expectedStringset sampleDoc9.entries 0) ∧
    (∀ s ∈ expectedStringset sampleDoc9.entries 0,
      s.key ≠ escapeKey sampleEntryWs.key) ∧
    templateEntry sampleEntryWs = sampleEntryWs :=
  C9_empty_values_not_extracted sampleDoc9 sampleEntryWs [' ']
    (by decide) (by decide) (by decide)
    (by
      intro e' he' v' hv' hne
      rcases List.mem_cons.mp he' with rfl | he2
      · injection hv' with hh
        subst hh
        decide
      · rcases List.mem_cons.mp he2 with rfl | he3
        · injection hv' with hh
          subst hh
          decide
        · exact absurd he3 (List.not_mem_nil e'))
    (by decide) rfl (by decide)

theorem joinComma_append (l1 l2 : List (List Char)) (h1 : l1 ≠ [])
    (h2 : l2 ≠ []) :
    joinComma (l1 ++ l2) = joinComma l1 ++ ',' :: joinComma l2 := by
  induction l1 with
  | nil => exact absurd rfl h1
  | cons x xs ih =>
    cases hxs : xs with
    | nil =>
      rw [List.cons_append, List.nil_append,
        joinComma_cons x l2 h2]
      rfl
    | cons y ys =>
      subst hxs
      rw [List.cons_append,
        joinComma_cons x ((y :: ys) ++ l2) (by simp),
        joinComma_cons x (y :: ys) (by simp),
        ih (by simp)]
      simp [List.cons_append, List.append_assoc]

/-- For a nonempty entry list, the rendered length of the comma-joined
entries is one less than `entriesSpan`. -/
theorem entriesSpan_eq (es : List JEntry) (h : es ≠ []) :
    (joinComma (es.map renderJEntry)).length + 1 = entriesSpan es := by
  induction es with
  | nil => exact absurd rfl h
  | cons e rest ih =>
    cases hrest : rest with
    | nil =>
      rw [List.map_cons, List.map_nil, joinComma, entriesSpan, entriesSpan]
    | cons e2 es2 =>
      subst hrest
      rw [List.map_cons, joinComma_cons _ _ (by simp), entriesSpan]
      rw [← ih (by simp)]
      simp
      omega

theorem posEntriesGo_append (l1 l2 : List JEntry) :
    ∀ o, posEntriesGo (l1 ++ l2) o =
      posEntriesGo l1 o ++ posEntriesGo l2 (o + entriesSpan l1) := by
  induction l1 with
  | nil => intro o; simp [posEntriesGo, entriesSpan]
  | cons e rest ih =>
    intro o
    rw [List.cons_append, posEntriesGo, posEntriesGo, ih, entriesSpan]
    rw [show o + (renderJEntry e).length + 1 + entriesSpan rest =
      o + ((renderJEntry e).length + 1 + entriesSpan rest) by omega]
    simp

theorem extractEntries_append (p1 p2 : List PosEntry) :
    ∀ st, extractEntries (p1 ++ p2) st =
      match extractEntries p1 st with
      | Except.error er => Except.error er
      | Except.ok st2 => extractEntries p2 st2 := by
  induction p1 with
  | nil => intro st; rfl
  | cons pe rest ih =>
    intro st
    rw [List.cons_append, extractEntries_cons, extractEntries_cons]
    cases extractEntry st pe with
    | error er => rfl
    | ok st2 => exact ih st2

/-- C6: when an entry's escaped key duplicates an earlier entry's escaped
key, parse raises a `duplicateKey` error carrying the escaped key and the
1-based line number of the duplicate occurrence; it never returns a
stringset that silently dropped one of the two units. -/
theorem C6_duplicate_key_error (d : JDoc) (pre post : List JEntry)
    (edup : JEntry)
    (hwf : WFDoc d) (hcr : '\r' ∉ renderJDoc d)
    (hsplit : d.entries = pre ++ edup :: post)
    (hdup : escapeKey edup.key ∈ pre.map fun e => escapeKey e.key)
    (hnodup : (pre.map fun e => escapeKey e.key).Nodup)
    (hplural : ∀ e ∈ pre, ∀ v, e.value = JValue.str v → pyStrip v ≠ [] →
      isPluralShaped v = false) :
    parseFlat (renderJDoc d) = Except.error (PErr.duplicateKey
      (escapeKey edup.key)
      (((renderJDoc d).take
        (1 + entriesSpan pre + edup.wsBefore.length + 1)).count '\n' + 1)) := by
  have hpre : pre ≠ [] := by
    intro hp
    rw [hp] at hdup
    simp at hdup
  have ht0 : Transcriber.init (renderJDoc d) =
      { source := renderJDoc d, destination := [], ptr := 0,
        newlineCount := 0, newlineTypeDOS := false } := init_no_cr _ hcr
  have hc : renderJDoc d = ['{'] ++ joinComma (pre.map renderJEntry) ++
      (',' :: joinComma ((edup :: post).map renderJEntry) ++
        (d.wsEnd ++ ['}'])) := by
    rw [renderJDoc, hsplit, List.map_append,
      joinComma_append _ _ (by simp [hpre]) (by simp)]
    simp [List.cons_append, List.append_assoc]
  obtain ⟨st', h1, hq1, hq2, hq3, hq4, hq5, hq6, hq7⟩ :=
    extractEntries_ok pre (renderJDoc d) ['{']
      (',' :: joinComma ((edup :: post).map renderJEntry) ++ (d.wsEnd ++ ['}']))
      { t := { source := renderJDoc d, destination := [], ptr := 0, newlineCount := 0, newlineTypeDOS := false }, existing := [], stringset := [], order := 0 }
      rfl hc (by simp) (by intro e he; simp) hnodup hplural
      (by simp [nlOK])
  rw [parseFlat]
  rw [ht0]
  dsimp only
  rw [reparse_complete d hwf]
  dsimp only
  rw [show posEntries d = posEntriesGo d.entries 1 from rfl, hsplit,
    posEntriesGo_append]
  rw [extractEntries_append]
  rw [show (1 : Nat) = (['{'] : List Char).length from rfl]
  rw [h1]
  dsimp only
  rw [posEntriesGo, extractEntries_cons]
  have hdup' : escapeKey edup.key ∈ st'.existing := by
    rw [hq7]
    simpa using hdup
  rw [extractEntry_dup st'
    ⟨edup.key, (['{'] : List Char).length + entriesSpan pre +
      edup.wsBefore.length + 1, edup.value,
      entryValuePos edup ((['{'] : List Char).length + entriesSpan pre)⟩
    hdup']
  have hkeyPos : (['{'] : List Char).length + entriesSpan pre +
      edup.wsBefore.length + 1 =
      1 + entriesSpan pre + edup.wsBefore.length + 1 := by
    simp
  have hptrle : st'.t.ptr ≤ 1 + entriesSpan pre + edup.wsBefore.length + 1 := by
    have := hq3
    have hsp := entriesSpan_eq pre hpre
    simp only [List.length_cons, List.length_nil] at this
    omega
  have hnl2 := nlOK_copyUntil st'.t
    (1 + entriesSpan pre + edup.wsBefore.length + 1) hq4 hptrle
  rw [hkeyPos]
  have hline : (st'.t.copyUntil
      (1 + entriesSpan pre + edup.wsBefore.length + 1)).lineNumber =
      ((renderJDoc d).take
        (1 + entriesSpan pre + edup.wsBefore.length + 1)).count '\n' + 1 := by
    rw [Transcriber.lineNumber]
    rw [nlOK] at hnl2
    rw [show (st'.t.copyUntil (1 + entriesSpan pre + edup.wsBefore.length +
        1)).source = renderJDoc d from hq1]
      at hnl2
    rw [show (st'.t.copyUntil (1 + entriesSpan pre + edup.wsBefore.length +
        1)).ptr = 1 + entriesSpan pre + edup.wsBefore.length + 1 from rfl]
      at hnl2
    rw [hnl2]
  rw [hline]
  rfl

/-- Witness for C6 at a concrete two-entry document with key `a`
duplicated on line 2. -/
theorem C6_duplicate_key_error_witness :
    parseFlat (renderJDoc sampleDoc6) = Except.error (PErr.duplicateKey
      (escapeKey sampleEntry6b.key)
      (((renderJDoc sampleDoc6).take
        (1 + entriesSpan [sampleEntry6a] + sampleEntry6b.wsBefore.length +
          1)).count '\n' + 1)) :=
  C6_duplicate_key_error sampleDoc6 [sampleEntry6a] [] sampleEntry6b
    (by decide) (by decide) rfl (by decide) (by decide)
    (by
      intro e he v hv hne
      rcases List.mem_cons.mp he with rfl | he2
      · injection hv with hh
        subst hh
        decide
      · exact absurd he2 (List.not_mem_nil e))

theorem insertFromDict_nil (ss : List OpenString) (isReal : Bool)
    (st : CompState) : insertFromDict ss isReal [] st = (st, false) := rfl

theorem insertFromDict_cons (ss : List OpenString) (isReal : Bool)
    (pe : PosEntry) (rest : List PosEntry) (st : CompState) :
    insertFromDict ss isReal (pe :: rest) st =
      ((insertFromDict ss isReal rest (insertItem ss isReal
          { st with t := (st.t.copyUntil (pe.keyPos - 1)).markSectionStart }
          pe).1).1,
        (insertItem ss isReal
          { st with t := (st.t.copyUntil (pe.keyPos - 1)).markSectionStart }
          pe).2 ||
        (insertFromDict ss isReal rest (insertItem ss isReal
          { st with t := (st.t.copyUntil (pe.keyPos - 1)).markSectionStart }
          pe).1).2) := rfl

theorem insertItem_match (ss : List OpenString) (isReal : Bool)
    (st : CompState) (pe : PosEntry) (v : List Char) (s : OpenString)
    (hv : pe.value = JValue.str v)
    (hget : ss.get? st.ssIdx = some s) (hspl : s.pluralized = false)
    (hmatch : v = osTemplateReplacement s) :
    insertItem ss isReal st pe =
      (insertRegularString st v pe.valuePos s, true) := by
  unfold insertItem
  rw [hv]
  dsimp only
  rw [hget]
  dsimp only
  rw [if_neg (by rw [hspl]; rintro ⟨h1, h2⟩; exact Bool.false_ne_true h1),
    if_pos hmatch]

theorem insertItem_mismatch (ss : List OpenString) (isReal : Bool)
    (st : CompState) (pe : PosEntry) (v : List Char)
    (hv : pe.value = JValue.str v)
    (hmm : ∀ s, ss.get? st.ssIdx = some s →
      (¬(s.pluralized = true ∧
        containsInfix (osTemplateReplacement s) v = true) ∧
       v ≠ osTemplateReplacement s)) :
    insertItem ss isReal st pe =
      ({ st with t := copyUntilAndRemoveSection st.t (pe.valuePos + v.length + 1) }, false) := by
  unfold insertItem
  rw [hv]
  dsimp only
  cases hget : ss.get? st.ssIdx with
  | none => rfl
  | some s =>
    dsimp only
    obtain ⟨h1, h2⟩ := hmm s hget
    rw [if_neg h1, if_neg h2]

theorem insertItem_other (ss : List OpenString) (isReal : Bool)
    (st : CompState) (pe : PosEntry) (tok : List Char)
    (hv : pe.value = JValue.other tok) :
    insertItem ss isReal st pe = (st, true) := by
  unfold insertItem
  rw [hv]

/-- `remove_section 0` right after a `mark_section_start` / content /
`mark_section_end` triple tombstones exactly that triple. -/
theorem removeSection_last (t : Transcriber) (D0 : List Chunk) (A2 : List Char)
    (hd : t.destination = D0 ++
      [Chunk.sectionStart, Chunk.text A2, Chunk.sectionEnd]) :
    t.removeSection 0 =
      { t with destination := D0 ++ List.replicate 3 Chunk.tomb } := by
  have hfind : findLastSectionStart t.destination 0 = some D0.length := by
    rw [findLastSectionStart, hd, List.reverse_append]
    rw [show ([Chunk.sectionStart, Chunk.text A2,
        Chunk.sectionEnd] : List Chunk).reverse =
      [Chunk.sectionEnd, Chunk.text A2, Chunk.sectionStart] from rfl]
    rw [List.cons_append, findLastSectionStartGo_cons,
      if_neg (by intro h; exact absurd h (by simp))]
    rw [List.cons_append, findLastSectionStartGo_cons,
      if_neg (by intro h; exact absurd h (by simp))]
    rw [List.cons_append, findLastSectionStartGo_cons,
      if_pos rfl, if_pos rfl]
    rw [show (D0 ++ [Chunk.sectionStart, Chunk.text A2,
        Chunk.sectionEnd]).length = D0.length + 3 by simp]
    rw [show D0.length + 3 - 3 = D0.length by omega]
  have hidx : indexOfSectionEndFrom t.destination D0.length =
      some (D0.length + 2) := by
    rw [indexOfSectionEndFrom, hd, List.drop_left]
    rw [show ([Chunk.sectionStart, Chunk.text A2,
        Chunk.sectionEnd] : List Chunk).findIdx? (· = Chunk.sectionEnd) =
      some 2 by simp [List.findIdx?_cons]]
  rw [Transcriber.removeSection, hfind]
  dsimp only
  rw [hidx]
  dsimp only
  rw [show D0.length + 2 = D0.length +
    ([Chunk.sectionStart, Chunk.text A2,
      Chunk.sectionEnd] : List Chunk).length - 1 by simp]
  have := tombRange_append D0
    [Chunk.sectionStart, Chunk.text A2, Chunk.sectionEnd] [] (by simp)
  rw [List.append_nil] at this
  rw [hd, this]
  rw [show ([Chunk.sectionStart, Chunk.text A2,
    Chunk.sectionEnd] : List Chunk).length = 3 from rfl]
  rw [List.append_nil]

/-- The transcriber effect of copy-to-key / mark / copy-to-value / add /
skip performed by `_insert_from_dict` plus `_insert_regular_string` on a
matching string unit. -/
theorem step_insert (t : Transcriber) (pfx wsB key wsA v tail repl : List Char)
    (hsrc : t.source = pfx ++ wsB ++ '"' :: key ++ '"' :: ':' :: wsA ++
      '"' :: v ++ '"' :: tail)
    (hptr : t.ptr ≤ pfx.length) :
    (((((t.copyUntil (pfx.length + wsB.length)).markSectionStart).copyUntil
        (pfx.length + wsB.length + key.length + wsA.length + 4)).add
        repl).skip v.length).source = t.source ∧
    (((((t.copyUntil (pfx.length + wsB.length)).markSectionStart).copyUntil
        (pfx.length + wsB.length + key.length + wsA.length + 4)).add
        repl).skip v.length).newlineTypeDOS = t.newlineTypeDOS ∧
    (((((t.copyUntil (pfx.length + wsB.length)).markSectionStart).copyUntil
        (pfx.length + wsB.length + key.length + wsA.length + 4)).add
        repl).skip v.length).ptr =
      pfx.length + wsB.length + key.length + wsA.length + v.length + 4 ∧
    flattenDest ((((((t.copyUntil (pfx.length +
        wsB.length)).markSectionStart).copyUntil
        (pfx.length + wsB.length + key.length + wsA.length + 4)).add
        repl).skip v.length).destination) =
      flattenDest t.destination ++ (t.source.take pfx.length).drop t.ptr ++
        (wsB ++ '"' :: key ++ '"' :: ':' :: wsA ++ ['"']) ++ repl := by
  refine ⟨rfl, rfl, ?_, ?_⟩
  · show pfx.length + wsB.length + key.length + wsA.length + 4 + v.length =
      pfx.length + wsB.length + key.length + wsA.length + v.length + 4
    omega
  · show flattenDest (t.destination ++
      [Chunk.text (t.sliceUntil (pfx.length + wsB.length))] ++
      [Chunk.sectionStart] ++
      [Chunk.text (((t.copyUntil (pfx.length +
        wsB.length)).markSectionStart).sliceUntil
        (pfx.length + wsB.length + key.length + wsA.length + 4))] ++
      [Chunk.text repl]) = _
    rw [flattenDest_append, flattenDest_append, flattenDest_append,
      flattenDest_append, flattenDest_text, flattenDest_text,
      flattenDest_text, flattenDest_mark1]
    rw [Transcriber.sliceUntil, Transcriber.sliceUntil]
    show flattenDest t.destination ++
      (t.source.take (pfx.length + wsB.length)).drop t.ptr ++ [] ++
      ((t.source.take (pfx.length + wsB.length + key.length + wsA.length +
        4)).drop (pfx.length + wsB.length)) ++ repl = _
    have hjoin2 : (t.source.take (pfx.length + wsB.length)).drop t.ptr ++
        ((t.source.take (pfx.length + wsB.length + key.length + wsA.length +
          4)).drop (pfx.length + wsB.length)) =
        (t.source.take (pfx.length + wsB.length + key.length + wsA.length +
          4)).drop t.ptr := by
      rw [← slice_split t.source t.ptr (pfx.length + wsB.length)
        (pfx.length + wsB.length + key.length + wsA.length + 4)
        (by omega) (by omega)]
    rw [List.append_nil, List.append_assoc (flattenDest t.destination),
      hjoin2]
    have hsp := slice_split t.source t.ptr pfx.length
      (pfx.length + wsB.length + key.length + wsA.length + 4) hptr (by omega)
    rw [show pfx.length + wsB.length + key.length + wsA.length + 4 =
      pfx.length + (wsB.length + key.length + wsA.length + 4) by omega] at hsp ⊢
    rw [hsp]
    have hseg : ((t.source.take (pfx.length + (wsB.length + key.length +
        wsA.length + 4))).drop pfx.length) =
        wsB ++ '"' :: key ++ '"' :: ':' :: wsA ++ ['"'] := by
      rw [hsrc]
      rw [show pfx ++ wsB ++ '"' :: key ++ '"' :: ':' :: wsA ++
          '"' :: v ++ '"' :: tail =
        pfx ++ (wsB ++ '"' :: key ++ '"' :: ':' :: wsA ++ ['"']) ++
          (v ++ '"' :: tail) by simp]
      rw [show pfx.length + (wsB.length + key.length + wsA.length + 4) =
        pfx.length + (wsB ++ '"' :: key ++ '"' :: ':' :: wsA ++
          ['"']).length by simp; omega]
      exact slice_seg _ _ _ _ _ rfl rfl
    rw [hseg]
    simp [List.append_assoc]

theorem matchedEntries_cons_str (e : JEntry) (es : List JEntry)
    (ss : List OpenString) (v : List Char) (hv : e.value = JValue.str v) :
    MatchedEntries (e :: es) ss ↔ ∃ s ss', ss = s :: ss' ∧
      s.pluralized = false ∧ v = osTemplateReplacement s ∧
      MatchedEntries es ss' := by
  obtain ⟨wsB, key, wsA, val⟩ := e
  dsimp only at hv
  subst hv
  exact Iff.rfl

theorem matchedEntries_cons_other (e : JEntry) (es : List JEntry)
    (ss : List OpenString) (tok : List Char)
    (hv : e.value = JValue.other tok) :
    MatchedEntries (e :: es) ss ↔ MatchedEntries es ss := by
  obtain ⟨wsB, key, wsA, val⟩ := e
  dsimp only at hv
  subst hv
  exact Iff.rfl

theorem substMatched_cons_str (e : JEntry) (es : List JEntry) (s : OpenString)
    (ss' : List OpenString) (v : List Char) (hv : e.value = JValue.str v) :
    substMatched (e :: es) (s :: ss') =
      { e with value := JValue.str (osString s) } :: substMatched es ss' := by
  obtain ⟨wsB, key, wsA, val⟩ := e
  dsimp only at hv
  subst hv
  rfl

theorem substMatched_cons_other (e : JEntry) (es : List JEntry)
    (ss : List OpenString) (tok : List Char)
    (hv : e.value = JValue.other tok) :
    substMatched (e :: es) ss = e :: substMatched es ss := by
  obtain ⟨wsB, key, wsA, val⟩ := e
  dsimp only at hv
  subst hv
  rfl

theorem drop_cons_get (ss : List OpenString) (k : Nat) (s : OpenString)
    (ss' : List OpenString) (h : ss.drop k = s :: ss') :
    ss.get? k = some s ∧ ss.drop (k + 1) = ss' := by
  constructor
  · rw [List.get?_eq_getElem?]
    have := List.getElem?_drop ss k 0
    rw [h] at this
    simpa using this.symm
  · have h2 := congrArg (List.drop 1) h
    rw [List.drop_drop] at h2
    rw [show (s :: ss').drop 1 = ss' from rfl] at h2
    exact h2

/-- One `_insert_from_dict` step on a matching regular string unit. -/
theorem insert_one_match (st : CompState) (e : JEntry) (v : List Char)
    (ss : List OpenString) (isReal : Bool) (s : OpenString)
    (c pfx tail2 : List Char)
    (he : e.value = JValue.str v)
    (hget : ss.get? st.ssIdx = some s) (hspl : s.pluralized = false)
    (hmatch : v = osTemplateReplacement s)
    (hsrc : st.t.source = c)
    (hc : c = pfx ++ renderJEntry e ++ tail2)
    (hptr : st.t.ptr ≤ pfx.length) :
    ∃ st₂, insertItem ss isReal { st with t := (st.t.copyUntil
        ((pfx.length + e.wsBefore.length + 1) - 1)).markSectionStart }
        ⟨e.key, pfx.length + e.wsBefore.length + 1, e.value,
          entryValuePos e pfx.length⟩ = (st₂, true) ∧
      st₂.t.source = c ∧ st₂.t.newlineTypeDOS = st.t.newlineTypeDOS ∧
      st₂.t.ptr ≤ pfx.length + (renderJEntry e).length ∧
      flattenDest st₂.t.destination ++
        (c.take (pfx.length + (renderJEntry e).length)).drop st₂.t.ptr =
        flattenDest st.t.destination ++ (c.take pfx.length).drop st.t.ptr ++
          renderJEntry { e with value := JValue.str (osString s) } ∧
      st₂.ssIdx = st.ssIdx + 1 := by
  have hkp : (pfx.length + e.wsBefore.length + 1) - 1 =
      pfx.length + e.wsBefore.length := by omega
  have hvp : entryValuePos e pfx.length = pfx.length + e.wsBefore.length +
      e.key.length + e.wsAfter.length + 4 := by
    rw [entryValuePos, he]
  have hrender : renderJEntry e = e.wsBefore ++ '"' :: e.key ++ '"' ::
      ':' :: e.wsAfter ++ '"' :: v ++ ['"'] := by
    rw [renderJEntry, he, renderJValue]
    simp [List.cons_append, List.append_assoc]
  have hrL : (renderJEntry e).length = e.wsBefore.length + e.key.length +
      e.wsAfter.length + v.length + 5 := by
    rw [hrender]
    simp
    omega
  have hsrc2 : st.t.source = pfx ++ e.wsBefore ++ '"' :: e.key ++ '"' ::
      ':' :: e.wsAfter ++ '"' :: v ++ '"' :: tail2 := by
    rw [hsrc, hc, hrender]
    simp [List.cons_append, List.append_assoc]
  obtain ⟨hs1, hs2, hs3, hs4⟩ := step_insert st.t pfx e.wsBefore e.key
    e.wsAfter v tail2 (osString s) hsrc2 hptr
  have hstep : insertItem ss isReal { st with t := (st.t.copyUntil
      ((pfx.length + e.wsBefore.length + 1) - 1)).markSectionStart }
      ⟨e.key, pfx.length + e.wsBefore.length + 1, e.value,
        entryValuePos e pfx.length⟩ =
      (insertRegularString { st with t := (st.t.copyUntil
        ((pfx.length + e.wsBefore.length + 1) - 1)).markSectionStart }
        v (entryValuePos e pfx.length) s, true) :=
    insertItem_match ss isReal _ _ v s he hget hspl hmatch
  refine ⟨_, hstep, ?_, ?_, ?_, ?_, rfl⟩
  · show ((((((st.t.copyUntil ((pfx.length + e.wsBefore.length + 1) -
      1)).markSectionStart).copyUntil (entryValuePos e pfx.length)).add
      (osString s)).skip v.length)).source = c
    rw [hkp, hvp, hs1, hsrc]
  · show ((((((st.t.copyUntil ((pfx.length + e.wsBefore.length + 1) -
      1)).markSectionStart).copyUntil (entryValuePos e pfx.length)).add
      (osString s)).skip v.length)).newlineTypeDOS = st.t.newlineTypeDOS
    rw [hkp, hvp, hs2]
  · show ((((((st.t.copyUntil ((pfx.length + e.wsBefore.length + 1) -
      1)).markSectionStart).copyUntil (entryValuePos e pfx.length)).add
      (osString s)).skip v.length)).ptr ≤
      pfx.length + (renderJEntry e).length
    rw [hkp, hvp, hs3, hrL]
    omega
  · show flattenDest ((((((st.t.copyUntil ((pfx.length + e.wsBefore.length +
      1) - 1)).markSectionStart).copyUntil (entryValuePos e pfx.length)).add
      (osString s)).skip v.length)).destination ++
      (c.take (pfx.length + (renderJEntry e).length)).drop
        ((((((st.t.copyUntil ((pfx.length + e.wsBefore.length + 1) -
          1)).markSectionStart).copyUntil (entryValuePos e pfx.length)).add
          (osString s)).skip v.length)).ptr =
      flattenDest st.t.destination ++ (c.take pfx.length).drop st.t.ptr ++
        renderJEntry { e with value := JValue.str (osString s) }
    rw [hkp, hvp, hs3, hs4, hsrc]
    have hpend : (c.take (pfx.length + (renderJEntry e).length)).drop
        (pfx.length + e.wsBefore.length + e.key.length + e.wsAfter.length +
          v.length + 4) = ['"'] := by
      rw [hc, hrender]
      rw [show pfx ++ (e.wsBefore ++ '"' :: e.key ++ '"' :: ':' ::
          e.wsAfter ++ '"' :: v ++ ['"']) ++ tail2 =
        (pfx ++ e.wsBefore ++ '"' :: e.key ++ '"' :: ':' :: e.wsAfter ++
          '"' :: v) ++ '"' :: tail2 by
          simp [List.cons_append, List.append_assoc]]
      rw [show pfx.length + (e.wsBefore ++ '"' :: e.key ++ '"' :: ':' ::
          e.wsAfter ++ '"' :: v ++ ['"']).length =
        (pfx ++ e.wsBefore ++ '"' :: e.key ++ '"' :: ':' :: e.wsAfter ++
          '"' :: v).length + 1 by simp; omega]
      rw [show pfx.length + e.wsBefore.length + e.key.length +
          e.wsAfter.length + v.length + 4 =
        (pfx ++ e.wsBefore ++ '"' :: e.key ++ '"' :: ':' :: e.wsAfter ++
          '"' :: v).length by simp; omega]
      exact slice_one _ _ _ _ rfl
    rw [hpend]
    rw [show renderJEntry { e with value := JValue.str (osString s) } =
      e.wsBefore ++ '"' :: e.key ++ '"' :: ':' :: e.wsAfter ++
        '"' :: osString s ++ ['"'] from by
      rw [renderJEntry, renderJValue]
      simp [List.cons_append, List.append_assoc]]
    simp [List.cons_append, List.append_assoc]

/-- One `_insert_from_dict` step on a non-string scalar unit: passed
through untouched. -/
theorem insert_one_other (st : CompState) (e : JEntry) (tok : List Char)
    (ss : List OpenString) (isReal : Bool)
    (c pfx tail2 : List Char)
    (he : e.value = JValue.other tok)
    (hsrc : st.t.source = c)
    (hc : c = pfx ++ renderJEntry e ++ tail2)
    (hptr : st.t.ptr ≤ pfx.length) :
    ∃ st₂, insertItem ss isReal { st with t := (st.t.copyUntil
        ((pfx.length + e.wsBefore.length + 1) - 1)).markSectionStart }
        ⟨e.key, pfx.length + e.wsBefore.length + 1, e.value,
          entryValuePos e pfx.length⟩ = (st₂, true) ∧
      st₂.t.source = c ∧ st₂.t.newlineTypeDOS = st.t.newlineTypeDOS ∧
      st₂.t.ptr ≤ pfx.length + (renderJEntry e).length ∧
      flattenDest st₂.t.destination ++
        (c.take (pfx.length + (renderJEntry e).length)).drop st₂.t.ptr =
        flattenDest st.t.destination ++ (c.take pfx.length).drop st.t.ptr ++
          renderJEntry e ∧
      st₂.ssIdx = st.ssIdx := by
  have hkp : (pfx.length + e.wsBefore.length + 1) - 1 =
      pfx.length + e.wsBefore.length := by omega
  have hrender : renderJEntry e = e.wsBefore ++
      ('"' :: e.key ++ '"' :: ':' :: e.wsAfter ++ tok) := by
    rw [renderJEntry, he, renderJValue]
    simp [List.cons_append, List.append_assoc]
  refine ⟨_, insertItem_other ss isReal _ _ tok he, hsrc, rfl, ?_, ?_, rfl⟩
  · show ((st.t.copyUntil ((pfx.length + e.wsBefore.length + 1) -
      1)).markSectionStart).ptr ≤ pfx.length + (renderJEntry e).length
    show (pfx.length + e.wsBefore.length + 1) - 1 ≤
      pfx.length + (renderJEntry e).length
    rw [hrender]
    simp only [List.length_append, List.length_cons]
    omega
  · show flattenDest (((st.t.copyUntil ((pfx.length + e.wsBefore.length + 1) -
      1)).markSectionStart).destination) ++
      (c.take (pfx.length + (renderJEntry e).length)).drop
        ((pfx.length + e.wsBefore.length + 1) - 1) =
      flattenDest st.t.destination ++ (c.take pfx.length).drop st.t.ptr ++
        renderJEntry e
    rw [hkp]
    show flattenDest (st.t.destination ++
      [Chunk.text (st.t.sliceUntil (pfx.length + e.wsBefore.length))] ++
      [Chunk.sectionStart]) ++
      (c.take (pfx.length + (renderJEntry e).length)).drop
        (pfx.length + e.wsBefore.length) = _
    rw [flattenDest_append, flattenDest_append, flattenDest_text,
      flattenDest_mark1, List.append_nil, Transcriber.sliceUntil, hsrc]
    have hs1 : (c.take (pfx.length + e.wsBefore.length)).drop st.t.ptr =
        (c.take pfx.length).drop st.t.ptr ++ e.wsBefore := by
      rw [slice_split c st.t.ptr pfx.length (pfx.length + e.wsBefore.length)
        hptr (by omega)]
      congr 1
      rw [hc, hrender]
      rw [show pfx ++ (e.wsBefore ++ ('"' :: e.key ++ '"' :: ':' ::
          e.wsAfter ++ tok)) ++ tail2 =
        pfx ++ e.wsBefore ++ (('"' :: e.key ++ '"' :: ':' :: e.wsAfter ++
          tok) ++ tail2) by simp [List.cons_append, List.append_assoc]]
      rw [show pfx ++ e.wsBefore ++ (('"' :: e.key ++ '"' :: ':' ::
          e.wsAfter ++ tok) ++ tail2) =
        pfx ++ e.wsBefore ++ (('"' :: e.key ++ '"' :: ':' :: e.wsAfter ++
          tok) ++ tail2) from rfl]
      exact slice_seg pfx e.wsBefore (('"' :: e.key ++ '"' :: ':' ::
        e.wsAfter ++ tok) ++ tail2) pfx.length e.wsBefore.length rfl rfl
    have hs2 : (c.take (pfx.length + (renderJEntry e).length)).drop
        (pfx.length + e.wsBefore.length) =
        '"' :: e.key ++ '"' :: ':' :: e.wsAfter ++ tok := by
      rw [hc, hrender]
      rw [show pfx ++ (e.wsBefore ++ ('"' :: e.key ++ '"' :: ':' ::
          e.wsAfter ++ tok)) ++ tail2 =
        (pfx ++ e.wsBefore) ++ ('"' :: e.key ++ '"' :: ':' :: e.wsAfter ++
          tok) ++ tail2 by simp [List.cons_append, List.append_assoc]]
      rw [show pfx.length + (e.wsBefore ++ ('"' :: e.key ++ '"' :: ':' ::
          e.wsAfter ++ tok)).length = (pfx ++ e.wsBefore).length +
        ('"' :: e.key ++ '"' :: ':' :: e.wsAfter ++ tok).length by
          simp; omega]
      rw [show pfx.length + e.wsBefore.length =
        (pfx ++ e.wsBefore).length by simp]
      exact slice_seg _ _ _ _ _ rfl rfl
    rw [hs1, hs2, hrender]
    simp [List.cons_append, List.append_assoc]

theorem substMatched_ne_nil (e : JEntry) (es : List JEntry)
    (ss : List OpenString) : substMatched (e :: es) ss ≠ [] := by
  obtain ⟨wsB, key, wsA, val⟩ := e
  cases val <;> cases ss <;> exact fun h => List.noConfusion h

/-- The `_insert_from_dict` loop invariant over a suffix of the template
document's entries, when every string unit matches the pending stringset
placeholders in order: the loop copies the frame and substitutes each
placeholder by the corresponding string. -/
theorem insertFromDict_ok (es : List JEntry) :
    ∀ (c pfx rest : List Char) (ss : List OpenString) (isReal : Bool)
      (st : CompState),
    st.t.source = c →
    c = pfx ++ joinComma (es.map renderJEntry) ++ rest →
    st.t.ptr ≤ pfx.length →
    MatchedEntries es (ss.drop st.ssIdx) →
    ((insertFromDict ss isReal (posEntriesGo es pfx.length) st).1).t.source =
        c ∧
      ((insertFromDict ss isReal
        (posEntriesGo es pfx.length) st).1).t.newlineTypeDOS =
        st.t.newlineTypeDOS ∧
      ((insertFromDict ss isReal (posEntriesGo es pfx.length) st).1).t.ptr ≤
        pfx.length + (joinComma (es.map renderJEntry)).length ∧
      flattenDest ((insertFromDict ss isReal
          (posEntriesGo es pfx.length) st).1).t.destination ++
        (c.take (pfx.length +
          (joinComma (es.map renderJEntry)).length)).drop
          ((insertFromDict ss isReal
            (posEntriesGo es pfx.length) st).1).t.ptr =
        flattenDest st.t.destination ++ (c.take pfx.length).drop st.t.ptr ++
          joinComma ((substMatched es (ss.drop st.ssIdx)).map renderJEntry) := by
  induction es with
  | nil =>
    intro c pfx rest ss isReal st hsrc hc hptr hm
    rw [posEntriesGo, insertFromDict_nil]
    refine ⟨hsrc, rfl, by simpa [joinComma] using hptr, ?_⟩
    show flattenDest st.t.destination ++
      (c.take (pfx.length + (joinComma ([] : List (List Char))).length)).drop
        st.t.ptr = _
    simp [joinComma, substMatched]
  | cons e es' ih =>
    intro c pfx rest ss isReal st hsrc hc hptr hm
    cases hv : e.value with
    | str v =>
      obtain ⟨s, ss2, hdrop, hspl, hmv, hm'⟩ :=
        (matchedEntries_cons_str e es' (ss.drop st.ssIdx) v hv).mp hm
      obtain ⟨hget, hdrop2⟩ := drop_cons_get ss st.ssIdx s ss2 hdrop
      cases hes' : es' with
      | nil =>
        subst hes'
        have hc' : c = pfx ++ renderJEntry e ++ rest := by
          simpa [joinComma] using hc
        obtain ⟨st₂, hstep, hq1, hq2, hq3, hq4, hq5⟩ :=
          insert_one_match st e v ss isReal s c pfx rest hv hget hspl hmv
            hsrc hc' hptr
        rw [posEntriesGo, posEntriesGo, insertFromDict_cons, hstep]
        dsimp only
        rw [insertFromDict_nil]
        dsimp only
        refine ⟨hq1, hq2, ?_, ?_⟩
        · simpa [joinComma] using hq3
        · rw [hdrop, substMatched_cons_str e [] s ss2 v hv]
          show flattenDest st₂.t.destination ++
            (c.take (pfx.length +
              (joinComma ([e].map renderJEntry)).length)).drop st₂.t.ptr = _
          simp only [List.map_cons, List.map_nil, joinComma]
          rw [hq4]
      | cons e2 es2 =>
        subst hes'
        have hjoin : joinComma ((e :: e2 :: es2).map renderJEntry) =
            renderJEntry e ++ ',' ::
              joinComma ((e2 :: es2).map renderJEntry) := by
          rw [List.map_cons, joinComma_cons _ _ (by simp)]
        have hc' : c = pfx ++ renderJEntry e ++
            (',' :: joinComma ((e2 :: es2).map renderJEntry) ++ rest) := by
          rw [hc, hjoin]
          simp [List.cons_append, List.append_assoc]
        obtain ⟨st₂, hstep, hq1, hq2, hq3, hq4, hq5⟩ :=
          insert_one_match st e v ss isReal s c pfx
            (',' :: joinComma ((e2 :: es2).map renderJEntry) ++ rest)
            hv hget hspl hmv hsrc hc' hptr
        have hpfx' : c = (pfx ++ renderJEntry e ++ [',']) ++
            joinComma ((e2 :: es2).map renderJEntry) ++ rest := by
          rw [hc']
          simp [List.cons_append, List.append_assoc]
        have hlen' : (pfx ++ renderJEntry e ++ [',']).length =
            pfx.length + (renderJEntry e).length + 1 := by
          simp only [List.length_append, List.length_cons, List.length_nil]
        have hm2 : MatchedEntries (e2 :: es2) (ss.drop st₂.ssIdx) := by
          rw [hq5, hdrop2]
          exact hm'
        obtain ⟨hw1, hw2, hw3, hw4⟩ :=
          ih c (pfx ++ renderJEntry e ++ [',']) rest ss isReal st₂
            hq1 hpfx' (by rw [hlen']; omega) hm2
        rw [posEntriesGo, insertFromDict_cons, hstep]
        dsimp only
        rw [hlen'] at hw1 hw2 hw3 hw4
        refine ⟨hw1, by rw [hw2, hq2], ?_, ?_⟩
        · rw [hjoin]
          simp only [List.length_append, List.length_cons,
            List.length_nil] at hw3 ⊢
          omega
        · rw [hjoin]
          have hidx : pfx.length + (renderJEntry e ++ ',' ::
              joinComma ((e2 :: es2).map renderJEntry)).length =
              pfx.length + (renderJEntry e).length + 1 +
                (joinComma ((e2 :: es2).map renderJEntry)).length := by
            simp only [List.length_append, List.length_cons]
            omega
          rw [hidx, hw4]
          have hsplit2 : ((c.take (pfx.length + (renderJEntry e).length +
              1)).drop st₂.t.ptr) =
              (c.take (pfx.length + (renderJEntry e).length)).drop
                st₂.t.ptr ++ [','] := by
            rw [slice_split c st₂.t.ptr
              (pfx.length + (renderJEntry e).length)
              (pfx.length + (renderJEntry e).length + 1) hq3 (by omega)]
            congr 1
            rw [hpfx']
            rw [show (pfx ++ renderJEntry e ++ [',']) ++
                joinComma ((e2 :: es2).map renderJEntry) ++ rest =
              (pfx ++ renderJEntry e) ++ ',' ::
                (joinComma ((e2 :: es2).map renderJEntry) ++ rest) by
                simp [List.cons_append, List.append_assoc]]
            rw [show pfx.length + (renderJEntry e).length =
              (pfx ++ renderJEntry e).length by simp]
            exact slice_one _ _ _ _ rfl
          rw [hsplit2]
          have hdx : ss.drop st₂.ssIdx = ss2 := by
            rw [hq5]
            exact hdrop2
          rw [hdx, hdrop, substMatched_cons_str e (e2 :: es2) s ss2 v hv]
          have hq4' := congrArg (fun l => l ++ ',' ::
            joinComma ((substMatched (e2 :: es2) ss2).map renderJEntry)) hq4
          dsimp only at hq4'
          conv_rhs => rw [List.map_cons,
            joinComma_cons (renderJEntry { e with value := JValue.str (osString s) }) _ (by simp; exact substMatched_ne_nil _ _ _)]
          simp only [List.append_assoc, List.cons_append, List.nil_append]
            at hq4' ⊢
          exact hq4'
    | other tok =>
      have hm0 : MatchedEntries es' (ss.drop st.ssIdx) :=
        (matchedEntries_cons_other e es' (ss.drop st.ssIdx) tok hv).mp hm
      cases hes' : es' with
      | nil =>
        subst hes'
        have hc' : c = pfx ++ renderJEntry e ++ rest := by
          simpa [joinComma] using hc
        obtain ⟨st₂, hstep, hq1, hq2, hq3, hq4, hq5⟩ :=
          insert_one_other st e tok ss isReal c pfx rest hv hsrc hc' hptr
        rw [posEntriesGo, posEntriesGo, insertFromDict_cons, hstep]
        dsimp only
        rw [insertFromDict_nil]
        dsimp only
        refine ⟨hq1, hq2, ?_, ?_⟩
        · simpa [joinComma] using hq3
        · rw [substMatched_cons_other e [] (ss.drop st.ssIdx) tok hv]
          show flattenDest st₂.t.destination ++
            (c.take (pfx.length +
              (joinComma ([e].map renderJEntry)).length)).drop st₂.t.ptr = _
          simp only [List.map_cons, List.map_nil, joinComma]
          rw [hq4]
      | cons e2 es2 =>
        subst hes'
        have hjoin : joinComma ((e :: e2 :: es2).map renderJEntry) =
            renderJEntry e ++ ',' ::
              joinComma ((e2 :: es2).map renderJEntry) := by
          rw [List.map_cons, joinComma_cons _ _ (by simp)]
        have hc' : c = pfx ++ renderJEntry e ++
            (',' :: joinComma ((e2 :: es2).map renderJEntry) ++ rest) := by
          rw [hc, hjoin]
          simp [List.cons_append, List.append_assoc]
        obtain ⟨st₂, hstep, hq1, hq2, hq3, hq4, hq5⟩ :=
          insert_one_other st e tok ss isReal c pfx
            (',' :: joinComma ((e2 :: es2).map renderJEntry) ++ rest)
            hv hsrc hc' hptr
        have hpfx' : c = (pfx ++ renderJEntry e ++ [',']) ++
            joinComma ((e2 :: es2).map renderJEntry) ++ rest := by
          rw [hc']
          simp [List.cons_append, List.append_assoc]
        have hlen' : (pfx ++ renderJEntry e ++ [',']).length =
            pfx.length + (renderJEntry e).length + 1 := by
          simp only [List.length_append, List.length_cons, List.length_nil]
        have hm2 : MatchedEntries (e2 :: es2) (ss.drop st₂.ssIdx) := by
          rw [hq5]
          exact hm0
        obtain ⟨hw1, hw2, hw3, hw4⟩ :=
          ih c (pfx ++ renderJEntry e ++ [',']) rest ss isReal st₂
            hq1 hpfx' (by rw [hlen']; omega) hm2
        rw [posEntriesGo, insertFromDict_cons, hstep]
        dsimp only
        rw [hlen'] at hw1 hw2 hw3 hw4
        refine ⟨hw1, by rw [hw2, hq2], ?_, ?_⟩
        · rw [hjoin]
          simp only [List.length_append, List.length_cons,
            List.length_nil] at hw3 ⊢
          omega
        · rw [hjoin]
          have hidx : pfx.length + (renderJEntry e ++ ',' ::
              joinComma ((e2 :: es2).map renderJEntry)).length =
              pfx.length + (renderJEntry e).length + 1 +
                (joinComma ((e2 :: es2).map renderJEntry)).length := by
            simp only [List.length_append, List.length_cons]
            omega
          rw [hidx, hw4]
          have hsplit2 : ((c.take (pfx.length + (renderJEntry e).length +
              1)).drop st₂.t.ptr) =
              (c.take (pfx.length + (renderJEntry e).length)).drop
                st₂.t.ptr ++ [','] := by
            rw [slice_split c st₂.t.ptr
              (pfx.length + (renderJEntry e).length)
              (pfx.length + (renderJEntry e).length + 1) hq3 (by omega)]
            congr 1
            rw [hpfx']
            rw [show (pfx ++ renderJEntry e ++ [',']) ++
                joinComma ((e2 :: es2).map renderJEntry) ++ rest =
              (pfx ++ renderJEntry e) ++ ',' ::
                (joinComma ((e2 :: es2).map renderJEntry) ++ rest) by
                simp [List.cons_append, List.append_assoc]]
            rw [show pfx.length + (renderJEntry e).length =
              (pfx ++ renderJEntry e).length by simp]
            exact slice_one _ _ _ _ rfl
          rw [hsplit2]
          have hdx : ss.drop st₂.ssIdx = ss.drop st.ssIdx := by rw [hq5]
          rw [hdx,
            substMatched_cons_other e (e2 :: es2) (ss.drop st.ssIdx) tok hv]
          have hq4' := congrArg (fun l => l ++ ',' ::
            joinComma ((substMatched (e2 :: es2)
              (ss.drop st.ssIdx)).map renderJEntry)) hq4
          dsimp only at hq4'
          conv_rhs => rw [List.map_cons,
            joinComma_cons (renderJEntry e) _ (by simp; exact substMatched_ne_nil _ _ _)]
          simp only [List.append_assoc, List.cons_append, List.nil_append]
            at hq4' ⊢
          exact hq4'

/-- `_replace_translations` over a flat template whose string units all
match the stringset's placeholders in order: every placeholder is
replaced by its string's text. -/
theorem replaceTranslations_ok (d : JDoc) (ss : List OpenString)
    (isReal : Bool) (hwf : WFDoc d) (hcr : '\r' ∉ renderJDoc d)
    (hm : MatchedEntries d.entries ss) :
    replaceTranslations (renderJDoc d) ss isReal =
      Except.ok (renderJDoc ⟨substMatched d.entries ss, d.wsEnd⟩) := by
  have ht0 : Transcriber.init (renderJDoc d) =
      { source := renderJDoc d, destination := [], ptr := 0,
        newlineCount := 0, newlineTypeDOS := false } := init_no_cr _ hcr
  have hc : renderJDoc d = ['{'] ++ joinComma (d.entries.map renderJEntry) ++
      (d.wsEnd ++ ['}']) := by
    rw [renderJDoc]
    simp [List.cons_append, List.append_assoc]
  obtain ⟨hw1, hw2, hw3, hw4⟩ :=
    insertFromDict_ok d.entries (renderJDoc d) ['{'] (d.wsEnd ++ ['}'])
      ss isReal
      { t := { source := renderJDoc d, destination := [], ptr := 0, newlineCount := 0, newlineTypeDOS := false }, ssIdx := 0 }
      rfl hc (by simp) (by simpa using hm)
  rw [replaceTranslations]
  rw [ht0]
  dsimp only
  rw [reparse_complete d hwf]
  dsimp only
  rw [show posEntries d = posEntriesGo d.entries 1 from rfl]
  rw [show (1 : Nat) = (['{'] : List Char).length from rfl]
  congr 1
  rw [getDestination_unix _ (by
    show ((insertFromDict ss isReal (posEntriesGo d.entries
      (['{'] : List Char).length)
      { t := { source := renderJDoc d, destination := [], ptr := 0, newlineCount := 0, newlineTypeDOS := false }, ssIdx := 0 }).1.t.copyUntil
        (renderJDoc d).length).newlineTypeDOS = false
    exact hw2)]
  show flattenDest ((insertFromDict ss isReal (posEntriesGo d.entries
      (['{'] : List Char).length)
      { t := { source := renderJDoc d, destination := [], ptr := 0, newlineCount := 0, newlineTypeDOS := false }, ssIdx := 0 }).1.t.destination ++
      [Chunk.text ((insertFromDict ss isReal (posEntriesGo d.entries
        (['{'] : List Char).length)
        { t := { source := renderJDoc d, destination := [], ptr := 0, newlineCount := 0, newlineTypeDOS := false }, ssIdx := 0 }).1.t.sliceUntil
        (renderJDoc d).length)]) = _
  rw [flattenDest_append, flattenDest_text, Transcriber.sliceUntil, hw1]
  have hXle : (['{'] : List Char).length +
      (joinComma (d.entries.map renderJEntry)).length ≤
      (renderJDoc d).length := by
    conv_rhs => rw [hc]
    simp
    omega
  rw [slice_split (renderJDoc d) _
    ((['{'] : List Char).length +
      (joinComma (d.entries.map renderJEntry)).length)
    (renderJDoc d).length hw3 hXle]
  rw [← List.append_assoc]
  rw [hw4]
  have hdrop : ((renderJDoc d).take (renderJDoc d).length).drop
      ((['{'] : List Char).length +
        (joinComma (d.entries.map renderJEntry)).length) =
      d.wsEnd ++ ['}'] := by
    rw [List.take_length]
    conv_lhs => rw [hc]
    rw [show (['{'] : List Char) ++ joinComma (d.entries.map renderJEntry) ++
        (d.wsEnd ++ ['}']) =
      ((['{'] : List Char) ++ joinComma (d.entries.map renderJEntry)) ++
        (d.wsEnd ++ ['}']) by simp [List.append_assoc]]
    exact List.drop_left' (by simp; omega)
  rw [hdrop]
  have htake1 : ((renderJDoc d).take (['{'] : List Char).length).drop 0 =
      ['{'] := by
    rw [List.drop_zero]
    conv_lhs => rw [hc]
    rw [show (['{'] : List Char) ++ joinComma (d.entries.map renderJEntry) ++
        (d.wsEnd ++ ['}']) =
      (['{'] : List Char) ++ (joinComma (d.entries.map renderJEntry) ++
        (d.wsEnd ++ ['}'])) by simp [List.append_assoc]]
    exact List.take_left' rfl
  show flattenDest [] ++ ((renderJDoc d).take
      (['{'] : List Char).length).drop 0 ++
      joinComma ((substMatched d.entries (ss.drop 0)).map renderJEntry) ++
      (d.wsEnd ++ ['}']) =
    renderJDoc ⟨substMatched d.entries ss, d.wsEnd⟩
  rw [htake1, List.drop_zero, renderJDoc]
  simp [List.cons_append, List.append_assoc]
  rfl

/-- Every character of a template replacement is a lowercase hex digit
or one of the suffix letters. -/
theorem mem_templateReplacement (ch : Char) (k : List Char) (b : Bool)
    (h : ch ∈ templateReplacement k b) :
    (∃ j, j < 16 ∧ ch = hexDigit j) ∨ ch ∈ ['_', 'p', 'l', 't', 'r'] := by
  rw [templateReplacement] at h
  rcases List.mem_append.mp h with h1 | h2
  · left
    rw [keyHash] at h1
    obtain ⟨l, hl, hcl⟩ := List.mem_flatten.mp h1
    obtain ⟨c0, hc0, rfl⟩ := List.mem_map.mp hl
    rw [hex6] at hcl
    have h16 : ∀ m : Nat, m % 16 < 16 := fun m => Nat.mod_lt _ (by omega)
    simp only [List.mem_cons, List.not_mem_nil, or_false] at hcl
    rcases hcl with h | h | h | h | h | h
    all_goals exact ⟨_, h16 _, h⟩
  · right
    cases b
    · have h2' : ch ∈ ['_', 't', 'r'] := h2
      simp only [List.mem_cons, List.not_mem_nil, or_false] at h2'
      rcases h2' with h | h | h <;> simp [h]
    · have h2' : ch ∈ ['_', 'p', 'l'] := h2
      simp only [List.mem_cons, List.not_mem_nil, or_false] at h2'
      rcases h2' with h | h | h <;> simp [h]

theorem hexDigit_plain : ∀ j, j < 16 → (hexDigit j ≠ '"' ∧
    hexDigit j ≠ '\r' ∧ plainChar (hexDigit j) = true) := by decide

theorem quote_not_mem_templateReplacement (k : List Char) (b : Bool) :
    '"' ∉ templateReplacement k b := by
  intro h
  rcases mem_templateReplacement _ _ _ h with ⟨j, hj, hch⟩ | hch
  · exact (hexDigit_plain j hj).1 hch.symm
  · simp only [List.mem_cons, List.not_mem_nil, or_false] at hch
    rcases hch with h | h | h | h | h
    all_goals exact absurd h (by decide)

theorem cr_not_mem_templateReplacement (k : List Char) (b : Bool) :
    '\r' ∉ templateReplacement k b := by
  intro h
  rcases mem_templateReplacement _ _ _ h with ⟨j, hj, hch⟩ | hch
  · exact (hexDigit_plain j hj).2.1 hch.symm
  · simp only [List.mem_cons, List.not_mem_nil, or_false] at hch
    rcases hch with h | h | h | h | h
    all_goals exact absurd h (by decide)

theorem plain_templateReplacement (k : List Char) (b : Bool) :
    ∀ ch ∈ templateReplacement k b, plainChar ch = true := by
  intro ch h
  rcases mem_templateReplacement _ _ _ h with ⟨j, hj, hch⟩ | hch
  · rw [hch]
    exact (hexDigit_plain j hj).2.2
  · simp only [List.mem_cons, List.not_mem_nil, or_false] at hch
    rcases hch with h | h | h | h | h
    all_goals rw [h]
    all_goals decide

theorem shouldExtract_of_strip (e : JEntry) (v : List Char)
    (hv : e.value = JValue.str v) (hne : pyStrip v ≠ []) :
    shouldExtract e = true := by
  rw [shouldExtract, hv]
  show (!(pyStrip v).isEmpty) = true
  cases hps : pyStrip v with
  | nil => exact absurd hps hne
  | cons a l => rfl

/-- The template document of a well-formed document is well-formed. -/
theorem wfdoc_templateDoc (d : JDoc) (hwf : WFDoc d) :
    WFDoc (templateDoc d) := by
  obtain ⟨hent, hws⟩ := hwf
  refine ⟨?_, hws⟩
  intro te hte
  rw [templateDoc] at hte
  obtain ⟨e, he, rfl⟩ := List.mem_map.mp hte
  obtain ⟨h1, h2, h3, h4⟩ := hent e he
  rw [templateEntry]
  by_cases hx : shouldExtract e = true
  · rw [if_pos hx]
    exact ⟨h1, h2, h3, quote_not_mem_templateReplacement _ _⟩
  · rw [if_neg hx]
    exact ⟨h1, h2, h3, h4⟩

/-- Pass A of `compile`: the template's placeholders match the fake
stringset's placeholders positionally. -/
theorem matched_template_fake (es : List JEntry) :
    ∀ ord : Nat, (∀ e ∈ es, ∀ v, e.value = JValue.str v → pyStrip v ≠ []) →
    MatchedEntries (es.map templateEntry)
      (fakeStringset (expectedStringset es ord)) := by
  induction es with
  | nil => intro ord h; exact trivial
  | cons e rest ih =>
    intro ord hstr
    obtain ⟨wsB, key, wsA, val⟩ := e
    cases val with
    | str v =>
      have hne := hstr _ (List.mem_cons_self _ _) v rfl
      have hx : shouldExtract ⟨wsB, key, wsA, JValue.str v⟩ = true :=
        shouldExtract_of_strip _ v rfl hne
      have htv : (templateEntry ⟨wsB, key, wsA, JValue.str v⟩).value =
          JValue.str (templateReplacement (escapeKey key) false) := by
        rw [templateEntry, if_pos hx]
      have hexp : expectedStringset (⟨wsB, key, wsA, JValue.str v⟩ :: rest)
          ord = { key := escapeKey key, payload := Payload.plain v, order := ord, pluralized := false } :: expectedStringset rest (ord + 1) := by
        rw [expectedStringset, if_pos hx]
      rw [List.map_cons, hexp]
      refine (matchedEntries_cons_str _ _ _ _ htv).mpr
        ⟨_, _, rfl, rfl, rfl,
          ih (ord + 1) (fun e' he' v' hv' =>
            hstr e' (List.mem_cons_of_mem _ he') v' hv')⟩
    | other tok =>
      have hte : templateEntry ⟨wsB, key, wsA, JValue.other tok⟩ =
          ⟨wsB, key, wsA, JValue.other tok⟩ := by
        rw [templateEntry, if_neg (by intro h; exact Bool.false_ne_true h)]
      have hexp : expectedStringset
          (⟨wsB, key, wsA, JValue.other tok⟩ :: rest) ord =
          expectedStringset rest ord := by
        rw [expectedStringset, if_neg (by intro h; exact Bool.false_ne_true h)]
      rw [List.map_cons, hexp, hte]
      refine (matchedEntries_cons_other _ _ _ tok rfl).mpr
        (ih ord (fun e' he' v' hv' =>
          hstr e' (List.mem_cons_of_mem _ he') v' hv'))

/-- Pass B of `compile`: the template's placeholders match the real
stringset's placeholders positionally. -/
theorem matched_template_real (es : List JEntry) :
    ∀ ord : Nat, (∀ e ∈ es, ∀ v, e.value = JValue.str v → pyStrip v ≠ []) →
    MatchedEntries (es.map templateEntry) (expectedStringset es ord) := by
  induction es with
  | nil => intro ord h; exact trivial
  | cons e rest ih =>
    intro ord hstr
    obtain ⟨wsB, key, wsA, val⟩ := e
    cases val with
    | str v =>
      have hne := hstr _ (List.mem_cons_self _ _) v rfl
      have hx : shouldExtract ⟨wsB, key, wsA, JValue.str v⟩ = true :=
        shouldExtract_of_strip _ v rfl hne
      have htv : (templateEntry ⟨wsB, key, wsA, JValue.str v⟩).value =
          JValue.str (templateReplacement (escapeKey key) false) := by
        rw [templateEntry, if_pos hx]
      have hexp : expectedStringset (⟨wsB, key, wsA, JValue.str v⟩ :: rest)
          ord = { key := escapeKey key, payload := Payload.plain v, order := ord, pluralized := false } :: expectedStringset rest (ord + 1) := by
        rw [expectedStringset, if_pos hx]
      rw [List.map_cons, hexp]
      refine (matchedEntries_cons_str _ _ _ _ htv).mpr
        ⟨_, _, rfl, rfl, rfl,
          ih (ord + 1) (fun e' he' v' hv' =>
            hstr e' (List.mem_cons_of_mem _ he') v' hv')⟩
    | other tok =>
      have hte : templateEntry ⟨wsB, key, wsA, JValue.other tok⟩ =
          ⟨wsB, key, wsA, JValue.other tok⟩ := by
        rw [templateEntry, if_neg (by intro h; exact Bool.false_ne_true h)]
      have hexp : expectedStringset
          (⟨wsB, key, wsA, JValue.other tok⟩ :: rest) ord =
          expectedStringset rest ord := by
        rw [expectedStringset, if_neg (by intro h; exact Bool.false_ne_true h)]
      rw [List.map_cons, hexp, hte]
      refine (matchedEntries_cons_other _ _ _ tok rfl).mpr
        (ih ord (fun e' he' v' hv' =>
          hstr e' (List.mem_cons_of_mem _ he') v' hv'))

/-- Substituting the fake stringset back into the template leaves it
unchanged. -/
theorem substMatched_fake_id (es : List JEntry) :
    ∀ ord : Nat, (∀ e ∈ es, ∀ v, e.value = JValue.str v → pyStrip v ≠ []) →
    substMatched (es.map templateEntry)
      (fakeStringset (expectedStringset es ord)) = es.map templateEntry := by
  induction es with
  | nil => intro ord h; rfl
  | cons e rest ih =>
    intro ord hstr
    obtain ⟨wsB, key, wsA, val⟩ := e
    cases val with
    | str v =>
      have hne := hstr _ (List.mem_cons_self _ _) v rfl
      have hx : shouldExtract ⟨wsB, key, wsA, JValue.str v⟩ = true :=
        shouldExtract_of_strip _ v rfl hne
      have htv : (templateEntry ⟨wsB, key, wsA, JValue.str v⟩).value =
          JValue.str (templateReplacement (escapeKey key) false) := by
        rw [templateEntry, if_pos hx]
      have hexp : expectedStringset (⟨wsB, key, wsA, JValue.str v⟩ :: rest)
          ord = { key := escapeKey key, payload := Payload.plain v, order := ord, pluralized := false } :: expectedStringset rest (ord + 1) := by
        rw [expectedStringset, if_pos hx]
      have hte : templateEntry ⟨wsB, key, wsA, JValue.str v⟩ =
          ⟨wsB, key, wsA, JValue.str
            (templateReplacement (escapeKey key) false)⟩ := by
        rw [templateEntry, if_pos hx]
      have hfk : fakeStringset ({ key := escapeKey key, payload := Payload.plain v, order := ord, pluralized := false } :: expectedStringset rest (ord + 1)) = { key := escapeKey key, payload := Payload.plain (templateReplacement (escapeKey key) false), order := ord, pluralized := false } :: fakeStringset (expectedStringset rest (ord + 1)) := rfl
      rw [List.map_cons, hexp, hfk]
      rw [substMatched_cons_str _ _ _ _ _ htv]
      rw [ih (ord + 1) (fun e' he' v' hv' =>
        hstr e' (List.mem_cons_of_mem _ he') v' hv')]
      rw [hte]
      rfl
    | other tok =>
      have hte : templateEntry ⟨wsB, key, wsA, JValue.other tok⟩ =
          ⟨wsB, key, wsA, JValue.other tok⟩ := by
        rw [templateEntry, if_neg (by intro h; exact Bool.false_ne_true h)]
      have hexp : expectedStringset
          (⟨wsB, key, wsA, JValue.other tok⟩ :: rest) ord =
          expectedStringset rest ord := by
        rw [expectedStringset, if_neg (by intro h; exact Bool.false_ne_true h)]
      rw [List.map_cons, hexp, hte]
      rw [substMatched_cons_other _ _ _ tok rfl]
      rw [ih ord (fun e' he' v' hv' =>
        hstr e' (List.mem_cons_of_mem _ he') v' hv')]

/-- Substituting the real stringset into the template recovers the
original entries. -/
theorem substMatched_real (es : List JEntry) :
    ∀ ord : Nat, (∀ e ∈ es, ∀ v, e.value = JValue.str v → pyStrip v ≠ []) →
    substMatched (es.map templateEntry) (expectedStringset es ord) = es := by
  induction es with
  | nil => intro ord h; rfl
  | cons e rest ih =>
    intro ord hstr
    obtain ⟨wsB, key, wsA, val⟩ := e
    cases val with
    | str v =>
      have hne := hstr _ (List.mem_cons_self _ _) v rfl
      have hx : shouldExtract ⟨wsB, key, wsA, JValue.str v⟩ = true :=
        shouldExtract_of_strip _ v rfl hne
      have htv : (templateEntry ⟨wsB, key, wsA, JValue.str v⟩).value =
          JValue.str (templateReplacement (escapeKey key) false) := by
        rw [templateEntry, if_pos hx]
      have hexp : expectedStringset (⟨wsB, key, wsA, JValue.str v⟩ :: rest)
          ord = { key := escapeKey key, payload := Payload.plain v, order := ord, pluralized := false } :: expectedStringset rest (ord + 1) := by
        rw [expectedStringset, if_pos hx]
      have hte : templateEntry ⟨wsB, key, wsA, JValue.str v⟩ =
          ⟨wsB, key, wsA, JValue.str
            (templateReplacement (escapeKey key) false)⟩ := by
        rw [templateEntry, if_pos hx]
      rw [List.map_cons, hexp]
      rw [substMatched_cons_str _ _ _ _ _ htv]
      rw [ih (ord + 1) (fun e' he' v' hv' =>
        hstr e' (List.mem_cons_of_mem _ he') v' hv')]
      rw [hte]
      rfl
    | other tok =>
      have hte : templateEntry ⟨wsB, key, wsA, JValue.other tok⟩ =
          ⟨wsB, key, wsA, JValue.other tok⟩ := by
        rw [templateEntry, if_neg (by intro h; exact Bool.false_ne_true h)]
      have hexp : expectedStringset
          (⟨wsB, key, wsA, JValue.other tok⟩ :: rest) ord =
          expectedStringset rest ord := by
        rw [expectedStringset, if_neg (by intro h; exact Bool.false_ne_true h)]
      rw [List.map_cons, hexp, hte]
      rw [substMatched_cons_other _ _ _ tok rfl]
      rw [ih ord (fun e' he' v' hv' =>
        hstr e' (List.mem_cons_of_mem _ he') v' hv')]

theorem pyWs_ne_of (c b : Char) (hc : isPyWs c = true)
    (hb : isPyWs b = false) : c ≠ b := by
  intro h
  rw [h, hb] at hc
  exact Bool.false_ne_true hc

theorem plainChar_ne_of (c b : Char) (hc : plainChar c = true)
    (hb : plainChar b = false) : c ≠ b := by
  intro h
  rw [h, hb] at hc
  exact Bool.false_ne_true hc

/-- If the first literal never occurs, the pattern never matches. -/
theorem searchPair_not_mem (a b : Char) (l : List Char) (h : a ∉ l) :
    searchPair a b l = none := by
  induction l with
  | nil => rfl
  | cons c rest ih =>
    rw [searchPair,
      if_neg (fun hc => h (by rw [← hc]; exact List.mem_cons_self c rest)),
      ih (fun hm => h (List.mem_cons_of_mem c hm))]
    rfl

/-- `\s*b` fails right after the `a` when the first non-whitespace
character is not `b`. -/
theorem scanWsThen_none (b : Char) (l : List Char)
    (h : (l.dropWhile isPyWs).head? ≠ some b) : scanWsThen b l = none := by
  induction l with
  | nil => rfl
  | cons c rest ih =>
    rw [scanWsThen]
    by_cases hws : isPyWs c = true
    · rw [if_pos hws]
      rw [List.dropWhile_cons, if_pos hws] at h
      rw [ih h]
      rfl
    · rw [if_neg hws]
      rw [List.dropWhile_cons, if_neg hws] at h
      rw [if_neg (by
        intro hc
        rw [hc] at hws
        simp only [List.head?_cons] at h
        exact h (by rw [hc]))]

theorem searchPair_append_left (a b : Char) (u v : List Char) (hu : a ∉ u)
    (hv : searchPair a b v = none) : searchPair a b (u ++ v) = none := by
  induction u with
  | nil => simpa using hv
  | cons c rest ih =>
    rw [List.cons_append, searchPair,
      if_neg (fun hc => hu (by rw [← hc]; exact List.mem_cons_self c rest)),
      ih (fun hm => hu (List.mem_cons_of_mem c hm))]
    rfl

theorem searchPair_cons_a (a b : Char) (r : List Char)
    (h1 : scanWsThen b r = none) (h2 : searchPair a b r = none) :
    searchPair a b (a :: r) = none := by
  rw [searchPair, if_pos rfl, h1, h2]
  rfl

/-- A nonempty `dropWhile` survives an append on the right. -/
theorem dropWhile_head_append (p : Char → Bool) (l z : List Char) (x : Char)
    (h : (l.dropWhile p).head? = some x) :
    ((l ++ z).dropWhile p).head? = some x := by
  induction l with
  | nil => simp at h
  | cons c rest ih =>
    rw [List.dropWhile_cons] at h
    rw [List.cons_append, List.dropWhile_cons]
    by_cases hp : p c = true
    · rw [if_pos hp] at h ⊢
      exact ih h
    · rw [if_neg hp] at h ⊢
      simpa using h

theorem not_mem_joinComma (b : Char) (rs : List (List Char)) (hb : b ≠ ',')
    (h : ∀ r ∈ rs, b ∉ r) : b ∉ joinComma rs := by
  induction rs with
  | nil => exact List.not_mem_nil b
  | cons x xs ih =>
    cases hxs : xs with
    | nil =>
      rw [joinComma]
      exact h x (List.mem_cons_self x xs)
    | cons y ys =>
      subst hxs
      rw [joinComma_cons x _ (by simp)]
      intro hm
      rcases List.mem_append.mp hm with hm1 | hm2
      · exact h x (List.mem_cons_self x _) hm1
      · rcases List.mem_cons.mp hm2 with hm3 | hm4
        · exact hb hm3
        · exact ih (fun r hr => h r (List.mem_cons_of_mem x hr)) hm4

/-- The comma-separated scan: with comma-free segments each starting
(after whitespace) with a double quote, and a comma-free tail, no
`,\s*b` pattern matches for `b` other than the quote. -/
theorem searchPair_comma_sep (b : Char) (rs : List (List Char))
    (tail : List Char) (hbq : b ≠ '"')
    (hcomma : ∀ r ∈ rs, ',' ∉ r)
    (hshape : ∀ r ∈ rs, (r.dropWhile isPyWs).head? = some '"')
    (htail : ',' ∉ tail) :
    searchPair ',' b (joinComma rs ++ tail) = none := by
  induction rs with
  | nil =>
    rw [joinComma, List.nil_append]
    exact searchPair_not_mem _ _ _ htail
  | cons x xs ih =>
    cases hxs : xs with
    | nil =>
      rw [joinComma]
      exact searchPair_not_mem _ _ _ (by
        intro hm
        rcases List.mem_append.mp hm with h1 | h2
        · exact hcomma x (List.mem_cons_self x xs) h1
        · exact htail h2)
    | cons y ys =>
      subst hxs
      rw [joinComma_cons x _ (by simp), List.append_assoc, List.cons_append]
      refine searchPair_append_left ',' b x _
        (hcomma x (List.mem_cons_self x _)) ?_
      refine searchPair_cons_a ',' b _ ?_ ?_
      · refine scanWsThen_none b _ ?_
        have hy : ((y ++ (joinComma (ys.map id) ++ tail)).dropWhile
            isPyWs).head? = some '"' := by
          exact dropWhile_head_append isPyWs y _ '"'
            (hshape y (List.mem_cons_of_mem x (List.mem_cons_self y ys)))
        intro hcontra
        cases hys : ys with
        | nil =>
          rw [hys] at hcontra
          rw [show joinComma [y] = y from rfl] at hcontra
          have hy2 := dropWhile_head_append isPyWs y tail '"'
            (hshape y (List.mem_cons_of_mem x (List.mem_cons_self y ys)))
          rw [hcontra] at hy2
          exact hbq (Option.some_inj.mp hy2)
        | cons z zs =>
          rw [hys] at hcontra
          rw [joinComma_cons y _ (by simp)] at hcontra
          rw [show y ++ ',' :: joinComma (z :: zs) ++ tail =
            y ++ (',' :: joinComma (z :: zs) ++ tail) by simp] at hcontra
          have hy2 := dropWhile_head_append isPyWs y
            (',' :: joinComma (z :: zs) ++ tail) '"'
            (hshape y (by
              rw [hys]
              exact List.mem_cons_of_mem x (List.mem_cons_self y _)))
          rw [hcontra] at hy2
          exact hbq (Option.some_inj.mp hy2)
      · exact ih
          (fun r hr => hcomma r (List.mem_cons_of_mem x hr))
          (fun r hr => hshape r (List.mem_cons_of_mem x hr))

/-- A rendered entry starts, after its leading whitespace, with the
key's opening double quote. -/
theorem render_head_quote (e : JEntry)
    (hws : ∀ ch ∈ e.wsBefore, isPyWs ch = true) :
    ((renderJEntry e).dropWhile isPyWs).head? = some '"' := by
  rw [renderJEntry]
  rw [show e.wsBefore ++ '"' :: e.key ++ '"' :: ':' :: e.wsAfter ++
      renderJValue e.value =
    e.wsBefore ++ '"' :: (e.key ++ '"' :: ':' :: e.wsAfter ++
      renderJValue e.value) by simp]
  rw [dropWhile_append_all isPyWs e.wsBefore _ hws,
    dropWhile_cons_neg isPyWs '"' _ (by decide)]
  rfl

/-- No pattern character occurs inside a rendered entry whose key and
value are `plainChar` and whose whitespace is whitespace. -/
theorem not_mem_renderJEntry (b : Char) (e : JEntry)
    (hwsB : ∀ ch ∈ e.wsBefore, isPyWs ch = true)
    (hwsA : ∀ ch ∈ e.wsAfter, isPyWs ch = true)
    (hkey : ∀ ch ∈ e.key, plainChar ch = true)
    (hval : plainValue e.value)
    (hbws : isPyWs b = false) (hbp : plainChar b = false)
    (hbq : b ≠ '"') (hbc : b ≠ ':') : b ∉ renderJEntry e := by
  have hnw : isPyWs b ≠ true := by rw [hbws]; exact Bool.false_ne_true
  have hnp : plainChar b ≠ true := by rw [hbp]; exact Bool.false_ne_true
  obtain ⟨wsB, key, wsA, val⟩ := e
  have hframe : b ∉ (wsB ++ '"' :: key) ++ '"' :: ':' :: wsA := by
    intro h1
    rcases List.mem_append.mp h1 with h2 | h6
    · rcases List.mem_append.mp h2 with hm | h3
      · exact hnw (hwsB b hm)
      · rcases List.mem_cons.mp h3 with heq | hm
        · exact hbq heq
        · exact hnp (hkey b hm)
    · rcases List.mem_cons.mp h6 with heq | h7
      · exact hbq heq
      · rcases List.mem_cons.mp h7 with heq | hm
        · exact hbc heq
        · exact hnw (hwsA b hm)
  cases val with
  | str v =>
    intro h
    rw [renderJEntry, renderJValue] at h
    rcases List.mem_append.mp h with h1 | hv9
    · exact hframe h1
    rcases List.mem_append.mp hv9 with h8 | h9
    · rcases List.mem_cons.mp h8 with heq | hm
      · exact hbq heq
      · exact hnp (hval b hm)
    · rcases List.mem_cons.mp h9 with heq | h10
      · exact hbq heq
      · exact absurd h10 (List.not_mem_nil b)
  | other tok =>
    intro h
    rw [renderJEntry, renderJValue] at h
    rcases List.mem_append.mp h with h1 | hv9
    · exact hframe h1
    · exact hnp (hval b hv9)

/-- On a document whose keys and values are made of inert characters,
no `_clean_empties` pattern matches its rendering. -/
theorem cleanStep_renderJDoc_none (dd : JDoc) (hwf : WFDoc dd)
    (hplain : ∀ e ∈ dd.entries,
      (∀ ch ∈ e.key, plainChar ch = true) ∧ plainValue e.value) :
    cleanStep (renderJDoc dd) = none := by
  obtain ⟨hent, hwse⟩ := hwf
  have hrender_not : ∀ b : Char, isPyWs b = false → plainChar b = false →
      b ≠ '"' → b ≠ ':' → ∀ e ∈ dd.entries, b ∉ renderJEntry e :=
    fun b h1 h2 h3 h4 e he => not_mem_renderJEntry b e
      (hent e he).1 (hent e he).2.1 (hplain e he).1 (hplain e he).2
      h1 h2 h3 h4
  have hbody : renderJDoc dd = '{' ::
      (joinComma (dd.entries.map renderJEntry) ++ (dd.wsEnd ++ ['}'])) := by
    rw [renderJDoc]
    simp [List.cons_append, List.append_assoc]
  have hmemtail : ∀ b : Char, isPyWs b = false → b ≠ '}' →
      b ∉ dd.wsEnd ++ ['}'] := by
    intro b h1 h2 hm
    rcases List.mem_append.mp hm with hm2 | hm2
    · exact (pyWs_ne_of b b (hwse b hm2) h1) rfl
    · rcases List.mem_cons.mp hm2 with hm3 | hm3
      · exact h2 hm3
      · exact absurd hm3 (List.not_mem_nil b)
  have hnotmem_body : ∀ b : Char, isPyWs b = false → plainChar b = false →
      b ≠ '"' → b ≠ ':' → b ≠ ',' → b ≠ '}' →
      b ∉ joinComma (dd.entries.map renderJEntry) ++ (dd.wsEnd ++ ['}']) := by
    intro b h1 h2 h3 h4 h5 h6 hm
    rcases List.mem_append.mp hm with hm2 | hm2
    · exact not_mem_joinComma b _ h5 (by
        intro r hr
        obtain ⟨e, he, rfl⟩ := List.mem_map.mp hr
        exact hrender_not b h1 h2 h3 h4 e he) hm2
    · exact hmemtail b h1 h6 hm2
  have hheadq : (((joinComma (dd.entries.map renderJEntry)) ++
      (dd.wsEnd ++ ['}'])).dropWhile isPyWs).head? ≠ some ',' := by
    cases hes : dd.entries with
    | nil =>
      rw [List.map_nil, joinComma, List.nil_append]
      rw [dropWhile_append_all isPyWs dd.wsEnd _ hwse,
        dropWhile_cons_neg isPyWs '}' _ (by decide)]
      intro hcontra
      simp only [List.head?_cons, Option.some_inj] at hcontra
      exact absurd hcontra (by decide)
    | cons e es2 =>
      have hje : ∃ jrest, joinComma ((e :: es2).map renderJEntry) =
          renderJEntry e ++ jrest := by
        cases hes2 : es2 with
        | nil =>
          rw [List.map_cons, List.map_nil, joinComma]
          exact ⟨[], by simp⟩
        | cons e3 es3 =>
          rw [List.map_cons, joinComma_cons _ _ (by simp)]
          exact ⟨_, rfl⟩
      obtain ⟨jrest, hj⟩ := hje
      rw [List.map_cons] at hj ⊢
      rw [hj, List.append_assoc]
      have := dropWhile_head_append isPyWs (renderJEntry e)
        (jrest ++ (dd.wsEnd ++ ['}'])) '"'
        (render_head_quote e (hent e (by rw [hes]; exact List.mem_cons_self e es2)).1)
      rw [this]
      intro hcontra
      simp only [Option.some_inj] at hcontra
      exact absurd hcontra (by decide)
  have hcs : ∀ b : Char, b ≠ '"' →
      searchPair ',' b (renderJDoc dd) = none := by
    intro b hb
    rw [hbody, show ('{' :: (joinComma (dd.entries.map renderJEntry) ++
        (dd.wsEnd ++ ['}']))) = ['{'] ++
      (joinComma (dd.entries.map renderJEntry) ++
        (dd.wsEnd ++ ['}'])) from rfl]
    refine searchPair_append_left ',' b ['{'] _ (by decide) ?_
    refine searchPair_comma_sep b (dd.entries.map renderJEntry)
      (dd.wsEnd ++ ['}']) hb ?_ ?_ ?_
    · intro r hr
      obtain ⟨e, he, rfl⟩ := List.mem_map.mp hr
      exact hrender_not ',' (by decide) (by decide) (by decide) (by decide)
        e he
    · intro r hr
      obtain ⟨e, he, rfl⟩ := List.mem_map.mp hr
      exact render_head_quote e (hent e he).1
    · exact hmemtail ',' (by decide) (by decide)
  have h1 : searchPair '{' ',' (renderJDoc dd) = none := by
    rw [hbody]
    refine searchPair_cons_a '{' ',' _ ?_ ?_
    · exact scanWsThen_none ',' _ hheadq
    · exact searchPair_not_mem '{' ',' _
        (hnotmem_body '{' (by decide) (by decide) (by decide) (by decide)
          (by decide) (by decide))
  have h2 : searchPair ',' '}' (renderJDoc dd) = none :=
    hcs '}' (by decide)
  have h3 : searchPair '[' ',' (renderJDoc dd) = none := by
    refine searchPair_not_mem '[' ',' _ ?_
    rw [hbody]
    intro hm
    rcases List.mem_cons.mp hm with hm2 | hm2
    · exact absurd hm2 (by decide)
    · exact hnotmem_body '[' (by decide) (by decide) (by decide) (by decide)
        (by decide) (by decide) hm2
  have h4 : searchPair ',' ']' (renderJDoc dd) = none :=
    hcs ']' (by decide)
  have h5 : searchPair ',' ',' (renderJDoc dd) = none :=
    hcs ',' (by decide)
  rw [cleanStep, rewritePair, rewritePair, rewritePair, rewritePair,
    rewritePair, h1, h2, h3, h4, h5]
  rfl

/-- `_clean_empties` leaves such a rendering unchanged. -/
theorem cleanEmpties_renderJDoc_id (dd : JDoc) (hwf : WFDoc dd)
    (hplain : ∀ e ∈ dd.entries,
      (∀ ch ∈ e.key, plainChar ch = true) ∧ plainValue e.value) :
    cleanEmpties (renderJDoc dd) = renderJDoc dd := by
  rw [cleanEmpties]
  exact cleanEmptiesGo_of_fixpoint _ _ (cleanStep_renderJDoc_none dd hwf hplain)

theorem templateEntry_wsBefore (e : JEntry) :
    (templateEntry e).wsBefore = e.wsBefore := by
  rw [templateEntry]
  split <;> rfl

theorem templateEntry_key (e : JEntry) :
    (templateEntry e).key = e.key := by
  rw [templateEntry]
  split <;> rfl

theorem templateEntry_wsAfter (e : JEntry) :
    (templateEntry e).wsAfter = e.wsAfter := by
  rw [templateEntry]
  split <;> rfl

theorem mem_joinComma_decomp (ch : Char) (rs : List (List Char))
    (h : ch ∈ joinComma rs) : (∃ r ∈ rs, ch ∈ r) ∨ ch = ',' := by
  induction rs with
  | nil => exact absurd h (List.not_mem_nil ch)
  | cons x xs ih =>
    cases hxs : xs with
    | nil =>
      subst hxs
      exact Or.inl ⟨x, List.mem_cons_self x [], h⟩
    | cons y ys =>
      subst hxs
      rw [joinComma_cons x _ (by simp)] at h
      rcases List.mem_append.mp h with h1 | h2
      · exact Or.inl ⟨x, List.mem_cons_self x _, h1⟩
      · rcases List.mem_cons.mp h2 with heq | h3
        · exact Or.inr heq
        · rcases ih h3 with ⟨r, hr, hchr⟩ | heq
          · exact Or.inl ⟨r, List.mem_cons_of_mem x hr, hchr⟩
          · exact Or.inr heq

theorem mem_joinComma_of (ch : Char) (r : List Char) (rs : List (List Char))
    (hr : r ∈ rs) (h : ch ∈ r) : ch ∈ joinComma rs := by
  induction rs with
  | nil => exact absurd hr (List.not_mem_nil r)
  | cons x xs ih =>
    cases hxs : xs with
    | nil =>
      subst hxs
      rcases List.mem_cons.mp hr with rfl | h2
      · exact h
      · exact absurd h2 (List.not_mem_nil r)
    | cons y ys =>
      subst hxs
      rw [joinComma_cons x _ (by simp)]
      rcases List.mem_cons.mp hr with rfl | h2
      · exact List.mem_append_left _ h
      · exact List.mem_append_right _ (List.mem_cons_of_mem ',' (ih h2))

theorem mem_renderJDoc_of_entry (dd : JDoc) (e : JEntry) (ch : Char)
    (he : e ∈ dd.entries) (h : ch ∈ renderJEntry e) :
    ch ∈ renderJDoc dd := by
  rw [renderJDoc]
  refine List.mem_append_left _ (List.mem_append_left _ ?_)
  refine List.mem_cons_of_mem '{' ?_
  exact mem_joinComma_of ch (renderJEntry e) _
    (List.mem_map_of_mem renderJEntry he) h

theorem mem_renderJDoc_of_wsEnd (dd : JDoc) (ch : Char)
    (h : ch ∈ dd.wsEnd) : ch ∈ renderJDoc dd := by
  rw [renderJDoc]
  exact List.mem_append_left _ (List.mem_append_right _ h)

theorem mem_render_of_wsB (e : JEntry) (ch : Char) (h : ch ∈ e.wsBefore) :
    ch ∈ renderJEntry e := by
  rw [renderJEntry]
  exact List.mem_append_left _ (List.mem_append_left _
    (List.mem_append_left _ h))

theorem mem_render_of_key (e : JEntry) (ch : Char) (h : ch ∈ e.key) :
    ch ∈ renderJEntry e := by
  rw [renderJEntry]
  exact List.mem_append_left _ (List.mem_append_left _
    (List.mem_append_right _ (List.mem_cons_of_mem '"' h)))

theorem mem_render_of_wsA (e : JEntry) (ch : Char) (h : ch ∈ e.wsAfter) :
    ch ∈ renderJEntry e := by
  rw [renderJEntry]
  refine List.mem_append_left _ (List.mem_append_right _ ?_)
  exact List.mem_cons_of_mem '"' (List.mem_cons_of_mem ':' h)

theorem mem_render_of_value (e : JEntry) (ch : Char)
    (h : ch ∈ renderJValue e.value) : ch ∈ renderJEntry e := by
  rw [renderJEntry]
  exact List.mem_append_right _ h

/-- Structural decomposition of membership in a rendered entry. -/
theorem mem_renderJEntry_decomp (ch : Char) (e : JEntry)
    (h : ch ∈ renderJEntry e) :
    ch ∈ e.wsBefore ∨ ch ∈ e.key ∨ ch ∈ e.wsAfter ∨ ch = '"' ∨ ch = ':' ∨
      (∃ v, e.value = JValue.str v ∧ ch ∈ v) ∨
      (∃ tok, e.value = JValue.other tok ∧ ch ∈ tok) := by
  obtain ⟨wsB, key, wsA, val⟩ := e
  cases val with
  | str v =>
    rw [renderJEntry, renderJValue] at h
    rcases List.mem_append.mp h with h1 | hv9
    · rcases List.mem_append.mp h1 with h2 | h6
      · rcases List.mem_append.mp h2 with hm | h3
        · exact Or.inl hm
        · rcases List.mem_cons.mp h3 with heq | hm
          · exact Or.inr (Or.inr (Or.inr (Or.inl heq)))
          · exact Or.inr (Or.inl hm)
      · rcases List.mem_cons.mp h6 with heq | h7
        · exact Or.inr (Or.inr (Or.inr (Or.inl heq)))
        · rcases List.mem_cons.mp h7 with heq | hm
          · exact Or.inr (Or.inr (Or.inr (Or.inr (Or.inl heq))))
          · exact Or.inr (Or.inr (Or.inl hm))
    · rcases List.mem_append.mp hv9 with h8 | h9
      · rcases List.mem_cons.mp h8 with heq | hm
        · exact Or.inr (Or.inr (Or.inr (Or.inl heq)))
        · exact Or.inr (Or.inr (Or.inr (Or.inr (Or.inr (Or.inl
            ⟨v, rfl, hm⟩)))))
      · rcases List.mem_cons.mp h9 with heq | h10
        · exact Or.inr (Or.inr (Or.inr (Or.inl heq)))
        · exact absurd h10 (List.not_mem_nil ch)
  | other tok =>
    rw [renderJEntry, renderJValue] at h
    rcases List.mem_append.mp h with h1 | hv9
    · rcases List.mem_append.mp h1 with h2 | h6
      · rcases List.mem_append.mp h2 with hm | h3
        · exact Or.inl hm
        · rcases List.mem_cons.mp h3 with heq | hm
          · exact Or.inr (Or.inr (Or.inr (Or.inl heq)))
          · exact Or.inr (Or.inl hm)
      · rcases List.mem_cons.mp h6 with heq | h7
        · exact Or.inr (Or.inr (Or.inr (Or.inl heq)))
        · rcases List.mem_cons.mp h7 with heq | hm
          · exact Or.inr (Or.inr (Or.inr (Or.inr (Or.inl heq))))
          · exact Or.inr (Or.inr (Or.inl hm))
    · exact Or.inr (Or.inr (Or.inr (Or.inr (Or.inr (Or.inr
        ⟨tok, rfl, hv9⟩)))))

/-- The rendered template carries no carriage return when the source
document carries none. -/
theorem cr_not_mem_template (d : JDoc) (hcr : '\r' ∉ renderJDoc d) :
    '\r' ∉ renderJDoc (templateDoc d) := by
  intro h
  rw [renderJDoc] at h
  rcases List.mem_append.mp h with h1 | h2
  swap
  · rcases List.mem_cons.mp h2 with heq | h3
    · exact absurd heq (by decide)
    · exact absurd h3 (List.not_mem_nil _)
  rcases List.mem_append.mp h1 with h3 | h4
  swap
  · exact hcr (mem_renderJDoc_of_wsEnd d '\r' h4)
  rcases List.mem_cons.mp h3 with heq | h5
  · exact absurd heq (by decide)
  rcases mem_joinComma_decomp '\r' _ h5 with ⟨r, hr, hchr⟩ | heq
  swap
  · exact absurd heq (by decide)
  obtain ⟨te, hte, rfl⟩ := List.mem_map.mp hr
  have hte2 : te ∈ (templateDoc d).entries := hte
  rw [templateDoc] at hte2
  obtain ⟨e, he, rfl⟩ := List.mem_map.mp hte2
  rcases mem_renderJEntry_decomp '\r' (templateEntry e) hchr with
    hm | hm | hm | heq | heq | ⟨v, hveq, hmv⟩ | ⟨tok, hveq, hmv⟩
  · rw [templateEntry_wsBefore] at hm
    exact hcr (mem_renderJDoc_of_entry d e '\r' he (mem_render_of_wsB e _ hm))
  · rw [templateEntry_key] at hm
    exact hcr (mem_renderJDoc_of_entry d e '\r' he (mem_render_of_key e _ hm))
  · rw [templateEntry_wsAfter] at hm
    exact hcr (mem_renderJDoc_of_entry d e '\r' he (mem_render_of_wsA e _ hm))
  · exact absurd heq (by decide)
  · exact absurd heq (by decide)
  · by_cases hx : shouldExtract e = true
    · rw [templateEntry, if_pos hx] at hveq
      have hvp : v = templateReplacement (escapeKey e.key) false := by
        have := hveq
        injection this with hh
        exact hh.symm
      rw [hvp] at hmv
      exact cr_not_mem_templateReplacement _ _ hmv
    · rw [templateEntry, if_neg hx] at hveq
      refine hcr (mem_renderJDoc_of_entry d e '\r' he
        (mem_render_of_value e '\r' ?_))
      rw [hveq, renderJValue]
      exact List.mem_append_left _ (List.mem_cons_of_mem '"' hmv)
  · by_cases hx : shouldExtract e = true
    · rw [templateEntry, if_pos hx] at hveq
      exact absurd hveq (by intro hcontra; injection hcontra)
    · rw [templateEntry, if_neg hx] at hveq
      refine hcr (mem_renderJDoc_of_entry d e '\r' he
        (mem_render_of_value e '\r' ?_))
      rw [hveq, renderJValue]
      exact hmv

/-- The compile half of the round-trip: compiling the template of a
well-behaved flat document against its own extraction stringset
reproduces the document byte-for-byte. -/
theorem compile_template_ok (d : JDoc)
    (hwf : WFDoc d) (hcr : '\r' ∉ renderJDoc d)
    (hstr1 : ∀ e ∈ d.entries, ∀ v, e.value = JValue.str v → pyStrip v ≠ [])
    (hplain : ∀ e ∈ d.entries,
      (∀ ch ∈ e.key, plainChar ch = true) ∧ plainValue e.value) :
    compileFlat (renderJDoc (templateDoc d)) (expectedStringset d.entries 0) =
      Except.ok (renderJDoc d) := by
  have hwft : WFDoc (templateDoc d) := wfdoc_templateDoc d hwf
  have hcrt : '\r' ∉ renderJDoc (templateDoc d) := cr_not_mem_template d hcr
  have hentries : (templateDoc d).entries = d.entries.map templateEntry := rfl
  have hplaint : ∀ e ∈ (templateDoc d).entries,
      (∀ ch ∈ e.key, plainChar ch = true) ∧ plainValue e.value := by
    intro te hte
    rw [hentries] at hte
    obtain ⟨e, he, rfl⟩ := List.mem_map.mp hte
    refine ⟨by rw [templateEntry_key]; exact (hplain e he).1, ?_⟩
    rw [templateEntry]
    by_cases hx : shouldExtract e = true
    · rw [if_pos hx]
      exact plain_templateReplacement _ _
    · rw [if_neg hx]
      exact (hplain e he).2
  have hpassA : replaceTranslations (renderJDoc (templateDoc d))
      (fakeStringset (expectedStringset d.entries 0)) false =
      Except.ok (renderJDoc (templateDoc d)) := by
    rw [replaceTranslations_ok (templateDoc d) _ false hwft hcrt
      (by rw [hentries]; exact matched_template_fake d.entries 0 hstr1)]
    rw [show (templateDoc d).entries = d.entries.map templateEntry from rfl,
      substMatched_fake_id d.entries 0 hstr1]
    rfl
  have hpassB : replaceTranslations (renderJDoc (templateDoc d))
      (expectedStringset d.entries 0) true =
      Except.ok (renderJDoc d) := by
    rw [replaceTranslations_ok (templateDoc d) _ true hwft hcrt
      (by rw [hentries]; exact matched_template_real d.entries 0 hstr1)]
    rw [show (templateDoc d).entries = d.entries.map templateEntry from rfl,
      substMatched_real d.entries 0 hstr1]
    rfl
  rw [compileFlat, hpassA]
  dsimp only
  rw [cleanEmpties_renderJDoc_id (templateDoc d) hwft hplaint]
  exact hpassB

/-- Counterexample to the unconditional round-trip: a unit with an empty
string value parses to an identical template with an empty stringset,
but compile removes the unit and collapses the object to an empty one. -/
theorem C1_counterexample :
    parseFlat ['{', '"', 'a', '"', ':', ' ', '"', '"', '}'] =
      Except.ok (['{', '"', 'a', '"', ':', ' ', '"', '"', '}'],
        ([] : List OpenString)) ∧
    compileFlat ['{', '"', 'a', '"', ':', ' ', '"', '"', '}'] [] =
      Except.ok ['{', '}'] ∧
    (['{', '}'] : List Char) ≠ ['{', '"', 'a', '"', ':', ' ', '"', '"', '}'] :=
  ⟨by decide, by decide, by decide⟩

/-- C1 (amended): the round-trip `compile ∘ parse = id` holds for flat
documents whose string values all survive `strip()` (and avoid the
pluralized envelope), with distinct escaped keys and punctuation-free
keys and scalar tokens; the counterexample above shows the unqualified
claim fails on empty values. -/
theorem C1_parse_compile_roundtrip (d : JDoc)
    (hwf : WFDoc d) (hcr : '\r' ∉ renderJDoc d)
    (hnodup : (d.entries.map fun e => escapeKey e.key).Nodup)
    (hstr : ∀ e ∈ d.entries, ∀ v, e.value = JValue.str v →
      pyStrip v ≠ [] ∧ isPluralShaped v = false)
    (hplain : ∀ e ∈ d.entries,
      (∀ ch ∈ e.key, plainChar ch = true) ∧ plainValue e.value) :
    parseFlat (renderJDoc d) =
      Except.ok (renderJDoc (templateDoc d), expectedStringset d.entries 0) ∧
    compileFlat (renderJDoc (templateDoc d)) (expectedStringset d.entries 0) =
      Except.ok (renderJDoc d) := by
  have hstr1 : ∀ e ∈ d.entries, ∀ v, e.value = JValue.str v →
      pyStrip v ≠ [] := fun e he v hv => (hstr e he v hv).1
  have hpl1 : ∀ e ∈ d.entries, ∀ v, e.value = JValue.str v →
      pyStrip v ≠ [] → isPluralShaped v = false :=
    fun e he v hv _ => (hstr e he v hv).2
  exact ⟨parseFlat_ok d hwf hcr hnodup hpl1,
    compile_template_ok d hwf hcr hstr1 hplain⟩

/-- Witness for the amended C1 at the one-entry document `{"a": "x"}`. -/
theorem C1_parse_compile_roundtrip_witness :
    parseFlat (renderJDoc sampleDoc1) =
      Except.ok (renderJDoc (templateDoc sampleDoc1),
        expectedStringset sampleDoc1.entries 0) ∧
    compileFlat (renderJDoc (templateDoc sampleDoc1))
      (expectedStringset sampleDoc1.entries 0) =
      Except.ok (renderJDoc sampleDoc1) :=
  C1_parse_compile_roundtrip sampleDoc1 (by decide) (by decide) (by decide)
    (by
      intro e he v hv
      rcases List.mem_cons.mp he with rfl | he2
      · injection hv with hh
        subst hh
        decide
      · exact absurd he2 (List.not_mem_nil e))
    (by decide)

/-- One `_insert_from_dict` step on a string unit with no matching
stringset entry: the unit's span (from just after its leading
whitespace through its closing quote) is removed via the section
mechanism, no error occurs, and the stringset index does not advance. -/
theorem insert_one_mismatch (st : CompState) (e : JEntry) (v : List Char)
    (ss : List OpenString) (isReal : Bool)
    (c pfx tail2 : List Char)
    (he : e.value = JValue.str v)
    (hmm : ∀ s, ss.get? st.ssIdx = some s →
      (¬(s.pluralized = true ∧
        containsInfix (osTemplateReplacement s) v = true) ∧
       v ≠ osTemplateReplacement s))
    (hsrc : st.t.source = c)
    (hc : c = pfx ++ renderJEntry e ++ tail2)
    (hptr : st.t.ptr ≤ pfx.length) :
    ∃ st₂, insertItem ss isReal { st with t := (st.t.copyUntil
        ((pfx.length + e.wsBefore.length + 1) - 1)).markSectionStart }
        ⟨e.key, pfx.length + e.wsBefore.length + 1, e.value,
          entryValuePos e pfx.length⟩ = (st₂, false) ∧
      st₂.t.source = c ∧ st₂.t.newlineTypeDOS = st.t.newlineTypeDOS ∧
      st₂.t.ptr = pfx.length + (renderJEntry e).length ∧
      flattenDest st₂.t.destination =
        flattenDest st.t.destination ++ (c.take pfx.length).drop st.t.ptr ++
          e.wsBefore ∧
      st₂.ssIdx = st.ssIdx := by
  have hkp : (pfx.length + e.wsBefore.length + 1) - 1 =
      pfx.length + e.wsBefore.length := by omega
  have hvp : entryValuePos e pfx.length = pfx.length + e.wsBefore.length +
      e.key.length + e.wsAfter.length + 4 := by
    rw [entryValuePos, he]
  have hrender : renderJEntry e = e.wsBefore ++ '"' :: e.key ++ '"' ::
      ':' :: e.wsAfter ++ '"' :: v ++ ['"'] := by
    rw [renderJEntry, he, renderJValue]
    simp [List.cons_append, List.append_assoc]
  have hrL : (renderJEntry e).length = e.wsBefore.length + e.key.length +
      e.wsAfter.length + v.length + 5 := by
    rw [hrender]
    simp
    omega
  have hstep := insertItem_mismatch ss isReal
    { st with t := (st.t.copyUntil ((pfx.length + e.wsBefore.length + 1) -
      1)).markSectionStart }
    ⟨e.key, pfx.length + e.wsBefore.length + 1, e.value,
      entryValuePos e pfx.length⟩ v he hmm
  refine ⟨_, hstep, ?_, ?_, ?_, ?_, rfl⟩
  · show (copyUntilAndRemoveSection ((st.t.copyUntil ((pfx.length +
      e.wsBefore.length + 1) - 1)).markSectionStart)
      (entryValuePos e pfx.length + v.length + 1)).source = c
    rw [copyUntilAndRemoveSection, Transcriber.removeSection]
    cases hfind : findLastSectionStart (((((st.t.copyUntil ((pfx.length +
        e.wsBefore.length + 1) - 1)).markSectionStart).copyUntil
        (entryValuePos e pfx.length + v.length + 1)).markSectionEnd)).destination 0 with
    | none => exact hsrc
    | some s => exact hsrc
  · show (copyUntilAndRemoveSection ((st.t.copyUntil ((pfx.length +
      e.wsBefore.length + 1) - 1)).markSectionStart)
      (entryValuePos e pfx.length + v.length + 1)).newlineTypeDOS =
      st.t.newlineTypeDOS
    rw [copyUntilAndRemoveSection, Transcriber.removeSection]
    cases hfind : findLastSectionStart (((((st.t.copyUntil ((pfx.length +
        e.wsBefore.length + 1) - 1)).markSectionStart).copyUntil
        (entryValuePos e pfx.length + v.length + 1)).markSectionEnd)).destination 0 with
    | none => rfl
    | some s => rfl
  · show (copyUntilAndRemoveSection ((st.t.copyUntil ((pfx.length +
      e.wsBefore.length + 1) - 1)).markSectionStart)
      (entryValuePos e pfx.length + v.length + 1)).ptr =
      pfx.length + (renderJEntry e).length
    rw [copyUntilAndRemoveSection, Transcriber.removeSection]
    cases hfind : findLastSectionStart (((((st.t.copyUntil ((pfx.length +
        e.wsBefore.length + 1) - 1)).markSectionStart).copyUntil
        (entryValuePos e pfx.length + v.length + 1)).markSectionEnd)).destination 0 with
    | none =>
      show entryValuePos e pfx.length + v.length + 1 = _
      rw [hvp, hrL]
      omega
    | some s =>
      show entryValuePos e pfx.length + v.length + 1 = _
      rw [hvp, hrL]
      omega
  · show flattenDest ((copyUntilAndRemoveSection ((st.t.copyUntil
      ((pfx.length + e.wsBefore.length + 1) - 1)).markSectionStart)
      (entryValuePos e pfx.length + v.length + 1)).destination) = _
    rw [copyUntilAndRemoveSection]
    rw [removeSection_last _ (st.t.destination ++
        [Chunk.text (st.t.sliceUntil ((pfx.length + e.wsBefore.length + 1) -
          1))])
        ((((st.t.copyUntil ((pfx.length + e.wsBefore.length + 1) -
          1)).markSectionStart)).sliceUntil
          (entryValuePos e pfx.length + v.length + 1))
        (by
          show st.t.destination ++ [Chunk.text _] ++ [Chunk.sectionStart] ++
            [Chunk.text _] ++ [Chunk.sectionEnd] = _
          simp [List.append_assoc])]
    show flattenDest ((st.t.destination ++ [Chunk.text (st.t.sliceUntil
      ((pfx.length + e.wsBefore.length + 1) - 1))]) ++
      List.replicate 3 Chunk.tomb) = _
    rw [flattenDest_append, flattenDest_append, flattenDest_text,
      flattenDest_tombs, List.append_nil, Transcriber.sliceUntil, hkp, hsrc]
    have hs1 : (c.take (pfx.length + e.wsBefore.length)).drop st.t.ptr =
        (c.take pfx.length).drop st.t.ptr ++ e.wsBefore := by
      rw [slice_split c st.t.ptr pfx.length (pfx.length + e.wsBefore.length)
        hptr (by omega)]
      congr 1
      rw [hc, hrender]
      rw [show pfx ++ (e.wsBefore ++ '"' :: e.key ++ '"' :: ':' ::
          e.wsAfter ++ '"' :: v ++ ['"']) ++ tail2 =
        pfx ++ e.wsBefore ++ (('"' :: e.key ++ '"' :: ':' :: e.wsAfter ++
          '"' :: v ++ ['"']) ++ tail2) by
          simp [List.cons_append, List.append_assoc]]
      exact slice_seg pfx e.wsBefore _ pfx.length e.wsBefore.length rfl rfl
    rw [hs1, ← List.append_assoc]

/-- `_replace_translations` on a two-unit template whose first unit has
no matching stringset entry at read position 0 and whose second unit
matches: the first unit's span is removed (its leading whitespace and
the separator comma survive), the second is substituted; no error. -/
theorem replaceTranslations_2_mismatch (dt : JDoc) (f1 f2 : JEntry)
    (V1 V2 : List Char) (ss : List OpenString) (isReal : Bool)
    (s : OpenString)
    (hent : dt.entries = [f1, f2])
    (hwf : WFDoc dt) (hcr : '\r' ∉ renderJDoc dt)
    (hv1 : f1.value = JValue.str V1) (hv2 : f2.value = JValue.str V2)
    (hget : ss.get? 0 = some s) (hspl : s.pluralized = false)
    (hmm1 : V1 ≠ osTemplateReplacement s)
    (hmatch2 : V2 = osTemplateReplacement s) :
    replaceTranslations (renderJDoc dt) ss isReal =
      Except.ok ('{' :: f1.wsBefore ++ ',' ::
        (renderJEntry { f2 with value := JValue.str (osString s) } ++
          (dt.wsEnd ++ ['}']))) := by
  have ht0 : Transcriber.init (renderJDoc dt) =
      { source := renderJDoc dt, destination := [], ptr := 0,
        newlineCount := 0, newlineTypeDOS := false } := init_no_cr _ hcr
  have hjoin : joinComma (dt.entries.map renderJEntry) =
      renderJEntry f1 ++ ',' :: renderJEntry f2 := by
    rw [hent]
    rfl
  have hc1 : renderJDoc dt = ['{'] ++ renderJEntry f1 ++
      (',' :: (renderJEntry f2 ++ (dt.wsEnd ++ ['}']))) := by
    rw [renderJDoc, hjoin]
    simp [List.cons_append, List.append_assoc]
  have hc2 : renderJDoc dt = ((['{'] : List Char) ++ renderJEntry f1 ++
      [',']) ++ renderJEntry f2 ++ (dt.wsEnd ++ ['}']) := by
    rw [hc1]
    simp [List.cons_append, List.append_assoc]
  obtain ⟨st₂, hstep1, hq1, hq2, hq3, hq4, hq5⟩ :=
    insert_one_mismatch
      { t := { source := renderJDoc dt, destination := [], ptr := 0, newlineCount := 0, newlineTypeDOS := false }, ssIdx := 0 }
      f1 V1 ss isReal (renderJDoc dt) ['{']
      (',' :: (renderJEntry f2 ++ (dt.wsEnd ++ ['}'])))
      hv1
      (by
        intro s' hs'
        rw [show ss.get? 0 = some s from hget] at hs'
        injection hs' with hs2
        subst hs2
        exact ⟨by rw [hspl]; rintro ⟨ha, hb⟩; exact Bool.false_ne_true ha,
          hmm1⟩)
      rfl hc1 (by simp)
  obtain ⟨st₃, hstep2, hw1, hw2, hw3, hw4, hw5⟩ :=
    insert_one_match st₂ f2 V2 ss isReal s (renderJDoc dt)
      ((['{'] : List Char) ++ renderJEntry f1 ++ [','])
      (dt.wsEnd ++ ['}'])
      hv2 (by rw [hq5]; exact hget) hspl hmatch2 hq1 hc2
      (by
        rw [hq3]
        simp only [List.length_append, List.length_cons, List.length_nil,
          List.length_singleton]
        omega)
  rw [replaceTranslations, ht0]
  dsimp only
  rw [reparse_complete dt hwf]
  dsimp only
  rw [show posEntries dt = posEntriesGo dt.entries 1 from rfl, hent]
  rw [show (1 : Nat) = (['{'] : List Char).length from rfl]
  rw [posEntriesGo, posEntriesGo, posEntriesGo]
  rw [insertFromDict_cons, hstep1]
  dsimp only
  rw [show (['{'] : List Char).length + (renderJEntry f1).length + 1 =
    ((['{'] : List Char) ++ renderJEntry f1 ++ [',']).length by
      simp only [List.length_append, List.length_cons, List.length_nil]]
  rw [insertFromDict_cons, hstep2]
  dsimp only
  rw [insertFromDict_nil]
  dsimp only
  congr 1
  rw [getDestination_unix _ (by
    show (st₃.t.copyUntil (renderJDoc dt).length).newlineTypeDOS = false
    rw [show (st₃.t.copyUntil (renderJDoc dt).length).newlineTypeDOS =
      st₃.t.newlineTypeDOS from rfl, hw2, hq2])]
  show flattenDest (st₃.t.destination ++
    [Chunk.text (st₃.t.sliceUntil (renderJDoc dt).length)]) = _
  rw [flattenDest_append, flattenDest_text, Transcriber.sliceUntil, hw1]
  have hXle : ((['{'] : List Char) ++ renderJEntry f1 ++ [',']).length +
      (renderJEntry f2).length ≤ (renderJDoc dt).length := by
    conv_rhs => rw [hc2]
    simp only [List.length_append, List.length_cons, List.length_nil]
    omega
  rw [slice_split (renderJDoc dt) st₃.t.ptr
    (((['{'] : List Char) ++ renderJEntry f1 ++ [',']).length +
      (renderJEntry f2).length)
    (renderJDoc dt).length hw3 hXle]
  rw [← List.append_assoc, hw4]
  have hdropXfin : ((renderJDoc dt).take (renderJDoc dt).length).drop
      (((['{'] : List Char) ++ renderJEntry f1 ++ [',']).length +
        (renderJEntry f2).length) = dt.wsEnd ++ ['}'] := by
    rw [List.take_length]
    conv_lhs => rw [hc2]
    rw [show ((['{'] : List Char) ++ renderJEntry f1 ++ [',']) ++
        renderJEntry f2 ++ (dt.wsEnd ++ ['}']) =
      (((['{'] : List Char) ++ renderJEntry f1 ++ [',']) ++
        renderJEntry f2) ++ (dt.wsEnd ++ ['}']) by
        simp [List.append_assoc]]
    exact List.drop_left' (by simp only [List.length_append])
  rw [hdropXfin]
  have hcomma : ((renderJDoc dt).take
      ((['{'] : List Char) ++ renderJEntry f1 ++ [',']).length).drop
      st₂.t.ptr = [','] := by
    rw [hq3]
    conv_lhs => rw [hc2]
    rw [show ((['{'] : List Char) ++ renderJEntry f1 ++ [',']) ++
        renderJEntry f2 ++ (dt.wsEnd ++ ['}']) =
      ((['{'] : List Char) ++ renderJEntry f1) ++
        ',' :: (renderJEntry f2 ++ (dt.wsEnd ++ ['}'])) by
        simp [List.cons_append, List.append_assoc]]
    rw [show ((['{'] : List Char) ++ renderJEntry f1 ++ [',']).length =
      ((['{'] : List Char) ++ renderJEntry f1).length + 1 by simp]
    rw [show (['{'] : List Char).length + (renderJEntry f1).length =
      ((['{'] : List Char) ++ renderJEntry f1).length by
        simp only [List.length_append]]
    exact slice_one _ _ _ _ rfl
  rw [hcomma, hq4]
  have htake1 : ((renderJDoc dt).take (['{'] : List Char).length).drop 0 =
      ['{'] := by
    rw [List.drop_zero]
    conv_lhs => rw [hc1]
    rw [show (['{'] : List Char) ++ renderJEntry f1 ++
        (',' :: (renderJEntry f2 ++ (dt.wsEnd ++ ['}']))) =
      (['{'] : List Char) ++ (renderJEntry f1 ++
        (',' :: (renderJEntry f2 ++ (dt.wsEnd ++ ['}'])))) by
        simp [List.append_assoc]]
    exact List.take_left' rfl
  show flattenDest [] ++ ((renderJDoc dt).take
      (['{'] : List Char).length).drop 0 ++ f1.wsBefore ++ [','] ++
      renderJEntry { f2 with value := JValue.str (osString s) } ++
      (dt.wsEnd ++ ['}']) = _
  rw [htake1]
  show ['{'] ++ f1.wsBefore ++ [','] ++
      renderJEntry { f2 with value := JValue.str (osString s) } ++
      (dt.wsEnd ++ ['}']) =
    '{' :: f1.wsBefore ++ ',' ::
      (renderJEntry { f2 with value := JValue.str (osString s) } ++
        (dt.wsEnd ++ ['}']))
  simp [List.cons_append, List.append_assoc]


theorem scanWsThen_ws_then (b : Char) (ws z : List Char)
    (hws : ∀ c ∈ ws, isPyWs c = true) (hb : isPyWs b = false) :
    scanWsThen b (ws ++ b :: z) = some (ws.length + 1) := by
  induction ws with
  | nil =>
    rw [List.nil_append, scanWsThen, if_neg (by rw [hb]; exact
      Bool.false_ne_true), if_pos rfl]
    rfl
  | cons c rest ih =>
    rw [List.cons_append, scanWsThen,
      if_pos (hws c (List.mem_cons_self c rest)),
      ih (fun c' hc' => hws c' (List.mem_cons_of_mem c hc'))]
    rfl

theorem searchPair_brace_ws (wsB Z : List Char)
    (hws : ∀ c ∈ wsB, isPyWs c = true) :
    searchPair '{' ',' ('{' :: (wsB ++ ',' :: Z)) =
      some (0, wsB.length + 2) := by
  rw [searchPair, if_pos rfl, scanWsThen_ws_then ',' wsB Z hws (by decide)]

theorem cleanStep_brace_ws (wsB Z : List Char)
    (hws : ∀ c ∈ wsB, isPyWs c = true) :
    cleanStep ('{' :: (wsB ++ ',' :: Z)) = some ('{' :: Z) := by
  have hrw : rewritePair '{' ',' '{' ('{' :: (wsB ++ ',' :: Z)) =
      some ('{' :: Z) := by
    rw [rewritePair, searchPair_brace_ws wsB Z hws]
    show some (('{' :: (wsB ++ ',' :: Z)).take 0 ++ ['{'] ++
      ('{' :: (wsB ++ ',' :: Z)).drop (wsB.length + 2)) = some ('{' :: Z)
    rw [List.take_zero, List.nil_append]
    rw [show ('{' :: (wsB ++ ',' :: Z)) = ('{' :: wsB ++ [',']) ++ Z by
      simp [List.cons_append, List.append_assoc]]
    rw [List.drop_left' (by simp)]
    rfl
  rw [cleanStep, hrw]
  rfl

theorem cleanEmpties_one_step (nt nt2 : List Char)
    (h1 : cleanStep nt = some nt2) (h2 : cleanStep nt2 = none)
    (hlen : 1 ≤ nt.length) : cleanEmpties nt = nt2 := by
  rw [cleanEmpties]
  cases hn : nt.length with
  | zero => omega
  | succ n =>
    rw [cleanEmptiesGo, h1]
    exact cleanEmptiesGo_of_fixpoint n nt2 h2

theorem jentry_update_eta (e : JEntry) (jv : JValue) (h : e.value = jv) :
    { e with value := jv } = e := by
  obtain ⟨a, b, c2, val⟩ := e
  dsimp only at h
  rw [show ({ wsBefore := a, key := b, wsAfter := c2, value := val } : JEntry) = { wsBefore := a, key := b, wsAfter := c2, value := val } from rfl]
  rw [← h]

theorem templateEntry_update (e : JEntry) (jv : JValue) (h : e.value = jv) :
    { templateEntry e with value := jv } = e := by
  rw [show ({ templateEntry e with value := jv } : JEntry) =
    { wsBefore := (templateEntry e).wsBefore, key := (templateEntry e).key,
      wsAfter := (templateEntry e).wsAfter, value := jv } from rfl,
    templateEntry_wsBefore, templateEntry_key, templateEntry_wsAfter]
  obtain ⟨a, b, c2, val⟩ := e
  dsimp only at h
  rw [h]

/-- Carriage-return freeness transfers to any document built from a
subset of the entries and the same trailing whitespace. -/
theorem cr_not_mem_doc_sub (dd dd2 : JDoc)
    (hsub : ∀ e ∈ dd2.entries, e ∈ dd.entries)
    (hws : dd2.wsEnd = dd.wsEnd)
    (hcr : '\r' ∉ renderJDoc dd) : '\r' ∉ renderJDoc dd2 := by
  intro h
  rw [renderJDoc] at h
  rcases List.mem_append.mp h with h1 | h2
  swap
  · rcases List.mem_cons.mp h2 with heq | h3
    · exact absurd heq (by decide)
    · exact absurd h3 (List.not_mem_nil _)
  rcases List.mem_append.mp h1 with h3 | h4
  swap
  · rw [hws] at h4
    exact hcr (mem_renderJDoc_of_wsEnd dd '\r' h4)
  rcases List.mem_cons.mp h3 with heq | h5
  · exact absurd heq (by decide)
  rcases mem_joinComma_decomp '\r' _ h5 with ⟨r, hr, hchr⟩ | heq
  swap
  · exact absurd heq (by decide)
  obtain ⟨e, he, rfl⟩ := List.mem_map.mp hr
  exact hcr (mem_renderJDoc_of_entry dd e '\r' (hsub e he) hchr)

/-- `compile` on a two-unit template with a stringset whose head matches
only the second unit: no error is raised, the first unit's span is
removed, the dangling separator is collapsed by `_clean_empties`, and
the output is the one-entry document. -/
theorem compile2_first_removed (d : JDoc) (e1 e2 : JEntry)
    (v1 v2 : List Char) (s : OpenString) (ssTail : List OpenString)
    (hent : d.entries = [e1, e2])
    (hwf : WFDoc d) (hcr : '\r' ∉ renderJDoc d)
    (hv1 : e1.value = JValue.str v1) (hv2 : e2.value = JValue.str v2)
    (hstr : ∀ e ∈ d.entries, ∀ v, e.value = JValue.str v →
      pyStrip v ≠ [] ∧ isPluralShaped v = false)
    (hplain : ∀ e ∈ d.entries,
      (∀ ch ∈ e.key, plainChar ch = true) ∧ plainValue e.value)
    (hPP : templateReplacement (escapeKey e1.key) false ≠
      templateReplacement (escapeKey e2.key) false)
    (hk2 : s.key = escapeKey e2.key) (hp2 : s.payload = Payload.plain v2)
    (hpl2 : s.pluralized = false) :
    compileFlat (renderJDoc (templateDoc d)) (s :: ssTail) =
      Except.ok (renderJDoc { entries := [e2], wsEnd := d.wsEnd }) := by
  have he1 : e1 ∈ d.entries := by rw [hent]; exact List.mem_cons_self _ _
  have he2 : e2 ∈ d.entries := by
    rw [hent]
    exact List.mem_cons_of_mem _ (List.mem_cons_self _ _)
  have hx1 : shouldExtract e1 = true :=
    shouldExtract_of_strip e1 v1 hv1 (hstr e1 he1 v1 hv1).1
  have hx2 : shouldExtract e2 = true :=
    shouldExtract_of_strip e2 v2 hv2 (hstr e2 he2 v2 hv2).1
  have hf1v : (templateEntry e1).value =
      JValue.str (templateReplacement (escapeKey e1.key) false) := by
    rw [templateEntry, if_pos hx1]
  have hf2v : (templateEntry e2).value =
      JValue.str (templateReplacement (escapeKey e2.key) false) := by
    rw [templateEntry, if_pos hx2]
  have hentt : (templateDoc d).entries =
      [templateEntry e1, templateEntry e2] := by
    show d.entries.map templateEntry = _
    rw [hent]
    rfl
  have hwft : WFDoc (templateDoc d) := wfdoc_templateDoc d hwf
  have hcrt : '\r' ∉ renderJDoc (templateDoc d) := cr_not_mem_template d hcr
  have hos : osTemplateReplacement s =
      templateReplacement (escapeKey e2.key) false := by
    rw [osTemplateReplacement, hk2, hpl2]
  have hosfake : osTemplateReplacement { key := s.key, payload := Payload.plain (osTemplateReplacement s), order := s.order, pluralized := s.pluralized } = templateReplacement (escapeKey e2.key) false := by
    rw [show osTemplateReplacement { key := s.key, payload := Payload.plain (osTemplateReplacement s), order := s.order, pluralized := s.pluralized } = templateReplacement s.key s.pluralized from rfl]
    rw [hk2, hpl2]
  have hmemf2 : templateEntry e2 ∈ (templateDoc d).entries := by
    rw [hentt]
    exact List.mem_cons_of_mem _ (List.mem_cons_self _ _)
  have hpassA : replaceTranslations (renderJDoc (templateDoc d))
      (fakeStringset (s :: ssTail)) false =
      Except.ok ('{' :: (templateEntry e1).wsBefore ++ ',' ::
        (renderJEntry (templateEntry e2) ++
          ((templateDoc d).wsEnd ++ ['}']))) := by
    rw [show fakeStringset (s :: ssTail) = ({ key := s.key, payload := Payload.plain (osTemplateReplacement s), order := s.order, pluralized := s.pluralized } : OpenString) :: fakeStringset ssTail from rfl]
    rw [replaceTranslations_2_mismatch (templateDoc d) (templateEntry e1)
      (templateEntry e2) (templateReplacement (escapeKey e1.key) false)
      (templateReplacement (escapeKey e2.key) false)
      (({ key := s.key, payload := Payload.plain (osTemplateReplacement s), order := s.order, pluralized := s.pluralized } : OpenString) :: fakeStringset ssTail)
      false
      ({ key := s.key, payload := Payload.plain (osTemplateReplacement s), order := s.order, pluralized := s.pluralized } : OpenString)
      hentt hwft hcrt hf1v hf2v rfl hpl2
      (by rw [hosfake]; exact hPP)
      hosfake.symm]
    rw [show osString ({ key := s.key, payload := Payload.plain (osTemplateReplacement s), order := s.order, pluralized := s.pluralized } : OpenString) = osTemplateReplacement s from rfl]
    rw [hos]
    rw [jentry_update_eta (templateEntry e2)
      (JValue.str (templateReplacement (escapeKey e2.key) false)) hf2v]
  have hwsB1 : ∀ c ∈ (templateEntry e1).wsBefore, isPyWs c = true := by
    rw [templateEntry_wsBefore]
    exact (hwf.1 e1 he1).1
  have hdoc2 : '{' :: (renderJEntry (templateEntry e2) ++
      ((templateDoc d).wsEnd ++ ['}'])) =
      renderJDoc { entries := [templateEntry e2], wsEnd := d.wsEnd } := by
    rw [renderJDoc]
    rw [show joinComma (({ entries := [templateEntry e2], wsEnd := d.wsEnd } : JDoc).entries.map renderJEntry) = renderJEntry (templateEntry e2) from rfl]
    rw [show ({ entries := [templateEntry e2], wsEnd := d.wsEnd } : JDoc).wsEnd = d.wsEnd from rfl]
    rw [show ((templateDoc d)).wsEnd = d.wsEnd from rfl]
    simp [List.cons_append, List.append_assoc]
  have hdoc2wf : WFDoc { entries := [templateEntry e2], wsEnd := d.wsEnd } := by
    refine ⟨?_, hwft.2⟩
    intro e' he'
    rcases List.mem_cons.mp he' with rfl | he3
    · exact hwft.1 (templateEntry e2) hmemf2
    · exact absurd he3 (List.not_mem_nil e')
  have hplain2 : ∀ e ∈ ({ entries := [templateEntry e2], wsEnd := d.wsEnd } : JDoc).entries, (∀ ch ∈ e.key, plainChar ch = true) ∧ plainValue e.value := by
    intro e' he'
    rcases List.mem_cons.mp he' with rfl | he3
    · refine ⟨by rw [templateEntry_key]; exact (hplain e2 he2).1, ?_⟩
      show plainValue (templateEntry e2).value
      rw [hf2v]
      exact plain_templateReplacement _ _
    · exact absurd he3 (List.not_mem_nil e')
  have hclean : cleanEmpties ('{' :: (templateEntry e1).wsBefore ++ ',' ::
      (renderJEntry (templateEntry e2) ++ ((templateDoc d).wsEnd ++ ['}']))) =
      renderJDoc { entries := [templateEntry e2], wsEnd := d.wsEnd } := by
    rw [show '{' :: (templateEntry e1).wsBefore ++ ',' ::
        (renderJEntry (templateEntry e2) ++ ((templateDoc d).wsEnd ++ ['}'])) =
      '{' :: ((templateEntry e1).wsBefore ++ ',' ::
        (renderJEntry (templateEntry e2) ++ ((templateDoc d).wsEnd ++ ['}'])))
      by simp [List.cons_append, List.append_assoc]]
    refine cleanEmpties_one_step _
      (renderJDoc { entries := [templateEntry e2], wsEnd := d.wsEnd })
      ?_ ?_ (by simp)
    · rw [cleanStep_brace_ws _ _ hwsB1, hdoc2]
    · exact cleanStep_renderJDoc_none _ hdoc2wf hplain2
  have hcr2 : '\r' ∉ renderJDoc
      { entries := [templateEntry e2], wsEnd := d.wsEnd } := by
    refine cr_not_mem_doc_sub (templateDoc d) _ ?_ rfl hcrt
    intro e' he'
    rcases List.mem_cons.mp he' with rfl | he3
    · exact hmemf2
    · exact absurd he3 (List.not_mem_nil e')
  have hm2 : MatchedEntries
      ({ entries := [templateEntry e2], wsEnd := d.wsEnd } : JDoc).entries
      (s :: ssTail) := by
    refine (matchedEntries_cons_str (templateEntry e2) [] (s :: ssTail)
      (templateReplacement (escapeKey e2.key) false) hf2v).mpr ?_
    exact ⟨s, ssTail, rfl, hpl2, hos.symm, trivial⟩
  have hosS : osString s = v2 := by
    show (match s.payload with
      | Payload.plain x => x
      | Payload.plural _ => []) = v2
    rw [hp2]
  have hpassB : replaceTranslations (renderJDoc
      { entries := [templateEntry e2], wsEnd := d.wsEnd }) (s :: ssTail)
      true = Except.ok (renderJDoc { entries := [e2], wsEnd := d.wsEnd }) := by
    rw [replaceTranslations_ok _ (s :: ssTail) true hdoc2wf hcr2 hm2]
    rw [show substMatched ({ entries := [templateEntry e2], wsEnd := d.wsEnd } : JDoc).entries (s :: ssTail) = { templateEntry e2 with value := JValue.str (osString s) } :: substMatched [] ssTail from substMatched_cons_str (templateEntry e2) [] s ssTail (templateReplacement (escapeKey e2.key) false) hf2v]
    rw [show substMatched [] ssTail = [] from rfl]
    rw [hosS, templateEntry_update e2 (JValue.str v2) hv2]
  rw [compileFlat, hpassA]
  dsimp only
  rw [hclean]
  exact hpassB


theorem expectedStringset_cons_extract (e : JEntry) (rest : List JEntry)
    (ord : Nat) (v : List Char)
    (hx : shouldExtract e = true) (hv : e.value = JValue.str v) :
    expectedStringset (e :: rest) ord =
      { key := escapeKey e.key, payload := Payload.plain v, order := ord, pluralized := false } :: expectedStringset rest (ord + 1) := by
  obtain ⟨a, b, c2, val⟩ := e
  dsimp only at hv
  subst hv
  dsimp only [expectedStringset]
  rw [if_pos hx]

/-- C5: during compile, a scanned unit whose placeholder does not match
the stringset entry at the current read position raises no error: the
compile succeeds, the unit's span is removed, and the dangling comma it
leaves behind is collapsed by `_clean_empties`, yielding exactly the
document without that unit. -/
theorem C5_mismatch_removes_unit (d : JDoc) (e1 e2 : JEntry)
    (v1 v2 : List Char) (s : OpenString) (ssTail : List OpenString)
    (hent : d.entries = [e1, e2])
    (hwf : WFDoc d) (hcr : '\r' ∉ renderJDoc d)
    (hv1 : e1.value = JValue.str v1) (hv2 : e2.value = JValue.str v2)
    (hstr : ∀ e ∈ d.entries, ∀ v, e.value = JValue.str v →
      pyStrip v ≠ [] ∧ isPluralShaped v = false)
    (hplain : ∀ e ∈ d.entries,
      (∀ ch ∈ e.key, plainChar ch = true) ∧ plainValue e.value)
    (hPP : templateReplacement (escapeKey e1.key) false ≠
      templateReplacement (escapeKey e2.key) false)
    (hk2 : s.key = escapeKey e2.key) (hp2 : s.payload = Payload.plain v2)
    (hpl2 : s.pluralized = false) :
    compileFlat (renderJDoc (templateDoc d)) (s :: ssTail) =
      Except.ok (renderJDoc { entries := [e2], wsEnd := d.wsEnd }) :=
  compile2_first_removed d e1 e2 v1 v2 s ssTail hent hwf hcr hv1 hv2
    hstr hplain hPP hk2 hp2 hpl2

/-- Witness for C5: a concrete two-entry template compiled against a
stringset holding only the second unit's translation. -/
theorem C5_mismatch_removes_unit_witness :
    compileFlat (renderJDoc (templateDoc sampleDoc4))
      [{ key := ['b'], payload := Payload.plain ['y'], order := 1, pluralized := false }] =
      Except.ok (renderJDoc { entries := [sampleEntryB], wsEnd := sampleDoc4.wsEnd }) :=
  C5_mismatch_removes_unit sampleDoc4 sampleEntry6a sampleEntryB ['x'] ['y']
    { key := ['b'], payload := Payload.plain ['y'], order := 1, pluralized := false } []
    rfl (by decide) (by decide) rfl rfl
    (by
      intro e he v hv
      rcases List.mem_cons.mp he with rfl | he2
      · injection hv with hh
        subst hh
        decide
      · rcases List.mem_cons.mp he2 with rfl | he3
        · injection hv with hh
          subst hh
          decide
        · exact absurd he3 (List.not_mem_nil e))
    (by decide) (by decide) (by decide) rfl rfl

/-- Counterexample to C4: reversing the two-entry extraction stringset
is a permutation with unmodified placeholders, yet compile's output
changes (the first unit is dropped instead of matched). -/
theorem C4_counterexample :
    ((expectedStringset sampleDoc4.entries 0).reverse).Perm
      (expectedStringset sampleDoc4.entries 0) ∧
    compileFlat (renderJDoc (templateDoc sampleDoc4))
        ((expectedStringset sampleDoc4.entries 0).reverse) ≠
      compileFlat (renderJDoc (templateDoc sampleDoc4))
        (expectedStringset sampleDoc4.entries 0) :=
  ⟨List.reverse_perm _, by decide⟩

/-- C4 (corrected): matching in `_insert_item` is positional, not
content-driven; for a two-entry document, compiling the template with
the reversed stringset drops the first unit while the original order
reproduces the document, so the two outputs differ. -/
theorem C4_permuted_stringset_differs (d : JDoc) (e1 e2 : JEntry)
    (v1 v2 : List Char)
    (hent : d.entries = [e1, e2])
    (hwf : WFDoc d) (hcr : '\r' ∉ renderJDoc d)
    (hv1 : e1.value = JValue.str v1) (hv2 : e2.value = JValue.str v2)
    (hstr : ∀ e ∈ d.entries, ∀ v, e.value = JValue.str v →
      pyStrip v ≠ [] ∧ isPluralShaped v = false)
    (hplain : ∀ e ∈ d.entries,
      (∀ ch ∈ e.key, plainChar ch = true) ∧ plainValue e.value)
    (hPP : templateReplacement (escapeKey e1.key) false ≠
      templateReplacement (escapeKey e2.key) false) :
    compileFlat (renderJDoc (templateDoc d))
        ((expectedStringset d.entries 0).reverse) =
      Except.ok (renderJDoc { entries := [e2], wsEnd := d.wsEnd }) ∧
    compileFlat (renderJDoc (templateDoc d)) (expectedStringset d.entries 0) =
      Except.ok (renderJDoc d) ∧
    compileFlat (renderJDoc (templateDoc d))
        ((expectedStringset d.entries 0).reverse) ≠
      compileFlat (renderJDoc (templateDoc d))
        (expectedStringset d.entries 0) := by
  have he1 : e1 ∈ d.entries := by rw [hent]; exact List.mem_cons_self _ _
  have he2 : e2 ∈ d.entries := by
    rw [hent]
    exact List.mem_cons_of_mem _ (List.mem_cons_self _ _)
  have hx1 : shouldExtract e1 = true :=
    shouldExtract_of_strip e1 v1 hv1 (hstr e1 he1 v1 hv1).1
  have hx2 : shouldExtract e2 = true :=
    shouldExtract_of_strip e2 v2 hv2 (hstr e2 he2 v2 hv2).1
  have hss : expectedStringset d.entries 0 =
      [{ key := escapeKey e1.key, payload := Payload.plain v1, order := 0, pluralized := false }, { key := escapeKey e2.key, payload := Payload.plain v2, order := 1, pluralized := false }] := by
    rw [hent, expectedStringset_cons_extract e1 [e2] 0 v1 hx1 hv1,
      expectedStringset_cons_extract e2 [] (0 + 1) v2 hx2 hv2]
    rfl
  have hrev : (expectedStringset d.entries 0).reverse =
      [{ key := escapeKey e2.key, payload := Payload.plain v2, order := 1, pluralized := false }, { key := escapeKey e1.key, payload := Payload.plain v1, order := 0, pluralized := false }] := by
    rw [hss]
    rfl
  have hA : compileFlat (renderJDoc (templateDoc d))
      ((expectedStringset d.entries 0).reverse) =
      Except.ok (renderJDoc { entries := [e2], wsEnd := d.wsEnd }) := by
    rw [hrev]
    exact compile2_first_removed d e1 e2 v1 v2
      { key := escapeKey e2.key, payload := Payload.plain v2, order := 1, pluralized := false }
      [{ key := escapeKey e1.key, payload := Payload.plain v1, order := 0, pluralized := false }]
      hent hwf hcr hv1 hv2 hstr hplain hPP rfl rfl rfl
  have hB : compileFlat (renderJDoc (templateDoc d))
      (expectedStringset d.entries 0) = Except.ok (renderJDoc d) :=
    compile_template_ok d hwf hcr
      (fun e he v hv => (hstr e he v hv).1) hplain
  refine ⟨hA, hB, ?_⟩
  intro h
  rw [hA, hB] at h
  have hdoc := Except.ok.inj h
  have hlen := congrArg List.length hdoc
  rw [renderJDoc, renderJDoc, hent] at hlen
  rw [show ({ entries := [e2], wsEnd := d.wsEnd } : JDoc).entries = [e2]
      from rfl,
    show ({ entries := [e2], wsEnd := d.wsEnd } : JDoc).wsEnd = d.wsEnd
      from rfl] at hlen
  rw [show joinComma ([e2].map renderJEntry) = renderJEntry e2 from rfl,
    show joinComma ([e1, e2].map renderJEntry) =
      renderJEntry e1 ++ ',' :: renderJEntry e2 from rfl] at hlen
  simp only [List.length_cons, List.length_append] at hlen
  omega

/-- Witness for the corrected C4 at the concrete two-entry document. -/
theorem C4_permuted_stringset_differs_witness :
    compileFlat (renderJDoc (templateDoc sampleDoc4))
        ((expectedStringset sampleDoc4.entries 0).reverse) =
      Except.ok (renderJDoc { entries := [sampleEntryB], wsEnd := sampleDoc4.wsEnd }) ∧
    compileFlat (renderJDoc (templateDoc sampleDoc4))
        (expectedStringset sampleDoc4.entries 0) =
      Except.ok (renderJDoc sampleDoc4) ∧
    compileFlat (renderJDoc (templateDoc sampleDoc4))
        ((expectedStringset sampleDoc4.entries 0).reverse) ≠
      compileFlat (renderJDoc (templateDoc sampleDoc4))
        (expectedStringset sampleDoc4.entries 0) :=
  C4_permuted_stringset_differs sampleDoc4 sampleEntry6a sampleEntryB
    ['x'] ['y'] rfl (by decide) (by decide) rfl rfl
    (by
      intro e he v hv
      rcases List.mem_cons.mp he with rfl | he2
      · injection hv with hh
        subst hh
        decide
      · rcases List.mem_cons.mp he2 with rfl | he3
        · injection hv with hh
          subst hh
          decide
        · exact absurd he3 (List.not_mem_nil e))
    (by decide) (by decide)

end OpenFormats
